import Mathlib

/-!
# Verification of the caboose log-analysis core

A shallow embedding, in Lean 4, of the diagnostics pipeline of the
`caboose` repository: query fingerprinting and N+1 detection
(`src/query/mod.rs`), request-context tracking (`src/context/mod.rs`),
database health scoring (`src/database/mod.rs`), the Rails log line
classifier (`src/parser/mod.rs`) and the exception tracker
(`src/exception/mod.rs`).

Strings are modelled as `List Char` with ASCII regex semantics
(the source's regexes are only ever exercised on ASCII log text):
`\w` is `[A-Za-z0-9_]`, `\d` is `[0-9]`, whitespace is
`Char.isWhitespace`.  Rust `f64` millisecond durations are modelled
as `ℚ`; every duration literal appearing in the source and in the
claims (`100.0`, `50.0`, `120.0`, …) is exactly representable, so no
rounding behaviour is lost.
-/

namespace Caboose

abbrev Str := List Char

/-- ASCII model of the regex word class `\w` used by the `\b` boundaries
in `normalize_query`'s `\b\d+\b` pattern. -/
def isWordChar (c : Char) : Bool := c.isAlphanum || c = '_'

/-! ## QueryFingerprint (src/query/mod.rs, `normalize_query`)

The source applies, in order:
1. `\$\d+`   → `?`   (positional placeholders)
2. `'[^']*'` → `?`   (single-quoted string literals)
3. `\b\d+\b` → `?`   (standalone numeric literals)
4. whitespace collapse (`split_whitespace().join(" ")`).

Each regex pass is embedded as a left-to-right state-machine scanner
with the same leftmost, greedy `replace_all` semantics. -/

/-- Pass 1: `\$\d+` → `?`.  `inD` records that the scanner is inside the
digit run of a matched placeholder (those digits are consumed). -/
def replPh (inD : Bool) : Str → Str
  | [] => []
  | c :: cs =>
    if inD && c.isDigit then replPh true cs
    else if c = '$' && (match cs with | d :: _ => d.isDigit | [] => false) then
      '?' :: replPh true cs
    else c :: replPh false cs

/-- Pass 2: `'[^']*'` → `?`.  `st = some buf` means an opening quote has
been seen and `buf` holds (reversed) the characters read since; if the
input ends there, the unmatched region is emitted verbatim, exactly as
`replace_all` leaves text after the last match untouched. -/
def replStr (st : Option Str) : Str → Str
  | [] => match st with | none => [] | some buf => '\'' :: buf.reverse
  | c :: cs =>
    match st with
    | none => if c = '\'' then replStr (some []) cs else c :: replStr none cs
    | some buf => if c = '\'' then '?' :: replStr none cs else replStr (some (c :: buf)) cs

/-- Pass 3: `\b\d+\b` → `?`.  `st = some buf` holds a pending maximal
digit run whose left boundary held; the run is replaced only if its
right end is also a word boundary.  `prevW` records whether the previous
character was a word character (left-boundary test). -/
def replNum (st : Option Str) (prevW : Bool) : Str → Str
  | [] => match st with | none => [] | some _ => ['?']
  | c :: cs =>
    match st with
    | some buf =>
      if c.isDigit then replNum (some (c :: buf)) prevW cs
      else if isWordChar c then buf.reverse ++ c :: replNum none true cs
      else '?' :: c :: replNum none false cs
    | none =>
      if c.isDigit && !prevW then replNum (some [c]) prevW cs
      else c :: replNum none (isWordChar c) cs

/-- `split_whitespace`: maximal runs of non-whitespace characters. -/
def wsSplit (cur : Str) : Str → List Str
  | [] => if cur.isEmpty then [] else [cur.reverse]
  | c :: cs =>
    if c.isWhitespace then
      (if cur.isEmpty then wsSplit [] cs else cur.reverse :: wsSplit [] cs)
    else wsSplit (c :: cur) cs

/-- `.join(" ")`. -/
def joinSpace : List Str → Str
  | [] => []
  | [t] => t
  | t :: ts => t ++ ' ' :: joinSpace ts

/-- Pass 4: `split_whitespace().collect::<Vec<_>>().join(" ")`. -/
def collapseWs (l : Str) : Str := joinSpace (wsSplit [] l)

/-- `QueryFingerprint::normalize_query`. -/
def normalizeQuery (q : Str) : Str :=
  collapseWs (replNum none false (replStr none (replPh false q)))

/-! ## Query data model (src/query/mod.rs) -/

/-- `QueryType` (src/query/mod.rs). -/
inductive QueryType where
  | select | insert | update | delete | txBegin | commit | rollback | other
  deriving DecidableEq, Repr

/-- Rust `str::trim`. -/
def trimStr (l : Str) : Str :=
  ((l.dropWhile Char.isWhitespace).reverse.dropWhile Char.isWhitespace).reverse

/-- Rust `str::to_uppercase` (ASCII). -/
def upper (l : Str) : Str := l.map Char.toUpper

/-- `QueryType::from_sql`: uppercase the trimmed SQL and test its leading keyword. -/
def QueryType.fromSql (sql : Str) : QueryType :=
  let u := upper (trimStr sql)
  if "SELECT".toList.isPrefixOf u then .select
  else if "INSERT".toList.isPrefixOf u then .insert
  else if "UPDATE".toList.isPrefixOf u then .update
  else if "DELETE".toList.isPrefixOf u then .delete
  else if "BEGIN".toList.isPrefixOf u then .txBegin
  else if "COMMIT".toList.isPrefixOf u then .commit
  else if "ROLLBACK".toList.isPrefixOf u then .rollback
  else .other

/-- `QueryInfo` (src/query/mod.rs); the fingerprint is carried as its
normalized string, durations as `ℚ` milliseconds. -/
structure QueryInfo where
  raw_query : Str
  fingerprint : Str
  duration : ℚ
  rows : Option Nat
  query_type : QueryType
  deriving DecidableEq, Repr

/-- `RequestContext` (src/query/mod.rs); the `Instant` creation timestamp
plays no role in any claim and is omitted. -/
structure RequestContext where
  queries : List QueryInfo
  path : Option Str
  deriving DecidableEq, Repr

/-- `NPlusOneIssue` (src/query/mod.rs). -/
structure NPlusOneIssue where
  fingerprint : Str
  count : Nat
  total_duration : ℚ
  sample_query : Str
  suggestion : Str
  deriving DecidableEq, Repr

/-- Rust `str::trim_end_matches('s')`: strip every trailing `'s'`. -/
def dropTrailingS (l : Str) : Str :=
  (l.reverse.dropWhile (· = 's')).reverse

/-- First index at which `pat` occurs as a contiguous sublist, if any
(Rust `str::find` / leftmost regex match position). -/
def findSub (l pat : Str) : Option Nat :=
  match l with
  | [] => if pat.isEmpty then some 0 else none
  | _ :: cs => if pat.isPrefixOf l then some 0 else (findSub cs pat).map (· + 1)

/-- Whether `pat` occurs as a contiguous sublist (Rust `str::contains`). -/
def containsSub (l pat : Str) : Bool := (findSub l pat).isSome

/-- The capture of `FROM\s+"?(\w+)"?` (used by
`NPlusOneDetector::generate_suggestion`): after the first `FROM` that is
followed by at least one whitespace character, skip the whitespace and an
optional `"`, and take the maximal (nonempty) `\w` run. -/
def fromTableCapture : Str → Option Str
  | [] => none
  | c :: cs =>
    if "FROM".toList.isPrefixOf (c :: cs) then
      let rest := (c :: cs).drop 4
      let ws := rest.takeWhile Char.isWhitespace
      if ws.isEmpty then fromTableCapture cs
      else
        let rest' := rest.dropWhile Char.isWhitespace
        let rest'' := match rest' with
          | '"' :: r => r
          | r => r
        let w := rest''.takeWhile isWordChar
        if w.isEmpty then fromTableCapture cs else some w
    else fromTableCapture cs

/-- `NPlusOneDetector::generate_suggestion`. -/
def generateSuggestion (query : Str) (count : Nat) : Str :=
  match fromTableCapture query with
  | some table =>
      "Possible N+1 query detected (".toList ++ (toString count).toList
        ++ " times). Consider using eager loading:\n  Model.includes(:".toList
        ++ dropTrailingS table ++ ") instead of lazy loading".toList
  | none =>
      "Possible N+1 query detected (".toList ++ (toString count).toList
        ++ " times). Consider using eager loading with .includes() or .preload()".toList

/-- `HashMap::entry(..).or_insert_with(Vec::new).push(..)` on an
association-list model of the fingerprint grouping map. -/
def groupInsert (m : List (Str × List QueryInfo)) (k : Str) (q : QueryInfo) :
    List (Str × List QueryInfo) :=
  match m with
  | [] => [(k, [q])]
  | (k', qs) :: rest =>
    if k' = k then (k', qs ++ [q]) :: rest else (k', qs) :: groupInsert rest k q

/-- The grouping loop of `NPlusOneDetector::detect`: only `Select`
queries are entered into the map. -/
def groupSelects (qs : List QueryInfo) : List (Str × List QueryInfo) :=
  qs.foldl (fun m q => if q.query_type = .select then groupInsert m q.fingerprint q else m) []

/-- Stable insertion, descending by `count`
(`issues.sort_by(|a, b| b.count.cmp(&a.count))`). -/
def insertDescByCount (a : NPlusOneIssue) : List NPlusOneIssue → List NPlusOneIssue
  | [] => [a]
  | b :: bs => if a.count ≤ b.count then b :: insertDescByCount a bs else a :: b :: bs

/-- Stable sort, descending by `count`. -/
def sortDescByCount : List NPlusOneIssue → List NPlusOneIssue
  | [] => []
  | a :: as' => insertDescByCount a (sortDescByCount as')

/-- The issue built from one grouping-map entry of `detect` when its
query list recurs more than twice (`queries[0]` is the sample). -/
def issueOf (p : Str × List QueryInfo) : Option NPlusOneIssue :=
  if h : 2 < p.2.length then
    some { fingerprint := p.1
           count := p.2.length
           total_duration := (p.2.map (·.duration)).sum
           sample_query := (p.2.head (by intro hnil; simp [hnil] at h)).raw_query
           suggestion := generateSuggestion
             (p.2.head (by intro hnil; simp [hnil] at h)).raw_query p.2.length }
  else none

/-- `NPlusOneDetector::detect`. -/
def NPlusOneDetector.detect (ctx : RequestContext) : List NPlusOneIssue :=
  sortDescByCount ((groupSelects ctx.queries).filterMap issueOf)

/-- The fingerprints of the `Select`-type queries of a context, in order
(the multiset over which the N+1 threshold is stated). -/
def selectFingerprints (ctx : RequestContext) : List Str :=
  (ctx.queries.filter (fun q => q.query_type = .select)).map (·.fingerprint)

/-- The grouping fold of `detect` from an arbitrary accumulator map. -/
def gfoldSel (m : List (Str × List QueryInfo)) (qs : List QueryInfo) :
    List (Str × List QueryInfo) :=
  qs.foldl (fun m q => if q.query_type = .select then groupInsert m q.fingerprint q else m) m

/-- First-entry lookup in the grouping map. -/
def lookupG (m : List (Str × List QueryInfo)) (f : Str) : List QueryInfo :=
  match m with
  | [] => []
  | (k, l) :: rest => if k = f then l else lookupG rest f

/-- The keys of the grouping map. -/
def keysG (m : List (Str × List QueryInfo)) : List Str := m.map Prod.fst

/-- The `Select` queries of `qs` carrying fingerprint `f`, in order. -/
def selQ (qs : List QueryInfo) (f : Str) : List QueryInfo :=
  qs.filter (fun q => q.query_type = QueryType.select ∧ q.fingerprint = f)

/-! ## Parser data model (src/parser/mod.rs) -/

/-- `HttpRequest` (src/parser/mod.rs). -/
structure HttpRequest where
  method : Str
  path : Str
  status : Option Nat
  duration : Option ℚ
  controller : Option Str
  action : Option Str
  deriving DecidableEq, Repr

/-- `SqlQuery` (src/parser/mod.rs). -/
structure SqlQuery where
  query : Str
  duration : Option ℚ
  rows : Option Nat
  name : Option Str
  deriving DecidableEq, Repr

/-- `RailsError` (src/parser/mod.rs). -/
inductive RailsError where
  | pendingMigrations
  | databaseNotFound (name : Str)
  | databaseConnectionFailed (detail : Str)
  | missingGem (name : Str)
  | bundlerError (detail : Str)
  | configurationError (detail : Str)
  | portInUse (port : Nat)
  | genericStartupError (detail : Str)
  deriving DecidableEq, Repr

/-- `LogEvent` (src/parser/mod.rs). -/
inductive LogEvent where
  | httpRequest (req : HttpRequest)
  | sqlQuery (q : SqlQuery)
  | error (s : Str)
  | railsStartupError (e : RailsError)
  | info (s : Str)
  deriving DecidableEq, Repr

/-! ## RequestContextTracker (src/context/mod.rs)

The two `HashMap`/`Vec` fields behind the tracker's mutexes are modelled
as an association list (`current`) and a list (`completed`).  The
"first" entry yielded by `HashMap` iteration — an arbitrary entry in
Rust — is modelled as the head of the association list; every theorem
below states only properties that hold for any choice of that entry. -/

/-- `CompletedRequest` (src/context/mod.rs); `completed_at` is omitted. -/
structure CompletedRequest where
  context : RequestContext
  n_plus_one_issues : List NPlusOneIssue
  total_duration : Option ℚ
  status : Option Nat
  deriving DecidableEq, Repr

/-- The state behind `RequestContextTracker`'s two mutexes. -/
structure TrackerState where
  current : List (Str × RequestContext)
  completed : List CompletedRequest
  deriving DecidableEq, Repr

/-- `max_completed` as set by `RequestContextTracker::new`. -/
def maxCompleted : Nat := 100

def TrackerState.initial : TrackerState := ⟨[], []⟩

/-- `HashMap::insert` on the association-list model: replace the entry
with an equal key, otherwise add a new entry. -/
def alInsertCtx (m : List (Str × RequestContext)) (k : Str) (v : RequestContext) :
    List (Str × RequestContext) :=
  match m with
  | [] => [(k, v)]
  | (k', v') :: rest =>
    if k' = k then (k, v) :: rest else (k', v') :: alInsertCtx rest k v

/-- `RequestContextTracker::start_request`. -/
def startRequest (st : TrackerState) (req : HttpRequest) : TrackerState :=
  if req.path.isEmpty then st
  else { st with current := alInsertCtx st.current req.path ⟨[], some req.path⟩ }

/-- The `QueryInfo` derived from a `SqlQuery` signal in
`add_query_to_current_request`. -/
def queryInfoOf (q : SqlQuery) : QueryInfo :=
  { raw_query := q.query
    fingerprint := normalizeQuery q.query
    duration := q.duration.getD 0
    rows := q.rows
    query_type := QueryType.fromSql q.query }

/-- `RequestContextTracker::add_query_to_current_request`: append the
derived `QueryInfo` to the first open context; when no context is open,
the state is left untouched (the comment's "background" context does not
exist in the code). -/
def addQueryToCurrentRequest (st : TrackerState) (q : SqlQuery) : TrackerState :=
  match st.current with
  | [] => st
  | (p, ctx) :: rest =>
    { st with current := (p, { ctx with queries := ctx.queries ++ [queryInfoOf q] }) :: rest }

/-- `RequestContextTracker::complete_request`: `requests.drain().next()`
takes the first open context **and clears the whole map** (dropping the
`Drain` iterator removes every remaining entry); the taken context is
packaged and pushed, with `remove(0)` eviction past `max_completed`. -/
def completeRequest (st : TrackerState) (req : HttpRequest) : TrackerState :=
  match st.current with
  | [] => st
  | (_, ctx) :: _ =>
    let issues := NPlusOneDetector.detect ctx
    let done : CompletedRequest :=
      { context := ctx, n_plus_one_issues := issues
        total_duration := req.duration, status := req.status }
    let comp := st.completed ++ [done]
    { current := []
      completed := if maxCompleted < comp.length then comp.drop 1 else comp }

/-- The `CompletedRequest` that `complete_request` builds from a context
and the completion signal. -/
def completedOf (ctx : RequestContext) (req : HttpRequest) : CompletedRequest :=
  ⟨ctx, NPlusOneDetector.detect ctx, req.duration, req.status⟩

/-- `RequestContextTracker::process_log_event`. -/
def processLogEvent (st : TrackerState) (ev : LogEvent) : TrackerState :=
  match ev with
  | .httpRequest req => if req.status.isNone then startRequest st req else completeRequest st req
  | .sqlQuery q => addQueryToCurrentRequest st q
  | _ => st

/-! ## DatabaseHealth (src/database/mod.rs)

`tables_accessed` is an association list model of the `HashMap`; the
entry chosen by `min_by_key` over the arbitrary-order iteration is
modelled as the first entry attaining the minimal count.  `last_seen`
timestamps and the `eprintln!` warnings (pure side effects) are omitted;
the informational strings of `DatabaseIssue` (title, description,
recommendation, migration code) carry no behaviour used by any claim
and are omitted from the issue structure. -/

def MAX_TABLES_TRACKED : Nat := 100
def TABLES_WARNING_THRESHOLD : Nat := 90

/-- `SlowQuery` (src/database/mod.rs); `last_seen` omitted. -/
structure SlowQuery where
  query : Str
  duration : ℚ
  table : Option Str
  execution_count : Nat
  deriving DecidableEq, Repr

/-- `IssueType` (src/database/mod.rs). -/
inductive IssueType where
  | missingIndex | unusedIndex | duplicateIndex | missingForeignKeyIndex
  | slowQuery | largeTable | selectStar
  deriving DecidableEq, Repr

/-- `IssueSeverity` (src/database/mod.rs). -/
inductive IssueSeverity where
  | low | medium | high | critical
  deriving DecidableEq, Repr

/-- `IssueSeverity::score`. -/
def IssueSeverity.weight : IssueSeverity → Nat
  | .low => 1
  | .medium => 5
  | .high => 10
  | .critical => 20

/-- The derived `Ord` on `IssueSeverity` (declaration order Low < Medium
< High < Critical), as a rank. -/
def IssueSeverity.rank : IssueSeverity → Nat
  | .low => 0
  | .medium => 1
  | .high => 2
  | .critical => 3

/-- `DatabaseIssue`, restricted to its behavioural fields. -/
structure DatabaseIssue where
  issue_type : IssueType
  severity : IssueSeverity
  deriving DecidableEq, Repr

/-- `QueryStats` (src/database/mod.rs). -/
structure QueryStats where
  total_queries : Nat
  slow_queries_count : Nat
  select_star_count : Nat
  missing_index_hints : Nat
  tables_accessed : List (Str × Nat)
  deriving DecidableEq, Repr

/-- The state behind `DatabaseHealth`'s mutexes (`_tables` is never
written and is omitted). -/
structure HealthState where
  slow_queries : List SlowQuery
  stats : QueryStats
  deriving DecidableEq, Repr

def HealthState.initial : HealthState := ⟨[], ⟨0, 0, 0, 0, []⟩⟩

/-- First whitespace-delimited token of a string
(`split_whitespace().next()`). -/
def firstToken (l : Str) : Option Str :=
  match wsSplit [] l with
  | [] => none
  | t :: _ => some t

/-- Rust `str::trim_matches(c)`: strip every leading and trailing `c`. -/
def trimMatchesChar (c : Char) (l : Str) : Str :=
  ((l.dropWhile (· = c)).reverse.dropWhile (· = c)).reverse

/-- `DatabaseHealth::extract_table_name`.  Each branch searches the
uppercased text for its keyword and reads the following token out of the
original text at the same (ASCII, length-preserving) offset; a branch
whose token is absent returns `none` for the whole function (the Rust
`?`). -/
def extractTableName (query : Str) : Option Str :=
  let u := upper query
  match findSub u (" FROM ".toList) with
  | some pos =>
    (firstToken (query.drop (pos + 6))).map (fun t => trimMatchesChar '`' (trimMatchesChar '"' t))
  | none =>
    match findSub u ("UPDATE ".toList) with
    | some pos =>
      (firstToken (query.drop (pos + 7))).map (fun t => trimMatchesChar '`' (trimMatchesChar '"' t))
    | none =>
      match findSub u ("INSERT INTO ".toList) with
      | some pos =>
        (firstToken (query.drop (pos + 12))).map
          (fun t => trimMatchesChar '`' (trimMatchesChar '"' t))
      | none => none

/-- Key membership in the association-list map. -/
def alHasKey (m : List (Str × Nat)) (k : Str) : Bool := m.any (fun p => p.1 = k)

/-- `*stats.tables_accessed.entry(name).or_insert(0) += 1`. -/
def alBump (m : List (Str × Nat)) (k : Str) : List (Str × Nat) :=
  match m with
  | [] => [(k, 1)]
  | (k', n) :: rest => if k' = k then (k', n + 1) :: rest else (k', n) :: alBump rest k

/-- The entry `min_by_key(|(_, count)| *count)` evicts: the first entry
attaining the least count (any minimal entry may be chosen by the
arbitrary-order `HashMap` iteration; the theorems only use minimality). -/
def alMinEntry : List (Str × Nat) → Option (Str × Nat)
  | [] => none
  | p :: rest =>
    match alMinEntry rest with
    | none => some p
    | some q => if p.2 ≤ q.2 then some p else some q

/-- `HashMap::remove` on the model. -/
def alRemove (m : List (Str × Nat)) (k : Str) : List (Str × Nat) :=
  match m with
  | [] => []
  | (k', n) :: rest => if k' = k then rest else (k', n) :: alRemove rest k

/-- The table-access bookkeeping of `analyze_query` (executed when a
table name was extracted from a slow query): evict the least-accessed
table when the map is at capacity and the name is new, then bump the
name's counter. -/
def trackTable (m : List (Str × Nat)) (k : Str) : List (Str × Nat) :=
  if MAX_TABLES_TRACKED ≤ m.length && !alHasKey m k then
    match alMinEntry m with
    | some q => alBump (alRemove m q.1) k
    | none => alBump m k
  else alBump m k

/-- The slow-query history update of `analyze_query`: bump the record
with the exact same text (refreshing its max duration), otherwise push a
new record and drop the oldest past 50 entries. -/
def updateSlowQueries (sqs : List SlowQuery) (query : Str) (duration : ℚ)
    (table : Option Str) : List SlowQuery :=
  if sqs.any (fun sq => sq.query = query) then
    sqs.map (fun sq =>
      if sq.query = query then
        { sq with execution_count := sq.execution_count + 1
                  duration := if duration > sq.duration then duration else sq.duration }
      else sq)
  else
    let sqs' := sqs ++ [⟨query, duration, table, 1⟩]
    if 50 < sqs'.length then sqs'.drop 1 else sqs'

/-- `DatabaseHealth::analyze_query`. -/
def analyzeQuery (st : HealthState) (query : Str) (duration : ℚ) : HealthState :=
  let s0 := { st.stats with total_queries := st.stats.total_queries + 1 }
  let (sqs, s1) :=
    if duration > 100 then
      let table := extractTableName query
      let sqs := updateSlowQueries st.slow_queries query duration table
      let s := { s0 with slow_queries_count := s0.slow_queries_count + 1 }
      match table with
      | some name => (sqs, { s with tables_accessed := trackTable s.tables_accessed name })
      | none => (sqs, s)
    else (st.slow_queries, s0)
  let s2 :=
    if containsSub (upper query) ("SELECT *".toList) then
      { s1 with select_star_count := s1.select_star_count + 1 }
    else s1
  let s3 :=
    if containsSub (upper query) ("WHERE".toList) && duration > 50 then
      { s2 with missing_index_hints := s2.missing_index_hints + 1 }
    else s2
  { slow_queries := sqs, stats := s3 }

/-- Stable insertion, descending by severity rank
(`issues.sort_by(|a, b| b.severity.cmp(&a.severity))`). -/
def insertDescBySeverity (a : DatabaseIssue) : List DatabaseIssue → List DatabaseIssue
  | [] => [a]
  | b :: bs => if a.severity.rank ≤ b.severity.rank then b :: insertDescBySeverity a bs
               else a :: b :: bs

def sortDescBySeverity : List DatabaseIssue → List DatabaseIssue
  | [] => []
  | a :: as' => insertDescBySeverity a (sortDescBySeverity as')

/-- `DatabaseHealth::get_issues`. -/
def getIssues (st : HealthState) : List DatabaseIssue :=
  let stats := st.stats
  let l1 : List DatabaseIssue :=
    if 10 < stats.slow_queries_count then
      [⟨.slowQuery,
        if 50 < stats.slow_queries_count then .critical
        else if 25 < stats.slow_queries_count then .high
        else .medium⟩]
    else []
  let l2 : List DatabaseIssue :=
    if 5 < stats.select_star_count then [⟨.selectStar, .medium⟩] else []
  let l3 : List DatabaseIssue :=
    if 5 < stats.missing_index_hints then [⟨.missingIndex, .high⟩] else []
  let l4 : List DatabaseIssue :=
    (st.slow_queries.take 5).filterMap (fun sq =>
      if sq.duration > 500 then
        some ⟨.slowQuery, if sq.duration > 1000 then .critical else .high⟩
      else none)
  sortDescBySeverity (l1 ++ l2 ++ l3 ++ l4)

/-- Feeding a sequence of `(query, duration)` pairs through
`analyze_query`. -/
def feedHealth (st : HealthState) (inputs : List (Str × ℚ)) : HealthState :=
  inputs.foldl (fun st p => analyzeQuery st p.1 p.2) st

/-- The total severity weight of an issue list. -/
def weightSum (issues : List DatabaseIssue) : Nat :=
  (issues.map (fun i => i.severity.weight)).sum

/-- `DatabaseHealth::calculate_health_score`.  The two bonus ratios are
computed in exact rational arithmetic (the `f64` of the source); `u32`
`saturating_sub` is `Nat` truncated subtraction. -/
def calculateHealthScore (st : HealthState) : Nat :=
  let issues := getIssues st
  let stats := st.stats
  let score := issues.foldl (fun sc i => sc - i.severity.weight) 100
  if 0 < stats.total_queries then
    let ssr : ℚ := ((stats.select_star_count : ℚ) / (stats.total_queries : ℚ)) * 100
    let score := if ssr < 5 then min (score + 5) 100 else score
    let sqr : ℚ := ((stats.slow_queries_count : ℚ) / (stats.total_queries : ℚ)) * 100
    if sqr < 2 then min (score + 10) 100 else score
  else score

/-! ## RailsLogParser (src/parser/mod.rs)

Each regex is embedded as a deterministic left-to-right scanner with
the crate's leftmost-first semantics (earliest start position wins;
alternatives are tried in written order; quantifier runs are maximal).
SQL log lines contain no newline, so `.` is modelled as "any
character".  On lines where a greedy run would have to give characters
back for the overall regex to match (e.g. a `status=` token embedded
inside the middle of the captured `path` token), the scanner may report
no match where the backtracking engine finds one; no theorem below
applies a matcher to such a line. -/

/-- Literal parser: consume `pat`, return the remainder. -/
def pLit (pat l : Str) : Option Str :=
  if pat.isPrefixOf l then some (l.drop pat.length) else none

/-- `\s+` (maximal, at least one). -/
def pWs1 : Str → Option Str
  | [] => none
  | c :: cs => if c.isWhitespace then some (cs.dropWhile Char.isWhitespace) else none

/-- `\s*` (maximal). -/
def pWs0 (l : Str) : Option Str := some (l.dropWhile Char.isWhitespace)

/-- A maximal nonempty run of characters satisfying `p`. -/
def pRun1 (p : Char → Bool) : Str → Option Str
  | [] => none
  | c :: cs => if p c then some (cs.dropWhile p) else none

/-- One character from `s`. -/
def pCharIn (s : List Char) : Str → Option Str
  | [] => none
  | c :: cs => if s.contains c then some cs else none

/-- Ordered literal alternation, e.g. `(?:DEBUG|INFO|WARN|ERROR|FATAL)`. -/
def pAlts : List Str → Str → Option Str
  | [], _ => none
  | p :: ps, l => match pLit p l with | some r => some r | none => pAlts ps l

/-- `\d{n}` (exactly `n` digits). -/
def pDigitsExact (n : Nat) (l : Str) : Option Str :=
  let d := l.take n
  if d.length = n && d.all Char.isDigit then some (l.drop n) else none

/-- Alternative 1 of the timestamp-prefix regex:
`[DIWEF],\s*[^\]]+]\s+(?:DEBUG|INFO|WARN|ERROR|FATAL)\s+--\s*:\s*`
(`\s*[^\]]+` is consumed as one maximal `']'`-free run: `\s ⊆ [^\]]`). -/
def stripAlt1 (l : Str) : Option Str :=
  (pCharIn ("DIWEF".toList) l).bind fun r1 =>
  (pLit (",".toList) r1).bind fun r2 =>
  (pRun1 (· ≠ ']') r2).bind fun r3 =>
  (pLit ("]".toList) r3).bind fun r4 =>
  (pWs1 r4).bind fun r5 =>
  (pAlts ["DEBUG".toList, "INFO".toList, "WARN".toList, "ERROR".toList, "FATAL".toList] r5).bind
    fun r6 =>
  (pWs1 r6).bind fun r7 =>
  (pLit ("--".toList) r7).bind fun r8 =>
  (pWs0 r8).bind fun r9 =>
  (pLit (":".toList) r9).bind pWs0

/-- Alternative 2: `[^\]]+]\s*:\s*`. -/
def stripAlt2 (l : Str) : Option Str :=
  (pRun1 (· ≠ ']') l).bind fun r1 =>
  (pLit ("]".toList) r1).bind fun r2 =>
  (pWs0 r2).bind fun r3 =>
  (pLit (":".toList) r3).bind pWs0

/-- Alternative 3: `\d{4}-\d{2}-\d{2}[T\s]\d{2}:\d{2}:\d{2}[^\s]*\s+`. -/
def stripAlt3 (l : Str) : Option Str :=
  (pDigitsExact 4 l).bind fun r1 =>
  (pLit ("-".toList) r1).bind fun r2 =>
  (pDigitsExact 2 r2).bind fun r3 =>
  (pLit ("-".toList) r3).bind fun r4 =>
  (pDigitsExact 2 r4).bind fun r5 =>
  (match r5 with
   | c :: cs => if c = 'T' || c.isWhitespace then some cs else none
   | [] => none).bind fun r6 =>
  (pDigitsExact 2 r6).bind fun r7 =>
  (pLit (":".toList) r7).bind fun r8 =>
  (pDigitsExact 2 r8).bind fun r9 =>
  (pLit (":".toList) r9).bind fun r10 =>
  (pDigitsExact 2 r10).bind fun r11 =>
  pWs1 (r11.dropWhile (fun c => !c.isWhitespace))

/-- `RailsLogParser::strip_timestamp_prefix` (the regex is anchored at
`^`; alternatives are preferred in written order). -/
def stripTimestampPrefix (l : Str) : Str :=
  match stripAlt1 l with
  | some r => r
  | none =>
    match stripAlt2 l with
    | some r => r
    | none =>
      match stripAlt3 l with
      | some r => r
      | none => l

/-- Rust `str::to_lowercase` (ASCII). -/
def lower (l : Str) : Str := l.map Char.toLower

/-- `RailsLogParser::extract_database_name`. -/
def extractDatabaseName (line : Str) : Str :=
  match findSub line ("database \"".toList) with
  | some start =>
    let rest := line.drop (start + 10)
    (match findSub rest ("\"".toList) with
     | some e => rest.take e
     | none => extractDatabaseNameSingle line)
  | none => extractDatabaseNameSingle line
where
  /-- The single-quote fallback branch. -/
  extractDatabaseNameSingle (line : Str) : Str :=
    match findSub line ("database \x27".toList) with
    | some start =>
      let rest := line.drop (start + 10)
      (match findSub rest ("\x27".toList) with
       | some e => rest.take e
       | none => "unknown".toList)
    | none => "unknown".toList

/-- `RailsLogParser::extract_gem_name`. -/
def extractGemName (line : Str) : Str :=
  match findSub line ("gem \x27".toList) with
  | some start =>
    let rest := line.drop (start + 5)
    (match findSub rest ("\x27".toList) with
     | some e => rest.take e
     | none => extractGemNameDouble line)
  | none => extractGemNameDouble line
where
  /-- The double-quote fallback branch. -/
  extractGemNameDouble (line : Str) : Str :=
    match findSub line ("gem \"".toList) with
    | some start =>
      let rest := line.drop (start + 5)
      (match findSub rest ("\"".toList) with
       | some e => rest.take e
       | none => "unknown".toList)
    | none => "unknown".toList

/-- Digit string to `Nat`. -/
def digitsToNat (l : Str) : Nat := l.foldl (fun n c => n * 10 + (c.toNat - 48)) 0

/-- Rust `str::parse::<u16>`: all digits, nonempty, value in range. -/
def parseU16 (l : Str) : Option Nat :=
  if !l.isEmpty && l.all Char.isDigit && digitsToNat l < 65536 then some (digitsToNat l)
  else none

/-- `trim_matches(|c: char| !c.is_numeric())`. -/
def trimNonNumeric (l : Str) : Str :=
  ((l.dropWhile (fun c => !c.isDigit)).reverse.dropWhile (fun c => !c.isDigit)).reverse

/-- The word loop of `RailsLogParser::extract_port_from_error`. -/
def extractPortLoop : List Str → Nat
  | w1 :: w2 :: rest =>
    if containsSub (lower w1) ("port".toList) then
      match parseU16 (trimNonNumeric w2) with
      | some p => p
      | none => extractPortLoop (w2 :: rest)
    else extractPortLoop (w2 :: rest)
  | _ => 3000

/-- `RailsLogParser::extract_port_from_error`. -/
def extractPortFromError (line : Str) : Nat := extractPortLoop (wsSplit [] line)

/-- `RailsLogParser::detect_rails_error`: ordered, case-insensitive
substring heuristics (the `\x27` escape is an ASCII apostrophe). -/
def detectRailsError (line : Str) : Option RailsError :=
  let ll := lower line
  let has := fun (p : Str) => containsSub ll p
  if has ("pending migration".toList)
      || (has ("migrations".toList) && has ("pending".toList))
      || has ("run `bin/rails db:migrate`".toList) then
    some .pendingMigrations
  else if (has ("database".toList) && has ("does not exist".toList))
      || has ("unknown database".toList)
      || (has ("database \"".toList) && has ("\" does not exist".toList)) then
    some (.databaseNotFound (extractDatabaseName line))
  else if has ("could not connect to server".toList)
      || has ("connection refused".toList)
      || has ("no connection".toList)
      || (has ("connection".toList) && has ("fail".toList))
      || has ("activerecord::connectionnotestablished".toList) then
    some (.databaseConnectionFailed line)
  else if has ("could not find gem".toList)
      || has ("gem::loaderror".toList)
      || (has ("cannot load such file".toList) && containsSub line ("gem".toList)) then
    some (.missingGem (extractGemName line))
  else if has ("bundler::gemnotfound".toList)
      || has ("your bundle is locked".toList)
      || (has ("bundle install".toList) && has ("error".toList)) then
    some (.bundlerError line)
  else if has ("address already in use".toList)
      || (has ("port".toList) && has ("already in use".toList)) then
    some (.portInUse (extractPortFromError line))
  else if has ("secret_key_base".toList)
      || (has ("config".toList) && (has ("missing".toList) || has ("invalid".toList)))
      || (has ("credentials".toList) && has ("error".toList)) then
    some (.configurationError line)
  else if (has ("rails".toList) || has ("rack".toList))
      && (has ("error".toList) || has ("failed".toList))
      && !has ("test".toList) then
    some (.genericStartupError line)
  else none

/-- Scan for the first `path=` whose following `[^\s]+` capture is
nonempty, returning the capture and the remainder after it. -/
def findPathR : Str → Option (Str × Str)
  | [] => none
  | l@(_ :: cs) =>
    if ("path=".toList).isPrefixOf l then
      let p := (l.drop 5).takeWhile (fun c => !c.isWhitespace)
      if p.isEmpty then findPathR cs
      else some (p, (l.drop 5).drop p.length)
    else findPathR cs

/-- Scan for the first `status=` with a nonempty `\d+` capture. -/
def findStatusR : Str → Option (Str × Str)
  | [] => none
  | l@(_ :: cs) =>
    if ("status=".toList).isPrefixOf l then
      let s := (l.drop 7).takeWhile Char.isDigit
      if s.isEmpty then findStatusR cs
      else some (s, (l.drop 7).drop s.length)
    else findStatusR cs

/-- Scan for the first `duration=` with a `\d+(?:\.\d+)?` capture. -/
def findDurationR : Str → Option Str
  | [] => none
  | l@(_ :: cs) =>
    if ("duration=".toList).isPrefixOf l then
      let ds := (l.drop 9).takeWhile Char.isDigit
      if ds.isEmpty then findDurationR cs
      else
        match (l.drop 9).drop ds.length with
        | '.' :: rr =>
          let fs := rr.takeWhile Char.isDigit
          if fs.isEmpty then some ds else some (ds ++ '.' :: fs)
        | _ => some ds
    else findDurationR cs

/-- The Lograge regex
`method=([A-Z]+).*?path=([^\s]+).*?status=(\d+).*?duration=(\d+(?:\.\d+)?)`:
captures `(method, path, status, duration)`. -/
def logrageMatch : Str → Option (Str × Str × Str × Str)
  | [] => none
  | l@(_ :: cs) =>
    if ("method=".toList).isPrefixOf l then
      let m := (l.drop 7).takeWhile Char.isUpper
      let rest := (l.drop 7).drop m.length
      match (if m.isEmpty then none else
        (findPathR rest).bind fun pr =>
        (findStatusR pr.2).bind fun sr =>
        (findDurationR sr.2).map fun d => (pr.1, sr.1, d)) with
      | some (p, s, d) => some (m, p, s, d)
      | none => logrageMatch cs
    else logrageMatch cs

/-- The key-value start regex `method=([A-Z]+).*?path=([^\s]+)`. -/
def kvStartMatch : Str → Option (Str × Str)
  | [] => none
  | l@(_ :: cs) =>
    if ("method=".toList).isPrefixOf l then
      let m := (l.drop 7).takeWhile Char.isUpper
      let rest := (l.drop 7).drop m.length
      match (if m.isEmpty then none else findPathR rest) with
      | some (p, _) => some (m, p)
      | none => kvStartMatch cs
    else kvStartMatch cs

/-- The HTTP method alternation of `http_start_pattern`. -/
def methodAlt (l : Str) : Option (Str × Str) :=
  match ["GET", "POST", "PUT", "PATCH", "DELETE", "HEAD", "OPTIONS"].find?
      (fun k => k.toList.isPrefixOf l) with
  | some k => some (k.toList, l.drop k.length)
  | none => none

/-- `\s+"([^"]+)"` (first alternative of `http_start_pattern`). -/
def quotedPath (l : Str) : Option Str :=
  (pWs1 l).bind fun r =>
    match r with
    | '"' :: r2 =>
      let p := r2.takeWhile (· ≠ '"')
      if p.isEmpty then none
      else match r2.drop p.length with
        | '"' :: _ => some p
        | _ => none
    | _ => none

/-- `\s+([^\s]+)` (second alternative of `http_start_pattern`). -/
def unquotedPath (l : Str) : Option Str :=
  (pWs1 l).bind fun r =>
    let p := r.takeWhile (fun c => !c.isWhitespace)
    if p.isEmpty then none else some p

/-- `http_start_pattern`:
`Started (GET|…)\s+"([^"]+)"|Started (GET|…)\s+([^\s]+)` —
the quoted alternative is preferred at each candidate position. -/
def httpStartMatch : Str → Option (Str × Str)
  | [] => none
  | l@(_ :: cs) =>
    if ("Started ".toList).isPrefixOf l then
      match (methodAlt (l.drop 8)).bind (fun mr =>
          match quotedPath mr.2 with
          | some p => some (mr.1, p)
          | none => (unquotedPath mr.2).map fun p => (mr.1, p)) with
      | some r => some r
      | none => httpStartMatch cs
    else httpStartMatch cs

/-- `processing_pattern`: `Processing by ([^#]+)#(\w+)`. -/
def processingMatch : Str → Option (Str × Str)
  | [] => none
  | l@(_ :: cs) =>
    if ("Processing by ".toList).isPrefixOf l then
      let c1 := (l.drop 14).takeWhile (· ≠ '#')
      match (if c1.isEmpty then none else
        match (l.drop 14).drop c1.length with
        | '#' :: r2 =>
          let a := r2.takeWhile isWordChar
          if a.isEmpty then none else some (c1, a)
        | _ => none) with
      | some r => some r
      | none => processingMatch cs
    else processingMatch cs

/-- `\s+\w+\s+in\s+(\d+(?:\.\d+)?)ms` (the tail of `completed_pattern`). -/
def completedTail (r : Str) : Option Str :=
  (pWs1 r).bind fun r1 =>
  (pRun1 isWordChar r1).bind fun r2 =>
  (pWs1 r2).bind fun r3 =>
  (pLit ("in".toList) r3).bind fun r4 =>
  (pWs1 r4).bind fun r5 =>
    let ds := r5.takeWhile Char.isDigit
    if ds.isEmpty then none
    else
      let r6 := r5.drop ds.length
      let capr : Str × Str := match r6 with
        | '.' :: rr =>
          let fs := rr.takeWhile Char.isDigit
          if fs.isEmpty then (ds, r6) else (ds ++ '.' :: fs, rr.drop fs.length)
        | _ => (ds, r6)
      match capr.2 with
      | 'm' :: 's' :: _ => some capr.1
      | _ => none

/-- `completed_pattern`: `Completed (\d+)\s+\w+\s+in\s+(\d+(?:\.\d+)?)ms`. -/
def completedMatch : Str → Option (Str × Str)
  | [] => none
  | l@(_ :: cs) =>
    if ("Completed ".toList).isPrefixOf l then
      let s := (l.drop 10).takeWhile Char.isDigit
      match (if s.isEmpty then none else
          (completedTail ((l.drop 10).drop s.length)).map fun d => (s, d)) with
      | some r => some r
      | none => completedMatch cs
    else completedMatch cs

/-- The tail of `sql_pattern` at a candidate start:
`([\w\s]+)\s*\((\d+(?:\.\d+)?)ms\)\s+(SELECT|INSERT|UPDATE|DELETE).+?(?:/\*.*?\*/)?$`
returns the `[\w\s]+` capture and the duration capture. -/
def sqlTimedAt (l : Str) : Option (Str × Str) :=
  let run := l.takeWhile (fun c => isWordChar c || c.isWhitespace)
  if run.isEmpty then none
  else
    match l.drop run.length with
    | '(' :: r1 =>
      let ds := r1.takeWhile Char.isDigit
      if ds.isEmpty then none
      else
        let r2 := r1.drop ds.length
        let capr : Str × Str := match r2 with
          | '.' :: rr =>
            let fs := rr.takeWhile Char.isDigit
            if fs.isEmpty then (ds, r2) else (ds ++ '.' :: fs, rr.drop fs.length)
          | _ => (ds, r2)
        (pLit ("ms)".toList) capr.2).bind fun r3 =>
        (pWs1 r3).bind fun r4 =>
        (pAlts ["SELECT".toList, "INSERT".toList, "UPDATE".toList, "DELETE".toList] r4).bind
          fun r5 =>
        if r5.isEmpty then none else some (run, capr.1)
    | _ => none

/-- `sql_pattern`: the whole match (`caps[0]`) always extends to the end
of the line (the regex ends in `$`). -/
def sqlTimedMatch : Str → Option (Str × Str × Str)
  | [] => none
  | l@(_ :: cs) =>
    match sqlTimedAt l with
    | some (run, dcap) => some (run, dcap, l)
    | none => sqlTimedMatch cs

/-- `sql_simple_pattern`: any of the seven bare SQL verbs occurs. -/
def sqlSimpleMatch (l : Str) : Bool :=
  ["SELECT", "INSERT", "UPDATE", "DELETE", "BEGIN", "COMMIT", "ROLLBACK"].any
    (fun k => containsSub l k.toList)

/-- The comment-stripping scan of `strip_query_comments`
(`/\*.*?\*/` → `""`): `st = some buf` is inside an opened `/*` whose
closing `*/` has not yet been seen (`buf` reversed); an unclosed opener
is emitted verbatim, as `replace_all` leaves unmatched text alone. -/
def stripCommentsGo (st : Option Str) : Str → Str
  | [] =>
    match st with
    | none => []
    | some buf => '/' :: '*' :: buf.reverse
  | '/' :: '*' :: cs2 =>
    (match st with
     | none => stripCommentsGo (some []) cs2
     | some buf => stripCommentsGo (some ('/' :: buf)) ('*' :: cs2))
  | '*' :: '/' :: cs2 =>
    (match st with
     | none => '*' :: stripCommentsGo none ('/' :: cs2)
     | some _ => stripCommentsGo none cs2)
  | c :: cs =>
    (match st with
     | none => c :: stripCommentsGo none cs
     | some buf => stripCommentsGo (some (c :: buf)) cs)

/-- `RailsLogParser::strip_query_comments`. -/
def stripQueryComments (l : Str) : Str := trimStr (stripCommentsGo none l)

/-- Rust `str::parse::<f64>` on a `\d+(?:\.\d+)?` capture, as an exact
rational. -/
def parseDecimal (l : Str) : ℚ :=
  let ip := l.takeWhile Char.isDigit
  match l.drop ip.length with
  | '.' :: fr => mkRat (digitsToNat ip * 10 ^ fr.length + digitsToNat fr) (10 ^ fr.length)
  | _ => mkRat (digitsToNat ip) 1

/-- `caps[3].parse().unwrap_or(0)` for the `u16` status. -/
def parseStatus (l : Str) : Nat := (parseU16 l).getD 0

/-- The classification applied to the prefix-stripped line: the ordered,
first-match-wins cascade of `RailsLogParser::parse_line` after
`strip_timestamp_prefix`. -/
def classifyClean (clean : Str) : Option LogEvent :=
  match detectRailsError clean with
  | some e => some (.railsStartupError e)
  | none =>
    match logrageMatch clean with
    | some (m, p, s, d) =>
      some (.httpRequest ⟨m, p, some (parseStatus s), some (parseDecimal d), none, none⟩)
    | none =>
      match httpStartMatch clean with
      | some (m, p) => some (.httpRequest ⟨m, p, none, none, none, none⟩)
      | none =>
        match kvStartMatch clean with
        | some (m, p) => some (.httpRequest ⟨m, p, none, none, none, none⟩)
        | none =>
          match processingMatch clean with
          | some (c, a) => some (.info ("Processing: ".toList ++ c ++ '#' :: a))
          | none =>
            match completedMatch clean with
            | some (s, d) =>
              some (.httpRequest ⟨[], [], some (parseStatus s), some (parseDecimal d), none, none⟩)
            | none =>
              match sqlTimedMatch clean with
              | some (run, d, whole) =>
                some (.sqlQuery ⟨stripQueryComments whole, some (parseDecimal d), none,
                  some (trimStr run)⟩)
              | none =>
                if sqlSimpleMatch clean then
                  some (.sqlQuery ⟨stripQueryComments clean, none, none, none⟩)
                else if containsSub clean ("ERROR".toList) || containsSub clean ("FATAL".toList)
                    || containsSub clean ("Exception".toList) then
                  some (.error clean)
                else none

/-- `RailsLogParser::parse_line`. -/
def parseLine (line : Str) : Option LogEvent :=
  classifyClean (stripTimestampPrefix line)

/-- A line carrying the four Lograge tokens in order, separated by
single spaces, after an arbitrary prefix. -/
def logrageLine (pre M P S D post : Str) : Str :=
  pre ++ ("method=".toList ++ (M ++ (' ' :: ("path=".toList ++ (P ++ (' ' ::
    ("status=".toList ++ (S ++ (' ' :: ("duration=".toList ++ (D ++ post)))))))))))

/-! ## ExceptionTracker (src/exception/mod.rs)

`Instant` timestamps are omitted; an `ExceptionGroup`'s bounded
`occurrences` buffer is modelled by its length (its elements are all
timestamps).  The grouping `HashMap` is an association list. -/

/-- `ExceptionSeverity` (src/exception/mod.rs). -/
inductive ExceptionSeverity where
  | low | medium | high | critical
  deriving DecidableEq, Repr

/-- `ExceptionSeverity::from_exception_type`: exact string match against
the fixed taxonomy. -/
def fromExceptionType (t : Str) : ExceptionSeverity :=
  if t = "NoMemoryError".toList || t = "SystemStackError".toList
      || t = "SignalException".toList then .critical
  else if t = "NameError".toList || t = "NoMethodError".toList
      || t = "ArgumentError".toList || t = "TypeError".toList
      || t = "ZeroDivisionError".toList || t = "SyntaxError".toList then .high
  else if t = "ActiveRecord::RecordNotFound".toList
      || t = "ActiveRecord::RecordInvalid".toList
      || t = "ActionController::RoutingError".toList
      || t = "ActiveRecord::RecordNotUnique".toList then .medium
  else .low

/-- `Exception` (src/exception/mod.rs); `timestamp` and `context`
(never set by the tracker) are omitted. -/
structure ExceptionRec where
  exception_type : Str
  message : Str
  backtrace : List Str
  file_path : Option Str
  line_number : Option Nat
  deriving DecidableEq, Repr

/-- `ExceptionGroup`; `first_seen`/`last_seen` omitted, `occurrences`
kept as its length. -/
structure ExceptionGroup where
  fingerprint : Str
  exception_type : Str
  message_pattern : Str
  count : Nat
  sample_exception : ExceptionRec
  occurrences : Nat
  deriving DecidableEq, Repr

/-- `ExceptionStats` (src/exception/mod.rs). -/
structure ExceptionStats where
  total_exceptions : Nat
  unique_exceptions : Nat
  critical_count : Nat
  high_count : Nat
  medium_count : Nat
  low_count : Nat
  deriving DecidableEq, Repr

/-- The state behind `ExceptionTracker`'s mutexes. -/
structure ExcState where
  exceptions : List ExceptionRec
  grouped : List (Str × ExceptionGroup)
  stats : ExceptionStats
  current : Option ExceptionRec
  parsing_backtrace : Bool
  deriving DecidableEq, Repr

def ExcState.initial : ExcState := ⟨[], [], ⟨0, 0, 0, 0, 0, 0⟩, none, false⟩

/-- The digit pass of `normalize_message` (`\d+` → `N`); `inRun` marks
being inside an already-replaced digit run. -/
def digitsToN (inRun : Bool) : Str → Str
  | [] => []
  | c :: cs =>
    if c.isDigit then
      if inRun then digitsToN true cs else 'N' :: digitsToN true cs
    else c :: digitsToN false cs

/-- One quote-delimited replacement pass of `normalize_message`
(`"[^"]*"` → `"STR"`, and the same for single quotes), with the
`replace_all` pairing semantics of `replStr`. -/
def quoteToSTR (q : Char) (st : Option Str) : Str → Str
  | [] => match st with | none => [] | some buf => q :: buf.reverse
  | c :: cs =>
    match st with
    | none => if c = q then quoteToSTR q (some []) cs else c :: quoteToSTR q none cs
    | some buf =>
      if c = q then q :: 'S' :: 'T' :: 'R' :: q :: quoteToSTR q none cs
      else quoteToSTR q (some (c :: buf)) cs

/-- `ExceptionTracker::normalize_message`: digit runs to `N`, quoted
spans to `"STR"` / `'STR'`, truncated to 100 characters. -/
def normalizeMessage (m : Str) : Str :=
  (quoteToSTR '\'' none (quoteToSTR '"' none (digitsToN false m))).take 100

/-- `ExceptionTracker::generate_fingerprint`. -/
def generateFingerprint (t m : Str) : Str := t ++ ':' :: normalizeMessage m

/-- `ExceptionTracker::is_exception_type`. -/
def isExceptionType (t : Str) : Bool :=
  ("Error".toList).isSuffixOf t || ("Exception".toList).isSuffixOf t
    || (containsSub t ("::".toList)
        && (containsSub t ("Error".toList) || containsSub t ("Exception".toList)))

/-- `ExceptionTracker::detect_exception`. -/
def detectException (line : Str) : Option ExceptionRec :=
  let pat1 : Option ExceptionRec :=
    match findSub line (" (".toList) with
    | some pos =>
      let t := trimStr (line.take pos)
      if isExceptionType t then
        match findSub (line.drop pos) ("):".toList) with
        | some endPos => some ⟨t, (line.drop (pos + 2)).take (endPos - 2), [], none, none⟩
        | none => none
      else none
    | none => none
  match pat1 with
  | some e => some e
  | none =>
    match findSub line (": ".toList) with
    | some pos =>
      let t := trimStr (line.take pos)
      if isExceptionType t then some ⟨t, line.drop (pos + 2), [], none, none⟩
      else none
    | none => none

/-- `ExceptionTracker::is_backtrace_line`. -/
def isBacktraceLine (line : Str) : Bool :=
  let ts := line.dropWhile Char.isWhitespace
  ("from ".toList).isPrefixOf ts || ("/".toList).isPrefixOf ts
    || ("app/".toList).isPrefixOf ts || ("lib/".toList).isPrefixOf ts
    || ("vendor/".toList).isPrefixOf ts
    || (("  ".toList).isPrefixOf line && containsSub line (".rb:".toList))

/-- Rust `str::trim_start_matches("from ")`: repeatedly strip the
prefix. -/
def trimStartMatchesFrom : Str → Str
  | 'f' :: 'r' :: 'o' :: 'm' :: ' ' :: rest => trimStartMatchesFrom rest
  | l => l

/-- Rust `str::parse::<usize>` (64-bit bound left unmodelled: backtrace
line numbers are tiny). -/
def parseUsize (l : Str) : Option Nat :=
  if !l.isEmpty && l.all Char.isDigit then some (digitsToNat l) else none

/-- `ExceptionTracker::parse_backtrace_location`. -/
def parseBacktraceLocation (line : Str) : Option (Str × Nat) :=
  let cleaned := trimStr (trimStartMatchesFrom line)
  match findSub cleaned (":".toList) with
  | some colonPos =>
    let filePath := cleaned.take colonPos
    let rest := cleaned.drop (colonPos + 1)
    (match findSub rest (":".toList) with
     | some lineEnd =>
       (match parseUsize (rest.take lineEnd) with
        | some n => some (filePath, n)
        | none => none)
     | none => none)
  | none => none

/-- `ExceptionTracker::add_backtrace_line`. -/
def addBacktraceLine (st : ExcState) (line : Str) : ExcState :=
  match st.current with
  | none => st
  | some exc =>
    let cleaned := trimStr line
    let exc := { exc with backtrace := exc.backtrace ++ [cleaned] }
    let exc :=
      if exc.file_path.isNone then
        match parseBacktraceLocation cleaned with
        | some (f, n) => { exc with file_path := some f, line_number := some n }
        | none => exc
      else exc
    { st with current := some exc }

/-- The per-severity counter update of `finalize_current_exception`. -/
def bumpSeverity (s : ExceptionStats) : ExceptionSeverity → ExceptionStats
  | .critical => { s with critical_count := s.critical_count + 1 }
  | .high => { s with high_count := s.high_count + 1 }
  | .medium => { s with medium_count := s.medium_count + 1 }
  | .low => { s with low_count := s.low_count + 1 }

/-- Association-list update of an existing group (count bump, bounded
occurrence push). -/
def bumpGroup (m : List (Str × ExceptionGroup)) (k : Str) : List (Str × ExceptionGroup) :=
  match m with
  | [] => []
  | (k', g) :: rest =>
    if k' = k then
      (k', { g with count := g.count + 1
                    occurrences := if 10 < g.occurrences + 1 then g.occurrences + 1 - 1
                                   else g.occurrences + 1 })
        :: rest
    else (k', g) :: bumpGroup rest k

/-- Group-key membership. -/
def hasGroup (m : List (Str × ExceptionGroup)) (k : Str) : Bool := m.any (fun p => p.1 = k)

/-- `ExceptionTracker::finalize_current_exception`. -/
def finalizeCurrent (st : ExcState) : ExcState :=
  match st.current with
  | none => st
  | some exc =>
    let fp := generateFingerprint exc.exception_type exc.message
    let stats := { st.stats with total_exceptions := st.stats.total_exceptions + 1 }
    let stats := bumpSeverity stats (fromExceptionType exc.exception_type)
    let grouped :=
      if hasGroup st.grouped fp then bumpGroup st.grouped fp
      else st.grouped ++ [(fp, ⟨fp, exc.exception_type, normalizeMessage exc.message, 1, exc, 1⟩)]
    let stats :=
      if hasGroup st.grouped fp then stats
      else { stats with unique_exceptions := stats.unique_exceptions + 1 }
    let exceptions := st.exceptions ++ [exc]
    { exceptions := if 100 < exceptions.length then exceptions.drop 1 else exceptions
      grouped := grouped
      stats := stats
      current := none
      parsing_backtrace := st.parsing_backtrace }

/-- The trailing `detect_exception` step of `ExceptionTracker::parse_line`. -/
def detectInto (st : ExcState) (line : Str) : ExcState :=
  match detectException line with
  | some e => { st with current := some e, parsing_backtrace := true }
  | none => st

/-- `ExceptionTracker::parse_line` as a state transition: a backtrace
line is appended and the function returns early; a non-backtrace line
while accumulating finalizes the pending exception and is then
re-examined for a new exception header. -/
def excStep (st : ExcState) (line : Str) : ExcState :=
  if st.parsing_backtrace then
    if isBacktraceLine line then addBacktraceLine st line
    else detectInto (finalizeCurrent { st with parsing_backtrace := false }) line
  else detectInto st line

/-- Feeding a list of lines. -/
def excRun (st : ExcState) (lines : List Str) : ExcState := lines.foldl excStep st

/-! ## Literal decompositions (for C1)

The spec's phrase "SQL strings that differ only in numeric literals,
single-quoted string literals, or positional placeholders" is
formalized by decomposing a query into a list of segments: shared raw
text, a quoted string literal, a standalone numeric literal, or a
positional placeholder.  `segsWF` states the well-formedness conditions
under which each varying part really is a literal occurrence matched by
the corresponding `normalize_query` regex (nonempty digit runs with
word boundaries for `\b\d+\b`, quote-free string bodies for `'[^']*'`,
digit runs for `\$\d+`, and raw text free of digits, quotes and `$`).
Two decompositions have the same shape when they agree on everything
except the payloads of their literal segments. -/

/-- One segment of a literal decomposition. -/
inductive Seg where
  | raw : Str → Seg
  | str : Str → Seg
  | num : Str → Seg
  | ph : Str → Seg
  deriving DecidableEq, Repr

/-- The SQL text of a segment. -/
def Seg.render : Seg → Str
  | .raw s => s
  | .str s => '\'' :: s ++ ['\'']
  | .num s => s
  | .ph s => '$' :: s

/-- The SQL text of a decomposition. -/
def renderSegs : List Seg → Str
  | [] => []
  | sg :: t => sg.render ++ renderSegs t

/-- A segment's text after the placeholder pass (`\$\d+` → `?`). -/
def Seg.render1 : Seg → Str
  | .raw s => s
  | .str s => '\'' :: s ++ ['\'']
  | .num s => s
  | .ph _ => ['?']

/-- A decomposition's text after the placeholder pass. -/
def render1Segs : List Seg → Str
  | [] => []
  | sg :: t => sg.render1 ++ render1Segs t

/-- A segment's text after the string-literal pass (`'[^']*'` → `?`). -/
def Seg.render2 : Seg → Str
  | .raw s => s
  | .str _ => ['?']
  | .num s => s
  | .ph _ => ['?']

/-- A decomposition's text after the string-literal pass. -/
def render2Segs : List Seg → Str
  | [] => []
  | sg :: t => sg.render2 ++ render2Segs t

/-- A segment's text after the numeric pass: every literal is `?`. -/
def Seg.renderC : Seg → Str
  | .raw s => s
  | _ => ['?']

/-- A decomposition's fully canonicalized text. -/
def renderCSegs : List Seg → Str
  | [] => []
  | sg :: t => sg.renderC ++ renderCSegs t

/-- Segments of equal kind, with equal payloads on shared raw text. -/
def Seg.shapeEq : Seg → Seg → Bool
  | .raw s, .raw s2 => s = s2
  | .str _, .str _ => true
  | .num _, .num _ => true
  | .ph _, .ph _ => true
  | _, _ => false

/-- Decompositions of the same shape. -/
def shapeEqSegs : List Seg → List Seg → Bool
  | [], [] => true
  | a :: as2, b :: bs2 => a.shapeEq b && shapeEqSegs as2 bs2
  | _, _ => false

/-- Raw shared text: nonempty and free of digits, quotes and `$`. -/
def rawOK (s : Str) : Bool :=
  !s.isEmpty && s.all (fun c => !c.isDigit && !(c = '\'') && !(c = '$'))

/-- String-literal body: free of quotes and `$`. -/
def strOK (s : Str) : Bool := s.all (fun c => !(c = '\'') && !(c = '$'))

/-- A nonempty digit run. -/
def digitsOK (s : Str) : Bool := !s.isEmpty && s.all Char.isDigit

/-- The text following a numeric literal starts at a non-word character
(its right-hand `\b`): raw text must open with a non-word character,
string literals and placeholders open with `'`/`$`, and a directly
adjacent further numeric literal is not allowed. -/
def nextNonword : List Seg → Bool
  | [] => true
  | .raw s :: _ => !isWordChar (s.headD '?')
  | .str _ :: _ => true
  | .num _ :: _ => false
  | .ph _ :: _ => true

/-- The text following a placeholder must not start with a digit (the
`\$\d+` match is greedy): only a directly adjacent numeric literal
could violate this. -/
def nextNotDigit : List Seg → Bool
  | .num _ :: _ => false
  | _ => true

/-- Well-formed decomposition.  The `Bool` argument tracks whether the
character preceding the current position is a word character (`\b`
left-boundary state for numeric literals); it starts `false`. -/
def segsWF : Bool → List Seg → Bool
  | _, [] => true
  | _, .raw s :: t => rawOK s && segsWF (isWordChar (s.getLastD '?')) t
  | _, .str s :: t => strOK s && segsWF false t
  | w, .num s :: t => !w && digitsOK s && nextNonword t && segsWF false t
  | _, .ph s :: t => digitsOK s && nextNotDigit t && segsWF false t

/-! ## Fixed-point invariants of `normalize_query` (for C1)

Idempotence is proved by showing that each regex pass is the identity
on `normalize_query` output.  The three scanners below are decidable
checks of the corresponding fixed-point property: no `$` immediately
followed by a digit (pass 1 finds no match), at most one `'` (pass 2
finds no match), and no standalone digit run with non-word characters
on both sides (pass 3 finds no match). -/

/-- No `$` immediately followed by a digit. -/
def noDD : Str → Bool
  | c :: d :: cs => !(c = '$' && d.isDigit) && noDD (d :: cs)
  | _ => true

/-- Number of single quotes. -/
def quoteCount (l : Str) : Nat := l.countP (fun c => c = '\'')

/-- `true` on the first cons of a string iff it does not start with a
digit. -/
def headNotDigit : Str → Bool
  | [] => true
  | c :: _ => !c.isDigit

/-- `true` iff the string is empty or starts with a non-word char. -/
def headNonword : Str → Bool
  | [] => true
  | c :: _ => !isWordChar c

/-- Scan for a standalone `\b\d+\b` digit run.  `inRun` means the
scanner is inside a digit run whose left boundary held; such a run must
end at a word character, otherwise the run is standalone and the scan
fails.  `w` is the pass-3 word-boundary state (ignored inside a run). -/
def nsScan (inRun : Bool) (w : Bool) : Str → Bool
  | [] => !inRun
  | c :: cs =>
    if inRun then
      (if c.isDigit then nsScan true w cs
       else isWordChar c && nsScan false true cs)
    else if c.isDigit && !w then nsScan true w cs
    else nsScan false (isWordChar c) cs

end Caboose
/-! # Theorems

Helper lemmas first, then one theorem (with witness or counterexample
where required) per claim C1 to C10.  -/

namespace Caboose

/-! ## C9 — SqlQuery with no open context is a no-op -/

/-- C9: processing a `SqlQuery` signal while the in-flight map is empty
leaves the tracker state (in-flight map and completed buffer) completely
unchanged; the function is total, so no error is surfaced, and there is
no background bucket that receives the query. -/
theorem c9_sql_query_dropped_without_context (st : TrackerState) (q : SqlQuery)
    (h : st.current = []) :
    processLogEvent st (.sqlQuery q) = st ∧
    (processLogEvent st (.sqlQuery q)).current = [] ∧
    (processLogEvent st (.sqlQuery q)).completed = st.completed := by
  have : processLogEvent st (.sqlQuery q) = st := by
    simp only [processLogEvent, addQueryToCurrentRequest, h]
  exact ⟨this, by rw [this, h], by rw [this]⟩

/-- Witness for C9 at a concrete state with a nonempty completed buffer. -/
theorem c9_sql_query_dropped_without_context_witness :
    processLogEvent ⟨[], [⟨⟨[], none⟩, [], some 30, some 200⟩]⟩
        (.sqlQuery ⟨"SELECT 1 FROM users".toList, some 5, some 1, none⟩)
      = ⟨[], [⟨⟨[], none⟩, [], some 30, some 200⟩]⟩ :=
  (c9_sql_query_dropped_without_context _ _ rfl).1

/-! ## C8 — exception severity taxonomy -/

/-- C8 counterexample: the claim's Medium set uses bare class names, but
`from_exception_type` matches the fully-qualified Rails names only:
`"RecordNotFound"` is classified `Low`, not `Medium`. -/
theorem c8_bare_record_not_found_is_low :
    fromExceptionType ("RecordNotFound".toList) = .low ∧
    ¬ fromExceptionType ("RecordNotFound".toList) = .medium := by
  constructor
  · decide
  · decide

/-- C8 (amended): `from_exception_type` is a pure function of the type
string; it returns `Critical` exactly on {NoMemoryError, SystemStackError,
SignalException}, `High` exactly on {NameError, NoMethodError,
ArgumentError, TypeError, ZeroDivisionError, SyntaxError}, `Medium`
exactly on the fully-qualified {ActiveRecord::RecordNotFound,
ActiveRecord::RecordInvalid, ActionController::RoutingError,
ActiveRecord::RecordNotUnique}, and `Low` on every other string. -/
theorem c8_severity_taxonomy_amended (t : Str) :
    (fromExceptionType t = .critical ↔
      t ∈ ["NoMemoryError".toList, "SystemStackError".toList, "SignalException".toList]) ∧
    (fromExceptionType t = .high ↔
      t ∈ ["NameError".toList, "NoMethodError".toList, "ArgumentError".toList,
           "TypeError".toList, "ZeroDivisionError".toList, "SyntaxError".toList]) ∧
    (fromExceptionType t = .medium ↔
      t ∈ ["ActiveRecord::RecordNotFound".toList, "ActiveRecord::RecordInvalid".toList,
           "ActionController::RoutingError".toList, "ActiveRecord::RecordNotUnique".toList]) ∧
    (fromExceptionType t = .low ↔
      t ∉ ["NoMemoryError".toList, "SystemStackError".toList, "SignalException".toList,
           "NameError".toList, "NoMethodError".toList, "ArgumentError".toList,
           "TypeError".toList, "ZeroDivisionError".toList, "SyntaxError".toList,
           "ActiveRecord::RecordNotFound".toList, "ActiveRecord::RecordInvalid".toList,
           "ActionController::RoutingError".toList, "ActiveRecord::RecordNotUnique".toList]) := by
  simp only [fromExceptionType, List.mem_cons, List.not_mem_nil, or_false]
  split_ifs with h1 h2 h3
  · simp only [Bool.or_eq_true, decide_eq_true_eq] at h1
    rcases h1 with (h | h) | h <;> subst h <;> decide
  · simp only [Bool.or_eq_true, decide_eq_true_eq] at h2
    rcases h2 with ((((h | h) | h) | h) | h) | h <;> subst h <;> decide
  · simp only [Bool.or_eq_true, decide_eq_true_eq] at h3
    rcases h3 with ((h | h) | h) | h <;> subst h <;> decide
  · simp only [Bool.or_eq_true, decide_eq_true_eq, not_or] at h1 h2 h3
    obtain ⟨⟨e1, e2⟩, e3⟩ := h1
    obtain ⟨⟨⟨⟨⟨e4, e5⟩, e6⟩, e7⟩, e8⟩, e9⟩ := h2
    obtain ⟨⟨⟨e10, e11⟩, e12⟩, e13⟩ := h3
    simp only [List.mem_cons, List.not_mem_nil, or_false, not_or]
    refine ⟨⟨False.elim, fun h => ?_⟩, ⟨False.elim, fun h => ?_⟩, ⟨False.elim, fun h => ?_⟩,
      ⟨fun _ => ?_, fun _ => trivial⟩⟩
    · rcases h with h | h | h
      exacts [e1 h, e2 h, e3 h]
    · rcases h with h | h | h | h | h | h
      exacts [e4 h, e5 h, e6 h, e7 h, e8 h, e9 h]
    · rcases h with h | h | h | h
      exacts [e10 h, e11 h, e12 h, e13 h]
    · exact ⟨e1, e2, e3, e4, e5, e6, e7, e8, e9, e10, e11, e12, e13⟩

/-- Witness for C8 (amended): evaluating the characterization at a
qualified name, a bare name and an unknown name. -/
theorem c8_severity_taxonomy_amended_witness :
    fromExceptionType ("ActiveRecord::RecordNotFound".toList) = .medium ∧
    fromExceptionType ("RecordNotFound".toList) = .low ∧
    fromExceptionType ("NoMemoryError".toList) = .critical :=
  ⟨(c8_severity_taxonomy_amended _).2.2.1.mpr (by decide),
   (c8_severity_taxonomy_amended _).2.2.2.mpr (by decide),
   (c8_severity_taxonomy_amended _).1.mpr (by decide)⟩

/-! ## C3 — HttpRequestCompleted drains the whole in-flight map -/

/-- C3 counterexample: with two open contexts, completing a request does
not leave the other context registered — `requests.drain().next()`
clears the entire map, so zero (not one) contexts remain. -/
theorem c3_complete_request_drains_all_contexts :
    let st : TrackerState :=
      ⟨[("/a".toList, ⟨[], some ("/a".toList)⟩), ("/b".toList, ⟨[], some ("/b".toList)⟩)], []⟩
    let req : HttpRequest := ⟨"GET".toList, "/a".toList, some 200, some 30, none, none⟩
    st.current.length = 2 ∧
    (processLogEvent st (.httpRequest req)).current.length = 0 := by
  constructor
  · decide
  · decide

/-- C3 (amended): on a completion signal with at least one open context,
the first open context is removed and processed — N+1 detection runs on
it and exactly one `CompletedRequest` carrying the signal's status and
duration is pushed onto the completed buffer (capacity 100, oldest entry
evicted first) — but the in-flight map is drained empty, so no other
open context remains registered. -/
theorem c3_complete_request_amended (st : TrackerState) (req : HttpRequest)
    (p : Str) (ctx : RequestContext) (rest : List (Str × RequestContext))
    (hcur : st.current = (p, ctx) :: rest) (hs : req.status.isSome) :
    processLogEvent st (.httpRequest req) =
      ⟨[],
       if maxCompleted < (st.completed ++ [completedOf ctx req]).length
       then (st.completed ++ [completedOf ctx req]).drop 1
       else st.completed ++ [completedOf ctx req]⟩ := by
  have hnone : req.status.isNone = false := by
    cases h : req.status with
    | none => rw [h] at hs; simp at hs
    | some v => simp
  obtain ⟨cur, comp⟩ := st
  replace hcur : cur = (p, ctx) :: rest := hcur
  subst hcur
  simp only [processLogEvent, hnone, Bool.false_eq_true, if_false]
  rfl

/-- Witness for C3 (amended) at a concrete one-context state. -/
theorem c3_complete_request_amended_witness :
    processLogEvent
        ⟨[("/u".toList, ⟨[], some ("/u".toList)⟩)], []⟩
        (.httpRequest ⟨"GET".toList, "/u".toList, some 200, some 30, none, none⟩)
      = ⟨[], [⟨⟨[], some ("/u".toList)⟩, [], some 30, some 200⟩]⟩ := by
  have h := c3_complete_request_amended
    ⟨[("/u".toList, ⟨[], some ("/u".toList)⟩)], []⟩
    ⟨"GET".toList, "/u".toList, some 200, some 30, none, none⟩
    ("/u".toList) ⟨[], some ("/u".toList)⟩ [] rfl rfl
  rw [h]
  rfl

/-! ## C10 — timestamp-prefix invariance -/

/-- C10 counterexample: prefix invariance fails in general, because
`parse_line` strips only one leading prefix.  `P` is a recognized
bracketed prefix (stripping `P ++ L` yields exactly `L`), yet the
prefixed line classifies as a generic `Error` event while the bare line
(whose own Rails-tagged prefix is stripped, leaving `"foo"`) yields no
event at all. -/
theorem c10_prefix_invariance_fails :
    let P : Str := "[INFO 2018-07-01 11:55:04 65048] : ".toList
    let L : Str := "E, [ts #1] ERROR -- : foo".toList
    stripTimestampPrefix (P ++ L) = L ∧
    parseLine (P ++ L) = some (.error L) ∧
    parseLine L = none := by
  refine ⟨by decide, by decide, by decide⟩

/-- C10 (amended): classification is invariant under a single leading
timestamp prefix exactly in the regime where the prefix regex consumes
the prefix and nothing more, and the line itself does not begin with
another strippable prefix form; under those two conditions
`parse_line (P ++ L) = parse_line L`, because the prefix is stripped
before any pattern matching. -/
theorem c10_prefix_invariance_amended (P L : Str)
    (h1 : stripTimestampPrefix (P ++ L) = L)
    (h2 : stripTimestampPrefix L = L) :
    parseLine (P ++ L) = parseLine L := by
  simp only [parseLine, h1, h2]

/-- Witness for C10 (amended) at a concrete prefix and line. -/
theorem c10_prefix_invariance_amended_witness :
    parseLine (("[INFO 2018-07-01 11:55:04 65048] : ".toList : Str)
        ++ ("Started GET \"/users\"".toList : Str))
      = parseLine ("Started GET \"/users\"".toList) :=
  c10_prefix_invariance_amended _ _ (by decide) (by decide)

/-! ## C7 — exception grouping by normalized fingerprint -/

theorem digitsToN_nodigit_append (m r : Str) (hm : ∀ c ∈ m, ¬ c.isDigit) :
    digitsToN false (m ++ r) = m ++ digitsToN false r := by
  induction m with
  | nil => rfl
  | cons c m ih =>
    have hc : c.isDigit = false := by
      have := hm c (by simp)
      simpa using this
    simp only [List.cons_append, digitsToN, hc, Bool.false_eq_true, if_false, List.append_eq]
    rw [ih (fun c hc => hm c (by simp [hc]))]

theorem digitsToN_run_consume (d r : Str) (hd : ∀ c ∈ d, c.isDigit) :
    digitsToN true (d ++ r) = digitsToN true r := by
  induction d with
  | nil => rfl
  | cons c d ih =>
    have hc : c.isDigit = true := hd c (by simp)
    simp only [List.cons_append, digitsToN, hc, if_true, List.append_eq]
    exact ih (fun c hc => hd c (by simp [hc]))

theorem digitsToN_true_eq_false (r : Str) (hr : ∀ c, r.head? = some c → ¬ c.isDigit) :
    digitsToN true r = digitsToN false r := by
  cases r with
  | nil => rfl
  | cons c cs =>
    have hc : c.isDigit = false := by
      have := hr c rfl
      simpa using this
    simp [digitsToN, hc]

/-- The digit pass sends `m1 ++ d ++ m2` (with `m1` digit-free, `d` a
nonempty digit run, and `m2` not starting with a digit) to
`m1 ++ N ++ digit-pass m2`, independently of `d`. -/
theorem digitsToN_embedded_run (m1 d m2 : Str)
    (hm1 : ∀ c ∈ m1, ¬ c.isDigit) (hd : d ≠ [] ∧ ∀ c ∈ d, c.isDigit)
    (hm2 : ∀ c, m2.head? = some c → ¬ c.isDigit) :
    digitsToN false (m1 ++ d ++ m2) = m1 ++ 'N' :: digitsToN false m2 := by
  obtain ⟨hne, hdig⟩ := hd
  rw [List.append_assoc, digitsToN_nodigit_append _ _ hm1]
  congr 1
  cases d with
  | nil => exact absurd rfl hne
  | cons c d =>
    have hc : c.isDigit = true := hdig c (by simp)
    simp only [List.cons_append, digitsToN, hc, if_true, Bool.false_eq_true, if_false,
      List.append_eq]
    rw [digitsToN_run_consume d m2 (fun c hc => hdig c (by simp [hc]))]
    rw [digitsToN_true_eq_false _ hm2]

/-- C7 fingerprint invariance: messages differing only in one embedded
digit run share the normalized message, hence the fingerprint. -/
theorem normalizeMessage_digit_invariance (m1 d1 d2 m2 : Str)
    (hm1 : ∀ c ∈ m1, ¬ c.isDigit)
    (hd1 : d1 ≠ [] ∧ ∀ c ∈ d1, c.isDigit) (hd2 : d2 ≠ [] ∧ ∀ c ∈ d2, c.isDigit)
    (hm2 : ∀ c, m2.head? = some c → ¬ c.isDigit) :
    normalizeMessage (m1 ++ d1 ++ m2) = normalizeMessage (m1 ++ d2 ++ m2) := by
  unfold normalizeMessage
  rw [digitsToN_embedded_run m1 d1 m2 hm1 hd1 hm2,
      digitsToN_embedded_run m1 d2 m2 hm1 hd2 hm2]

/-- C7: two exception header lines of the same type whose messages
differ only by an embedded integer produce the same fingerprint, and
feeding them (followed by any non-matching, non-backtrace flush line)
yields one single group whose count reaches 2 — not two groups of 1. -/
theorem c7_exception_grouping (T m1 d1 d2 m2 l1 l2 l3 : Str)
    (hm1 : ∀ c ∈ m1, ¬ c.isDigit)
    (hd1 : d1 ≠ [] ∧ ∀ c ∈ d1, c.isDigit) (hd2 : d2 ≠ [] ∧ ∀ c ∈ d2, c.isDigit)
    (hm2 : ∀ c, m2.head? = some c → ¬ c.isDigit)
    (h1 : detectException l1 = some ⟨T, m1 ++ d1 ++ m2, [], none, none⟩)
    (h2 : detectException l2 = some ⟨T, m1 ++ d2 ++ m2, [], none, none⟩)
    (h3 : detectException l3 = none)
    (hb2 : isBacktraceLine l2 = false) (hb3 : isBacktraceLine l3 = false) :
    generateFingerprint T (m1 ++ d1 ++ m2) = generateFingerprint T (m1 ++ d2 ++ m2) ∧
    (excRun .initial [l1, l2, l3]).grouped =
      [(generateFingerprint T (m1 ++ d1 ++ m2),
        ⟨generateFingerprint T (m1 ++ d1 ++ m2), T, normalizeMessage (m1 ++ d1 ++ m2), 2,
         ⟨T, m1 ++ d1 ++ m2, [], none, none⟩, 2⟩)] := by
  have hnm : normalizeMessage (m1 ++ d1 ++ m2) = normalizeMessage (m1 ++ d2 ++ m2) :=
    normalizeMessage_digit_invariance m1 d1 d2 m2 hm1 hd1 hd2 hm2
  have hfp : generateFingerprint T (m1 ++ d1 ++ m2) = generateFingerprint T (m1 ++ d2 ++ m2) := by
    unfold generateFingerprint
    rw [hnm]
  refine ⟨hfp, ?_⟩
  show (excStep (excStep (excStep .initial l1) l2) l3).grouped = _
  have s1 : excStep ExcState.initial l1
      = { ExcState.initial with current := some ⟨T, m1 ++ d1 ++ m2, [], none, none⟩,
                                parsing_backtrace := true } := by
    simp [excStep, ExcState.initial, detectInto, h1]
  rw [s1]
  set st1 : ExcState := { ExcState.initial with
    current := some ⟨T, m1 ++ d1 ++ m2, [], none, none⟩
    parsing_backtrace := true } with hst1
  set st2 : ExcState := excStep st1 l2 with hst2
  have g2 : st2.grouped = [(generateFingerprint T (m1 ++ d1 ++ m2),
      ⟨generateFingerprint T (m1 ++ d1 ++ m2), T, normalizeMessage (m1 ++ d1 ++ m2), 1,
       ⟨T, m1 ++ d1 ++ m2, [], none, none⟩, 1⟩)] := by
    rw [hst2]
    simp [excStep, hb2, detectInto, h2, finalizeCurrent, hst1, hasGroup, ExcState.initial]
  have c2 : st2.current = some ⟨T, m1 ++ d2 ++ m2, [], none, none⟩ := by
    rw [hst2]
    simp [excStep, hb2, detectInto, h2, hst1]
  have p2 : st2.parsing_backtrace = true := by
    rw [hst2]
    simp [excStep, hb2, detectInto, h2, hst1]
  have step3 : excStep st2 l3 = detectInto (finalizeCurrent { st2 with parsing_backtrace := false }) l3 := by
    simp [excStep, p2, hb3]
  rw [step3]
  have dg : ∀ st, (detectInto st l3).grouped = st.grouped := by
    intro st
    simp [detectInto, h3]
  rw [dg]
  simp only [finalizeCurrent, c2]
  rw [show generateFingerprint T (m1 ++ d2 ++ m2) = generateFingerprint T (m1 ++ d1 ++ m2)
    from hfp.symm]
  rw [g2]
  simp [hasGroup, bumpGroup]

/-- Witness for C7: `user_123` vs `user_456` messages of one
`NoMethodError` type collapse into a single group of count 2. -/
theorem c7_exception_grouping_witness :
    generateFingerprint ("NoMethodError".toList)
        ("undefined method foo for user_".toList ++ "123".toList ++ ([] : Str))
      = generateFingerprint ("NoMethodError".toList)
        ("undefined method foo for user_".toList ++ "456".toList ++ ([] : Str)) ∧
    (excRun .initial ["NoMethodError: undefined method foo for user_123".toList,
        "NoMethodError: undefined method foo for user_456".toList, "done".toList]).grouped
      = [(generateFingerprint ("NoMethodError".toList)
            ("undefined method foo for user_".toList ++ "123".toList ++ ([] : Str)),
          ⟨generateFingerprint ("NoMethodError".toList)
             ("undefined method foo for user_".toList ++ "123".toList ++ ([] : Str)),
           "NoMethodError".toList,
           normalizeMessage ("undefined method foo for user_".toList ++ "123".toList ++ ([] : Str)),
           2,
           ⟨"NoMethodError".toList,
            "undefined method foo for user_".toList ++ "123".toList ++ ([] : Str), [], none, none⟩,
           2⟩)] :=
  c7_exception_grouping ("NoMethodError".toList) ("undefined method foo for user_".toList)
    ("123".toList) ("456".toList) ([] : Str)
    ("NoMethodError: undefined method foo for user_123".toList)
    ("NoMethodError: undefined method foo for user_456".toList)
    ("done".toList)
    (by decide) ⟨by decide, by decide⟩ ⟨by decide, by decide⟩
    (fun c h => by simp at h)
    (by decide) (by decide) (by decide) (by decide) (by decide)

/-! ## C2 — N+1 detection threshold -/

theorem lookupG_groupInsert (m : List (Str × List QueryInfo)) (k f : Str) (q : QueryInfo) :
    lookupG (groupInsert m k q) f = if k = f then lookupG m f ++ [q] else lookupG m f := by
  induction m with
  | nil => by_cases h : k = f <;> simp [groupInsert, lookupG, h]
  | cons p rest ih =>
    obtain ⟨k', l⟩ := p
    by_cases h1 : k' = k
    · subst h1
      by_cases h2 : k' = f <;> simp [groupInsert, lookupG, h2]
    · by_cases h2 : k' = f
      · subst h2
        have h3 : ¬ k = k' := fun h => h1 h.symm
        simp [groupInsert, lookupG, h1, h3]
      · simp [groupInsert, lookupG, h1, h2, ih]

theorem lookupG_gfoldSel (qs : List QueryInfo) (m : List (Str × List QueryInfo)) (f : Str) :
    lookupG (gfoldSel m qs) f = lookupG m f ++ selQ qs f := by
  induction qs generalizing m with
  | nil => simp [gfoldSel, selQ]
  | cons q qs ih =>
    have step : gfoldSel m (q :: qs)
        = gfoldSel (if q.query_type = .select then groupInsert m q.fingerprint q else m) qs := by
      simp [gfoldSel]
    rw [step]
    by_cases hsel : q.query_type = QueryType.select
    · by_cases hf : q.fingerprint = f
      · rw [ih, if_pos hsel, lookupG_groupInsert, if_pos hf]
        simp [selQ, List.filter_cons, hsel, hf]
      · rw [ih, if_pos hsel, lookupG_groupInsert, if_neg hf]
        simp [selQ, List.filter_cons, hsel, hf]
    · rw [ih, if_neg hsel]
      simp [selQ, List.filter_cons, hsel]

theorem keysG_groupInsert (m : List (Str × List QueryInfo)) (k : Str) (q : QueryInfo) :
    keysG (groupInsert m k q) = if k ∈ keysG m then keysG m else keysG m ++ [k] := by
  induction m with
  | nil => simp [groupInsert, keysG]
  | cons p rest ih =>
    obtain ⟨k', l⟩ := p
    by_cases h1 : k' = k
    · subst h1
      simp [groupInsert, keysG]
    · have h1' : ¬ k = k' := fun h => h1 h.symm
      have ih' : List.map Prod.fst (groupInsert rest k q)
          = if k ∈ List.map Prod.fst rest then List.map Prod.fst rest
            else List.map Prod.fst rest ++ [k] := ih
      by_cases h2 : k ∈ List.map Prod.fst rest <;>
        simp [groupInsert, keysG, h1, h1', h2, ih']

theorem keysG_nodup_gfoldSel (qs : List QueryInfo) (m : List (Str × List QueryInfo))
    (h : (keysG m).Nodup) : (keysG (gfoldSel m qs)).Nodup := by
  induction qs generalizing m with
  | nil => simpa [gfoldSel] using h
  | cons q qs ih =>
    have step : gfoldSel m (q :: qs)
        = gfoldSel (if q.query_type = .select then groupInsert m q.fingerprint q else m) qs := by
      simp [gfoldSel]
    rw [step]
    by_cases hsel : q.query_type = QueryType.select
    · rw [if_pos hsel]
      apply ih
      rw [keysG_groupInsert]
      by_cases hk : q.fingerprint ∈ keysG m
      · simpa [hk] using h
      · rw [if_neg hk]
        simp only [List.nodup_append, List.nodup_cons, List.not_mem_nil, List.nodup_nil]
        exact ⟨h, by simp, by simpa [List.disjoint_singleton] using hk⟩
    · rw [if_neg hsel]
      exact ih m h

theorem entry_eq_lookupG (m : List (Str × List QueryInfo)) (p : Str × List QueryInfo)
    (hp : p ∈ m) (hnd : (keysG m).Nodup) : p.2 = lookupG m p.1 := by
  induction m with
  | nil => simp at hp
  | cons hd rest ih =>
    obtain ⟨k', l⟩ := hd
    rcases List.mem_cons.mp hp with heq | hmem
    · subst heq
      simp [lookupG]
    · have hk : ¬ k' = p.1 := by
        intro heq
        have : p.1 ∈ keysG rest := by
          exact List.mem_map.mpr ⟨p, hmem, rfl⟩
        rw [keysG] at hnd
        simp only [List.map_cons, List.nodup_cons] at hnd
        exact hnd.1 (heq ▸ this)
      simp only [lookupG, hk, if_false]
      exact ih hmem (by
        rw [keysG] at hnd
        simp only [List.map_cons, List.nodup_cons] at hnd
        exact hnd.2)

theorem mem_keysG_of_lookupG_ne_nil (m : List (Str × List QueryInfo)) (f : Str)
    (h : lookupG m f ≠ []) : f ∈ keysG m := by
  induction m with
  | nil => simp [lookupG] at h
  | cons hd rest ih =>
    obtain ⟨k', l⟩ := hd
    by_cases hk : k' = f
    · subst hk
      simp [keysG]
    · simp only [lookupG, hk, if_false] at h
      simp only [keysG, List.map_cons, List.mem_cons]
      exact Or.inr (ih h)

theorem count_selectFingerprints (ctx : RequestContext) (f : Str) :
    (selectFingerprints ctx).count f = (selQ ctx.queries f).length := by
  unfold selectFingerprints selQ
  induction ctx.queries with
  | nil => simp
  | cons q qs ih =>
    by_cases hsel : q.query_type = QueryType.select
    · by_cases hf : q.fingerprint = f
      · simp [List.filter_cons, hsel, hf, List.count_cons, ih]
      · simp [List.filter_cons, hsel, hf, List.count_cons, ih]
    · simp [List.filter_cons, hsel, ih]

theorem selQ_fp_mem (qs : List QueryInfo) (f : Str) (q : QueryInfo) (hq : q ∈ selQ qs f) :
    f ∈ (qs.filter (fun q => q.query_type = QueryType.select)).map (·.fingerprint) := by
  unfold selQ at hq
  have := List.of_mem_filter hq
  simp only [decide_eq_true_eq] at this
  refine List.mem_map.mpr ⟨q, ?_, this.2⟩
  exact List.mem_filter.mpr ⟨List.mem_of_mem_filter hq, by simp [this.1]⟩

theorem filterMap_issueOf_singleton (L : List (Str × List QueryInfo)) (f : Str)
    (lf : List QueryInfo) (hnd : (keysG L).Nodup) (hmem : (f, lf) ∈ L) (hlen : 2 < lf.length)
    (hothers : ∀ p ∈ L, p.1 ≠ f → ¬ 2 < p.2.length) :
    ∃ i, L.filterMap issueOf = [i] ∧ i.count = lf.length ∧ i.fingerprint = f := by
  induction L with
  | nil => simp at hmem
  | cons hd rest ih =>
    rcases List.mem_cons.mp hmem with heq | hmemr
    · have hdf : hd = (f, lf) := heq.symm
      subst hdf
      have hrest : rest.filterMap issueOf = [] := by
        rw [List.filterMap_eq_nil_iff]
        intro p hp
        have hne : p.1 ≠ f := by
          intro hpf
          have : p.1 ∈ keysG rest := List.mem_map.mpr ⟨p, hp, rfl⟩
          rw [keysG] at hnd
          simp only [List.map_cons, List.nodup_cons] at hnd
          exact hnd.1 (hpf ▸ this)
        have := hothers p (List.mem_cons_of_mem _ hp) hne
        simp [issueOf, this]
      obtain ⟨i, hio⟩ : ∃ i, issueOf (f, lf) = some i := by
        simp [issueOf, hlen]
      refine ⟨i, ?_, ?_, ?_⟩
      · rw [List.filterMap_cons, hio, hrest]
      · simp only [issueOf, dif_pos hlen, Option.some_inj] at hio
        rw [← hio]
      · simp only [issueOf, dif_pos hlen, Option.some_inj] at hio
        rw [← hio]
    · have hne : hd.1 ≠ f := by
        intro heq2
        have : f ∈ keysG rest := List.mem_map.mpr ⟨(f, lf), hmemr, rfl⟩
        rw [keysG] at hnd
        simp only [List.map_cons, List.nodup_cons] at hnd
        exact hnd.1 (heq2 ▸ this)
      have hnone : issueOf hd = none := by
        have := hothers hd (List.mem_cons_self _ _) hne
        simp [issueOf, this]
      rw [List.filterMap_cons, hnone]
      refine ih ?_ hmemr ?_
      · rw [keysG] at hnd
        simp only [List.map_cons, List.nodup_cons] at hnd
        exact hnd.2
      · exact fun p hp => hothers p (List.mem_cons_of_mem _ hp)

theorem mem_insertDescByCount (a x : NPlusOneIssue) (l : List NPlusOneIssue) :
    x ∈ insertDescByCount a l ↔ x = a ∨ x ∈ l := by
  induction l with
  | nil => simp [insertDescByCount]
  | cons b bs ih =>
    unfold insertDescByCount
    by_cases h : a.count ≤ b.count
    · rw [if_pos h]
      simp only [List.mem_cons, ih]
      try tauto
    · rw [if_neg h]
      simp only [List.mem_cons]
      try tauto

theorem sorted_insertDescByCount (a : NPlusOneIssue) (l : List NPlusOneIssue)
    (h : l.Sorted (fun x y => y.count ≤ x.count)) :
    (insertDescByCount a l).Sorted (fun x y => y.count ≤ x.count) := by
  induction l with
  | nil => simp [insertDescByCount]
  | cons b bs ih =>
    rw [List.sorted_cons] at h
    unfold insertDescByCount
    by_cases hc : a.count ≤ b.count
    · rw [if_pos hc, List.sorted_cons]
      refine ⟨?_, ih h.2⟩
      intro x hx
      rcases (mem_insertDescByCount a x bs).mp hx with rfl | hxm
      · exact hc
      · exact h.1 x hxm
    · rw [if_neg hc, List.sorted_cons]
      refine ⟨?_, List.sorted_cons.mpr h⟩
      intro x hx
      rcases List.mem_cons.mp hx with rfl | hxm
      · omega
      · exact le_of_lt (lt_of_le_of_lt (h.1 x hxm) (by omega))

theorem sorted_sortDescByCount (l : List NPlusOneIssue) :
    (sortDescByCount l).Sorted (fun x y => y.count ≤ x.count) := by
  induction l with
  | nil => simp [sortDescByCount]
  | cons a l ih => exact sorted_insertDescByCount a _ ih

/-- C2: in a completed context, exactly 3 `Select` queries sharing one
fingerprint (and no other `Select` fingerprint recurring more than
twice) produce exactly one issue with count 3; with every `Select`
fingerprint occurring at most twice no issue is produced; non-`Select`
queries never contribute (detection is invariant under discarding them);
and the result is sorted descending by occurrence count. -/
theorem c2_nplusone_threshold :
    (∀ ctx f, (selectFingerprints ctx).count f = 3 →
      (∀ g ∈ selectFingerprints ctx, g ≠ f → (selectFingerprints ctx).count g ≤ 2) →
      ∃ i, NPlusOneDetector.detect ctx = [i] ∧ i.count = 3 ∧ i.fingerprint = f) ∧
    (∀ ctx, (∀ g ∈ selectFingerprints ctx, (selectFingerprints ctx).count g ≤ 2) →
      NPlusOneDetector.detect ctx = []) ∧
    (∀ ctx, NPlusOneDetector.detect ctx =
      NPlusOneDetector.detect
        ⟨ctx.queries.filter (fun q => q.query_type = QueryType.select), ctx.path⟩) ∧
    (∀ ctx, (NPlusOneDetector.detect ctx).Sorted (fun a b => b.count ≤ a.count)) := by
  have hG : ∀ ctx : RequestContext, groupSelects ctx.queries = gfoldSel [] ctx.queries :=
    fun ctx => rfl
  have hlook : ∀ (ctx : RequestContext) f, lookupG (gfoldSel [] ctx.queries) f
      = selQ ctx.queries f := by
    intro ctx f
    rw [lookupG_gfoldSel]
    simp [lookupG]
  have hnodup : ∀ ctx : RequestContext, (keysG (gfoldSel [] ctx.queries)).Nodup :=
    fun ctx => keysG_nodup_gfoldSel _ [] (by simp [keysG])
  have hentry2 : ∀ (ctx : RequestContext) p, p ∈ gfoldSel [] ctx.queries →
      p.2 = selQ ctx.queries p.1 := by
    intro ctx p hp
    rw [entry_eq_lookupG _ p hp (hnodup ctx), hlook]
  refine ⟨?_, ?_, ?_, ?_⟩
  · intro ctx f h3 hother
    have hlen : (selQ ctx.queries f).length = 3 := by
      rw [← count_selectFingerprints]
      exact h3
    have hfmem : f ∈ keysG (gfoldSel [] ctx.queries) := by
      apply mem_keysG_of_lookupG_ne_nil
      rw [hlook]
      intro hnil
      rw [hnil] at hlen
      simp at hlen
    obtain ⟨p, hpmem, hpk⟩ := List.mem_map.mp hfmem
    have hp2 : p.2 = selQ ctx.queries f := by
      rw [hentry2 ctx p hpmem, hpk]
    have hpform : p = (f, selQ ctx.queries f) := by
      obtain ⟨p1, p2⟩ := p
      simp only at hpk hp2
      rw [hpk, hp2]
    rw [hpform] at hpmem
    have hothers : ∀ p ∈ gfoldSel [] ctx.queries, p.1 ≠ f → ¬ 2 < p.2.length := by
      intro p hp hne hgt
      have hp2 := hentry2 ctx p hp
      rw [hp2] at hgt
      have hnonempty : selQ ctx.queries p.1 ≠ [] := by
        intro hnil
        rw [hnil] at hgt
        simp at hgt
      obtain ⟨q, hq⟩ := List.exists_mem_of_ne_nil _ hnonempty
      have hfps := selQ_fp_mem ctx.queries p.1 q hq
      have := hother p.1 hfps hne
      rw [count_selectFingerprints] at this
      omega
    obtain ⟨i, hi, hic, hif⟩ := filterMap_issueOf_singleton (gfoldSel [] ctx.queries) f
      (selQ ctx.queries f) (hnodup ctx) hpmem (by rw [hlen]; norm_num) hothers
    refine ⟨i, ?_, by rw [hic, hlen], hif⟩
    show sortDescByCount ((groupSelects ctx.queries).filterMap issueOf) = [i]
    rw [hG, hi]
    rfl
  · intro ctx hall
    show sortDescByCount ((groupSelects ctx.queries).filterMap issueOf) = []
    rw [hG]
    have : (gfoldSel [] ctx.queries).filterMap issueOf = [] := by
      rw [List.filterMap_eq_nil_iff]
      intro p hp
      have hp2 := hentry2 ctx p hp
      have hle : p.2.length ≤ 2 := by
        rw [hp2]
        by_cases hnil : selQ ctx.queries p.1 = []
        · simp [hnil]
        · obtain ⟨q, hq⟩ := List.exists_mem_of_ne_nil _ hnil
          have hfps := selQ_fp_mem ctx.queries p.1 q hq
          have := hall p.1 hfps
          rw [count_selectFingerprints] at this
          omega
      simp [issueOf, Nat.not_lt.mpr hle]
    rw [this]
    rfl
  · intro ctx
    show sortDescByCount ((groupSelects ctx.queries).filterMap issueOf)
      = sortDescByCount ((groupSelects (ctx.queries.filter
          (fun q => q.query_type = QueryType.select))).filterMap issueOf)
    have key : ∀ (qs : List QueryInfo) (m : List (Str × List QueryInfo)),
        gfoldSel m (qs.filter (fun q => q.query_type = QueryType.select)) = gfoldSel m qs := by
      intro qs
      induction qs with
      | nil => intro m; rfl
      | cons q qs ih =>
        intro m
        by_cases hsel : q.query_type = QueryType.select
        · rw [show (q :: qs).filter (fun q => q.query_type = QueryType.select)
              = q :: qs.filter (fun q => q.query_type = QueryType.select) by
            simp [List.filter_cons, hsel]]
          rw [show gfoldSel m (q :: qs.filter (fun q => q.query_type = QueryType.select))
              = gfoldSel (groupInsert m q.fingerprint q)
                  (qs.filter (fun q => q.query_type = QueryType.select)) by
            simp [gfoldSel, hsel]]
          rw [show gfoldSel m (q :: qs) = gfoldSel (groupInsert m q.fingerprint q) qs by
            simp [gfoldSel, hsel]]
          exact ih _
        · rw [show (q :: qs).filter (fun q => q.query_type = QueryType.select)
              = qs.filter (fun q => q.query_type = QueryType.select) by
            simp [List.filter_cons, hsel]]
          rw [show gfoldSel m (q :: qs) = gfoldSel m qs by simp [gfoldSel, hsel]]
          exact ih _
    show sortDescByCount ((gfoldSel [] ctx.queries).filterMap issueOf)
      = sortDescByCount ((gfoldSel []
          (ctx.queries.filter (fun q => q.query_type = QueryType.select))).filterMap issueOf)
    rw [key ctx.queries []]
  · intro ctx
    exact sorted_sortDescByCount _

/-- Witness for C2: three identical `Select` loads produce one issue of
count 3; two produce none. -/
theorem c2_nplusone_threshold_witness :
    (∃ i, NPlusOneDetector.detect
        ⟨[⟨"SELECT * FROM users WHERE id = 1".toList,
           normalizeQuery ("SELECT * FROM users WHERE id = 1".toList), 5, some 1, .select⟩,
          ⟨"SELECT * FROM users WHERE id = 2".toList,
           normalizeQuery ("SELECT * FROM users WHERE id = 2".toList), 5, some 1, .select⟩,
          ⟨"SELECT * FROM users WHERE id = 3".toList,
           normalizeQuery ("SELECT * FROM users WHERE id = 3".toList), 5, some 1, .select⟩],
         some ("/users".toList)⟩ = [i] ∧ i.count = 3 ∧
        i.fingerprint = normalizeQuery ("SELECT * FROM users WHERE id = 1".toList)) ∧
    NPlusOneDetector.detect
        ⟨[⟨"SELECT * FROM users WHERE id = 1".toList,
           normalizeQuery ("SELECT * FROM users WHERE id = 1".toList), 5, some 1, .select⟩,
          ⟨"SELECT * FROM users WHERE id = 2".toList,
           normalizeQuery ("SELECT * FROM users WHERE id = 2".toList), 5, some 1, .select⟩],
         some ("/users".toList)⟩ = [] := by
  constructor
  · exact c2_nplusone_threshold.1 _ _ (by decide) (by decide)
  · exact c2_nplusone_threshold.2.1 _ (by decide)

/-! ## C5 — bounded table tracking with minimum-count eviction -/

theorem alBump_length_of_hasKey (m : List (Str × Nat)) (k : Str) (h : alHasKey m k = true) :
    (alBump m k).length = m.length := by
  induction m with
  | nil => simp [alHasKey] at h
  | cons p rest ih =>
    obtain ⟨k', n⟩ := p
    by_cases hk : k' = k
    · simp [alBump, hk]
    · simp only [alHasKey, List.any_cons, Bool.or_eq_true, decide_eq_true_eq] at h
      rcases h with h | h
      · exact absurd h hk
      · simp [alBump, hk, ih h]

theorem alBump_length_of_not_hasKey (m : List (Str × Nat)) (k : Str)
    (h : alHasKey m k = false) : (alBump m k).length = m.length + 1 := by
  induction m with
  | nil => simp [alBump]
  | cons p rest ih =>
    obtain ⟨k', n⟩ := p
    simp only [alHasKey, List.any_cons, Bool.or_eq_false_iff, decide_eq_false_iff_not] at h
    simp [alBump, h.1, ih (by simpa [alHasKey] using h.2)]

theorem alRemove_length_of_mem (m : List (Str × Nat)) (e : Str × Nat) (he : e ∈ m) :
    (alRemove m e.1).length + 1 = m.length := by
  induction m with
  | nil => simp at he
  | cons p rest ih =>
    by_cases hk : p.1 = e.1
    · simp [alRemove, hk]
    · rcases List.mem_cons.mp he with rfl | hmem
      · exact absurd rfl hk
      · simp [alRemove, hk, ih hmem]

theorem alMinEntry_spec (m : List (Str × Nat)) (hne : m ≠ []) :
    ∃ e, alMinEntry m = some e ∧ e ∈ m ∧ ∀ e' ∈ m, e.2 ≤ e'.2 := by
  induction m with
  | nil => exact absurd rfl hne
  | cons p rest ih =>
    cases hmin : alMinEntry rest with
    | none =>
      cases rest with
      | nil =>
        refine ⟨p, by simp [alMinEntry], by simp, ?_⟩
        intro e' he'
        rcases List.mem_cons.mp he' with rfl | h
        · exact le_refl _
        · simp at h
      | cons q rest2 =>
        obtain ⟨e, he, _, _⟩ := ih (by simp)
        rw [he] at hmin
        exact absurd hmin (by simp)
    | some e =>
      have hrne : rest ≠ [] := by
        intro h
        rw [h] at hmin
        simp [alMinEntry] at hmin
      obtain ⟨e', he', hmem, hle⟩ := ih hrne
      have hee : e' = e := by
        rw [he'] at hmin
        exact Option.some_inj.mp hmin
      subst hee
      by_cases hc : p.2 ≤ e'.2
      · refine ⟨p, by simp [alMinEntry, he', hc], by simp, ?_⟩
        intro x hx
        rcases List.mem_cons.mp hx with rfl | h
        · exact le_refl _
        · exact le_trans hc (hle x h)
      · refine ⟨e', by simp [alMinEntry, he', hc], List.mem_cons_of_mem _ hmem, ?_⟩
        intro x hx
        rcases List.mem_cons.mp hx with rfl | h
        · omega
        · exact hle x h

theorem alHasKey_alBump (m : List (Str × Nat)) (k j : Str) (hj : alHasKey m j = false)
    (hjk : j ≠ k) : alHasKey (alBump m k) j = false := by
  have hkj : ¬ k = j := fun h => hjk h.symm
  induction m with
  | nil => simp [alBump, alHasKey, hkj]
  | cons p rest ih =>
    obtain ⟨k', n⟩ := p
    simp only [alHasKey, List.any_cons, Bool.or_eq_false_iff, decide_eq_false_iff_not] at hj
    by_cases hk : k' = k
    · simp [alBump, hk, alHasKey, hj.1, hj.2, hkj]
    · have := ih (by simpa [alHasKey] using hj.2)
      simp [alBump, hk, alHasKey, hj.1]
      simpa [alHasKey] using this

theorem alHasKey_alRemove (m : List (Str × Nat)) (k j : Str) (hj : alHasKey m j = false) :
    alHasKey (alRemove m k) j = false := by
  induction m with
  | nil => simp [alRemove, alHasKey]
  | cons p rest ih =>
    obtain ⟨k', n⟩ := p
    simp only [alHasKey, List.any_cons, Bool.or_eq_false_iff, decide_eq_false_iff_not] at hj
    have hr := ih (by simpa [alHasKey] using hj.2)
    by_cases hk : k' = k
    · simpa [alRemove, hk, alHasKey] using (by simpa [alHasKey] using hj.2 : _)
    · simp [alRemove, hk, alHasKey, hj.1]
      simpa [alHasKey] using hr

theorem trackTable_fresh_length (m : List (Str × Nat)) (k : Str) (hm : m.length ≤ 100)
    (hk : alHasKey m k = false) :
    (trackTable m k).length = if m.length < 100 then m.length + 1 else 100 := by
  unfold trackTable
  by_cases hcap : MAX_TABLES_TRACKED ≤ m.length
  · have hlen : m.length = 100 := by
      unfold MAX_TABLES_TRACKED at hcap
      omega
    have hne : m ≠ [] := by
      intro h
      rw [h] at hlen
      simp at hlen
    obtain ⟨e, hmin, hmem, _⟩ := alMinEntry_spec m hne
    rw [show (decide (MAX_TABLES_TRACKED ≤ m.length) && !alHasKey m k) = true by
      simp [hcap, hk]]
    simp only [if_true, hmin]
    rw [alBump_length_of_not_hasKey _ _ (alHasKey_alRemove m e.1 k hk)]
    have := alRemove_length_of_mem m e hmem
    rw [if_neg (by omega)]
    omega
  · rw [show (decide (MAX_TABLES_TRACKED ≤ m.length) && !alHasKey m k) = false by
      simp [hcap]]
    simp only [Bool.false_eq_true, if_false]
    rw [alBump_length_of_not_hasKey _ _ hk]
    unfold MAX_TABLES_TRACKED at hcap
    rw [if_pos (by omega)]

theorem trackTable_length_le (m : List (Str × Nat)) (k : Str) (hm : m.length ≤ 100) :
    (trackTable m k).length ≤ 100 := by
  by_cases hk : alHasKey m k = true
  · unfold trackTable
    rw [show (decide (MAX_TABLES_TRACKED ≤ m.length) && !alHasKey m k) = false by simp [hk]]
    simp only [Bool.false_eq_true, if_false]
    rw [alBump_length_of_hasKey _ _ hk]
    exact hm
  · rw [trackTable_fresh_length m k hm (by simpa using hk)]
    split_ifs <;> omega

theorem trackTable_fresh_preserved (m : List (Str × Nat)) (k j : Str)
    (hj : alHasKey m j = false) (hjk : j ≠ k) : alHasKey (trackTable m k) j = false := by
  unfold trackTable
  by_cases hcond : (decide (MAX_TABLES_TRACKED ≤ m.length) && !alHasKey m k) = true
  · rw [hcond]
    simp only [if_true]
    cases hmin : alMinEntry m with
    | none => exact alHasKey_alBump m k j hj hjk
    | some e => exact alHasKey_alBump _ k j (alHasKey_alRemove m e.1 j hj) hjk
  · rw [show (decide (MAX_TABLES_TRACKED ≤ m.length) && !alHasKey m k) = false by
      simpa using hcond]
    simp only [Bool.false_eq_true, if_false]
    exact alHasKey_alBump m k j hj hjk

theorem analyzeQuery_tables_slow (st : HealthState) (q : Str) (d : ℚ) (n : Str)
    (hd : d > 100) (hn : extractTableName q = some n) :
    (analyzeQuery st q d).stats.tables_accessed
      = trackTable st.stats.tables_accessed n := by
  unfold analyzeQuery
  simp only [hn, hd, if_true]
  split_ifs <;> rfl

theorem analyzeQuery_tables_other (st : HealthState) (q : Str) (d : ℚ)
    (h : ¬ d > 100 ∨ extractTableName q = none) :
    (analyzeQuery st q d).stats.tables_accessed = st.stats.tables_accessed := by
  unfold analyzeQuery
  rcases h with h | h
  · simp only [h, if_false]
    split_ifs <;> rfl
  · by_cases hd : d > 100
    · simp only [h, hd, if_true]
      split_ifs <;> rfl
    · simp only [hd, if_false]
      split_ifs <;> rfl

theorem feedHealth_tables_le (inputs : List (Str × ℚ)) (st : HealthState)
    (h : st.stats.tables_accessed.length ≤ 100) :
    (feedHealth st inputs).stats.tables_accessed.length ≤ 100 := by
  induction inputs generalizing st with
  | nil => simpa [feedHealth] using h
  | cons p inputs ih =>
    have step : feedHealth st (p :: inputs) = feedHealth (analyzeQuery st p.1 p.2) inputs := by
      simp [feedHealth]
    rw [step]
    apply ih
    by_cases hd : p.2 > 100
    · cases hn : extractTableName p.1 with
      | none => rw [analyzeQuery_tables_other st p.1 p.2 (Or.inr hn)]; exact h
      | some n =>
        rw [analyzeQuery_tables_slow st p.1 p.2 n hd hn]
        exact trackTable_length_le _ _ h
    · rw [analyzeQuery_tables_other st p.1 p.2 (Or.inl hd)]
      exact h

theorem feedHealth_fresh_distinct (inputs : List (Str × ℚ)) (ns : List Str)
    (st : HealthState)
    (hmap : inputs.map (fun p => extractTableName p.1) = ns.map some)
    (hdur : ∀ p ∈ inputs, (100 : ℚ) < p.2)
    (hnd : ns.Nodup)
    (hfresh : ∀ n ∈ ns, alHasKey st.stats.tables_accessed n = false)
    (hle : st.stats.tables_accessed.length ≤ 100) :
    (feedHealth st inputs).stats.tables_accessed.length
      = min (st.stats.tables_accessed.length + ns.length) 100 := by
  induction inputs generalizing ns st with
  | nil =>
    cases ns with
    | nil => simp [feedHealth]; omega
    | cons n ns => simp at hmap
  | cons p inputs ih =>
    cases ns with
    | nil => simp at hmap
    | cons n ns =>
      simp only [List.map_cons, List.cons.injEq] at hmap
      have hstep : feedHealth st (p :: inputs) = feedHealth (analyzeQuery st p.1 p.2) inputs := by
        simp [feedHealth]
      rw [hstep]
      have hd : (100 : ℚ) < p.2 := hdur p (by simp)
      have htab : (analyzeQuery st p.1 p.2).stats.tables_accessed
          = trackTable st.stats.tables_accessed n :=
        analyzeQuery_tables_slow st p.1 p.2 n hd hmap.1
      have hfreshn : alHasKey st.stats.tables_accessed n = false := hfresh n (by simp)
      have hlen' : (trackTable st.stats.tables_accessed n).length
          = if st.stats.tables_accessed.length < 100
            then st.stats.tables_accessed.length + 1 else 100 :=
        trackTable_fresh_length _ _ hle hfreshn
      have hnd' : ns.Nodup := (List.nodup_cons.mp hnd).2
      have hnmem : n ∉ ns := (List.nodup_cons.mp hnd).1
      have hfresh' : ∀ j ∈ ns, alHasKey (analyzeQuery st p.1 p.2).stats.tables_accessed j
          = false := by
        intro j hjm
        rw [htab]
        exact trackTable_fresh_preserved _ n j (hfresh j (by simp [hjm]))
          (fun hjn => hnmem (hjn ▸ hjm))
      have hle' : (analyzeQuery st p.1 p.2).stats.tables_accessed.length ≤ 100 := by
        rw [htab]
        exact trackTable_length_le _ _ hle
      have := ih ns (analyzeQuery st p.1 p.2) hmap.2
        (fun p hp => hdur p (by simp [hp])) hnd' hfresh' hle'
      rw [this, htab, hlen']
      by_cases hc : st.stats.tables_accessed.length < 100
      · rw [if_pos hc]
        simp only [List.length_cons]
        omega
      · rw [if_neg hc]
        simp only [List.length_cons]
        omega

/-- C5: any run of slow analyzed queries covering 101 distinct extracted
tables leaves the table-access counter with exactly 100 entries; the
counter never exceeds `MAX_TABLES_TRACKED = 100` entries from the empty
initial state; and whenever a new table arrives at capacity, the entry
evicted is one holding the globally lowest access count at that moment. -/
theorem c5_bounded_eviction :
    (∀ (inputs : List (Str × ℚ)) (ns : List Str),
      inputs.map (fun p => extractTableName p.1) = ns.map some →
      (∀ p ∈ inputs, (100 : ℚ) < p.2) → ns.Nodup → ns.length = 101 →
      (feedHealth .initial inputs).stats.tables_accessed.length = 100) ∧
    (∀ inputs : List (Str × ℚ),
      (feedHealth .initial inputs).stats.tables_accessed.length ≤ MAX_TABLES_TRACKED) ∧
    (∀ (m : List (Str × Nat)) (k : Str), MAX_TABLES_TRACKED ≤ m.length →
      alHasKey m k = false →
      ∃ e, alMinEntry m = some e ∧ e ∈ m ∧ (∀ e' ∈ m, e.2 ≤ e'.2) ∧
        trackTable m k = alBump (alRemove m e.1) k) := by
  refine ⟨?_, ?_, ?_⟩
  · intro inputs ns hmap hdur hnd hlen
    rw [feedHealth_fresh_distinct inputs ns .initial hmap hdur hnd
      (fun n _ => by simp [HealthState.initial, alHasKey]) (by simp [HealthState.initial])]
    simp [HealthState.initial, hlen]
  · intro inputs
    exact feedHealth_tables_le inputs .initial (by simp [HealthState.initial])
  · intro m k hcap hk
    have hne : m ≠ [] := by
      intro h
      rw [h] at hcap
      unfold MAX_TABLES_TRACKED at hcap
      simp at hcap
    obtain ⟨e, hmin, hmem, hle⟩ := alMinEntry_spec m hne
    refine ⟨e, hmin, hmem, hle, ?_⟩
    unfold trackTable
    rw [show (decide (MAX_TABLES_TRACKED ≤ m.length) && !alHasKey m k) = true by
      simp [hcap, hk]]
    simp [hmin]

set_option maxRecDepth 4000 in
/-- Witness for C5: 101 distinct tables inserted, 100 retained; and a
concrete full map evicting a minimal entry. -/
theorem c5_bounded_eviction_witness :
    (feedHealth .initial ((List.range 101).map
        (fun i => ("SELECT a FROM t".toList ++ List.replicate i 'x',
          (101 : ℚ))))).stats.tables_accessed.length = 100 ∧
    (∃ e, alMinEntry ((List.range 100).map
          (fun i => ((List.replicate i 'x' : Str), i + 1))) = some e ∧
      e ∈ (List.range 100).map (fun i => ((List.replicate i 'x' : Str), i + 1)) ∧
      (∀ e' ∈ (List.range 100).map (fun i => ((List.replicate i 'x' : Str), i + 1)),
        e.2 ≤ e'.2) ∧
      trackTable ((List.range 100).map (fun i => ((List.replicate i 'x' : Str), i + 1)))
          ("fresh".toList)
        = alBump (alRemove ((List.range 100).map
            (fun i => ((List.replicate i 'x' : Str), i + 1))) e.1) ("fresh".toList)) := by
  constructor
  · exact c5_bounded_eviction.1 _ ((List.range 101).map
      (fun i => "t".toList ++ List.replicate i 'x'))
      (by decide) (by decide) (by decide) (by decide)
  · exact c5_bounded_eviction.2.2 _ _ (by decide) (by decide)

/-! ## C4 — database health score -/

theorem foldl_sub_weight (l : List DatabaseIssue) (a : Nat) :
    l.foldl (fun sc i => sc - i.severity.weight) a = a - weightSum l := by
  induction l generalizing a with
  | nil => simp [weightSum]
  | cons i l ih =>
    simp only [List.foldl_cons, ih, weightSum, List.map_cons, List.sum_cons]
    omega

theorem star_ratio_iff (c t : Nat) (ht : 0 < t) :
    (((c : ℚ) / (t : ℚ)) * 100 < 5) ↔ 20 * c < t := by
  rw [div_mul_eq_mul_div, div_lt_iff₀ (by exact_mod_cast ht)]
  constructor
  · intro h
    have h2 : ((100 * c : Nat) : ℚ) < ((5 * t : Nat) : ℚ) := by push_cast; linarith
    have h3 : 100 * c < 5 * t := by exact_mod_cast h2
    omega
  · intro h
    have h2 : (100 * c : Nat) < 5 * t := by omega
    have h3 : ((100 * c : Nat) : ℚ) < ((5 * t : Nat) : ℚ) := by exact_mod_cast h2
    push_cast at h3
    linarith

theorem slow_ratio_iff (c t : Nat) (ht : 0 < t) :
    (((c : ℚ) / (t : ℚ)) * 100 < 2) ↔ 50 * c < t := by
  rw [div_mul_eq_mul_div, div_lt_iff₀ (by exact_mod_cast ht)]
  constructor
  · intro h
    have h2 : ((100 * c : Nat) : ℚ) < ((2 * t : Nat) : ℚ) := by push_cast; linarith
    have h3 : 100 * c < 2 * t := by exact_mod_cast h2
    omega
  · intro h
    have h2 : (100 * c : Nat) < 2 * t := by omega
    have h3 : ((100 * c : Nat) : ℚ) < ((2 * t : Nat) : ℚ) := by exact_mod_cast h2
    push_cast at h3
    linarith

theorem healthScore_formula (st : HealthState) (htq : 0 < st.stats.total_queries) :
    calculateHealthScore st
      = min (100 - weightSum (getIssues st)
          + (if 20 * st.stats.select_star_count < st.stats.total_queries then 5 else 0)
          + (if 50 * st.stats.slow_queries_count < st.stats.total_queries then 10 else 0))
          100 := by
  unfold calculateHealthScore
  simp only [foldl_sub_weight, if_pos htq]
  by_cases h5 : 20 * st.stats.select_star_count < st.stats.total_queries
  · rw [if_pos ((star_ratio_iff _ _ htq).mpr h5), if_pos h5]
    by_cases h10 : 50 * st.stats.slow_queries_count < st.stats.total_queries
    · rw [if_pos ((slow_ratio_iff _ _ htq).mpr h10), if_pos h10]
      try omega
    · rw [if_neg (fun hq => h10 ((slow_ratio_iff _ _ htq).mp hq)), if_neg h10]
      try omega
  · rw [if_neg (fun hq => h5 ((star_ratio_iff _ _ htq).mp hq)), if_neg h5]
    by_cases h10 : 50 * st.stats.slow_queries_count < st.stats.total_queries
    · rw [if_pos ((slow_ratio_iff _ _ htq).mpr h10), if_pos h10]
      try omega
    · rw [if_neg (fun hq => h10 ((slow_ratio_iff _ _ htq).mp hq)), if_neg h10]
      try omega

theorem analyzeQuery_total (st : HealthState) (q : Str) (d : ℚ) :
    (analyzeQuery st q d).stats.total_queries = st.stats.total_queries + 1 := by
  unfold analyzeQuery
  cases hn : extractTableName q <;> simp only [hn] <;> split_ifs <;> rfl

theorem analyzeQuery_slow_count (st : HealthState) (q : Str) (d : ℚ) :
    (analyzeQuery st q d).stats.slow_queries_count
      = st.stats.slow_queries_count + (if d > 100 then 1 else 0) := by
  unfold analyzeQuery
  cases hn : extractTableName q <;> simp only [hn] <;> split_ifs <;> simp

theorem analyzeQuery_missing_hints (st : HealthState) (q : Str) (d : ℚ) :
    (analyzeQuery st q d).stats.missing_index_hints
      = st.stats.missing_index_hints
        + (if containsSub (upper q) ("WHERE".toList) && decide (d > 50) then 1 else 0) := by
  unfold analyzeQuery
  cases hn : extractTableName q <;> simp only [hn] <;> split_ifs <;> simp_all

theorem updateSlowQueries_durations (sqs : List SlowQuery) (q : Str) (d : ℚ)
    (table : Option Str) (dur : ℚ) (h : ∀ sq ∈ sqs, sq.duration = dur) (hd : d = dur) :
    ∀ sq ∈ updateSlowQueries sqs q d table, sq.duration = dur := by
  intro sq hsq
  unfold updateSlowQueries at hsq
  by_cases hex : sqs.any (fun sq => sq.query = q) = true
  · rw [if_pos hex] at hsq
    obtain ⟨sq0, hsq0, heq⟩ := List.mem_map.mp hsq
    rw [← heq]
    split_ifs <;> first | exact hd | exact h sq0 hsq0
  · rw [if_neg hex] at hsq
    have hsq2 : sq ∈ (if 50 < (sqs ++ [(⟨q, d, table, 1⟩ : SlowQuery)]).length
        then (sqs ++ [(⟨q, d, table, 1⟩ : SlowQuery)]).drop 1
        else sqs ++ [(⟨q, d, table, 1⟩ : SlowQuery)]) := hsq
    have hsq' : sq ∈ sqs ++ [(⟨q, d, table, 1⟩ : SlowQuery)] := by
      by_cases h50 : 50 < (sqs ++ [(⟨q, d, table, 1⟩ : SlowQuery)]).length
      · rw [if_pos h50] at hsq2
        exact List.mem_of_mem_drop hsq2
      · rw [if_neg h50] at hsq2
        exact hsq2
    rcases List.mem_append.mp hsq' with hm | hm
    · exact h sq hm
    · simp only [List.mem_singleton] at hm
      subst hm
      exact hd

theorem analyzeQuery_slow_durations (st : HealthState) (q : Str) (d dur : ℚ)
    (h : ∀ sq ∈ st.slow_queries, sq.duration = dur) (hd : d = dur) :
    ∀ sq ∈ (analyzeQuery st q d).slow_queries, sq.duration = dur := by
  unfold analyzeQuery
  cases hn : extractTableName q <;> simp only [hn] <;> split_ifs <;>
    first
      | exact fun sq hsq => h sq hsq
      | exact fun sq hsq => updateSlowQueries_durations st.slow_queries q d _ dur h hd sq hsq

theorem feedHealth_scenario2 (qs : List Str) (st : HealthState)
    (hw : ∀ q ∈ qs, containsSub (upper q) ("WHERE".toList) = true)
    (hdur : ∀ sq ∈ st.slow_queries, sq.duration = 120) :
    (feedHealth st (qs.map (fun q => (q, (120 : ℚ))))).stats.total_queries
        = st.stats.total_queries + qs.length ∧
    (feedHealth st (qs.map (fun q => (q, (120 : ℚ))))).stats.slow_queries_count
        = st.stats.slow_queries_count + qs.length ∧
    (feedHealth st (qs.map (fun q => (q, (120 : ℚ))))).stats.missing_index_hints
        = st.stats.missing_index_hints + qs.length ∧
    (∀ sq ∈ (feedHealth st (qs.map (fun q => (q, (120 : ℚ))))).slow_queries,
      sq.duration = 120) := by
  induction qs generalizing st with
  | nil => exact ⟨by simp [feedHealth], by simp [feedHealth], by simp [feedHealth],
      by simpa [feedHealth] using hdur⟩
  | cons q qs ih =>
    have hstep : feedHealth st ((q :: qs).map (fun q => (q, (120 : ℚ))))
        = feedHealth (analyzeQuery st q 120) (qs.map (fun q => (q, (120 : ℚ)))) := by
      simp [feedHealth]
    have hq := hw q (by simp)
    obtain ⟨iht, ihs, ihm, ihd⟩ := ih (analyzeQuery st q 120)
      (fun q hq => hw q (by simp [hq]))
      (analyzeQuery_slow_durations st q 120 120 hdur rfl)
    refine ⟨?_, ?_, ?_, ?_⟩
    · rw [hstep, iht, analyzeQuery_total]
      simp only [List.length_cons]
      omega
    · rw [hstep, ihs, analyzeQuery_slow_count]
      rw [if_pos (by norm_num : (120 : ℚ) > 100)]
      simp only [List.length_cons]
      omega
    · rw [hstep, ihm, analyzeQuery_missing_hints]
      rw [if_pos (by
        simp only [Bool.and_eq_true, decide_eq_true_eq]
        exact ⟨hq, by norm_num⟩)]
      simp only [List.length_cons]
      omega
    · rw [hstep]
      exact ihd

theorem weightSum_insertDescBySeverity (a : DatabaseIssue) (l : List DatabaseIssue) :
    weightSum (insertDescBySeverity a l) = a.severity.weight + weightSum l := by
  induction l with
  | nil => simp [insertDescBySeverity, weightSum]
  | cons b bs ih =>
    unfold insertDescBySeverity
    split_ifs
    · simp only [weightSum, List.map_cons, List.sum_cons] at ih ⊢
      omega
    · simp [weightSum]

theorem weightSum_sortDescBySeverity (l : List DatabaseIssue) :
    weightSum (sortDescBySeverity l) = weightSum l := by
  induction l with
  | nil => rfl
  | cons a l ih =>
    unfold sortDescBySeverity
    rw [weightSum_insertDescBySeverity, ih]
    simp [weightSum]

theorem mem_insertDescBySeverity (a x : DatabaseIssue) (l : List DatabaseIssue) :
    x ∈ insertDescBySeverity a l ↔ x = a ∨ x ∈ l := by
  induction l with
  | nil => simp [insertDescBySeverity]
  | cons b bs ih =>
    unfold insertDescBySeverity
    split_ifs
    · simp only [List.mem_cons, ih]
      try tauto
    · simp only [List.mem_cons]
      try tauto

theorem mem_sortDescBySeverity (x : DatabaseIssue) (l : List DatabaseIssue) :
    x ∈ sortDescBySeverity l ↔ x ∈ l := by
  induction l with
  | nil => simp [sortDescBySeverity]
  | cons a l ih =>
    unfold sortDescBySeverity
    rw [mem_insertDescBySeverity, ih]
    simp

/-- C4: the health score equals `min(100 − Σ severity weights + bonuses, 100)`
(`+5` when the select-star ratio is under 5 %, `+10` when the slow-query
ratio is under 2 %, floor at 0 via `Nat` truncation); 100 fast clean
queries score exactly 100; and 11 queries at 120 ms, all containing
`WHERE`, score strictly below 100 with at least one `SlowQuery` and one
`MissingIndex` issue. -/
theorem c4_health_score :
    (∀ st : HealthState, 0 < st.stats.total_queries →
      calculateHealthScore st
        = min (100 - weightSum (getIssues st)
            + (if 20 * st.stats.select_star_count < st.stats.total_queries then 5 else 0)
            + (if 50 * st.stats.slow_queries_count < st.stats.total_queries then 10 else 0))
            100) ∧
    calculateHealthScore (feedHealth .initial
      (List.replicate 100 ("SELECT id FROM users".toList, (10 : ℚ)))) = 100 ∧
    (∀ qs : List Str, qs.length = 11 →
      (∀ q ∈ qs, containsSub (upper q) ("WHERE".toList) = true) →
      calculateHealthScore (feedHealth .initial (qs.map (fun q => (q, (120 : ℚ))))) < 100 ∧
      (∃ i ∈ getIssues (feedHealth .initial (qs.map (fun q => (q, (120 : ℚ))))),
        i.issue_type = IssueType.slowQuery) ∧
      (∃ i ∈ getIssues (feedHealth .initial (qs.map (fun q => (q, (120 : ℚ))))),
        i.issue_type = IssueType.missingIndex)) := by
  refine ⟨fun st htq => healthScore_formula st htq, ?_, ?_⟩
  · have hst : feedHealth .initial
        (List.replicate 100 ("SELECT id FROM users".toList, (10 : ℚ)))
        = ⟨[], ⟨100, 0, 0, 0, []⟩⟩ := by decide
    rw [hst, healthScore_formula _ (by decide)]
    rw [show getIssues ⟨[], ⟨100, 0, 0, 0, []⟩⟩ = [] from by decide]
    decide
  · intro qs hlen hw
    set st' := feedHealth .initial (qs.map (fun q => (q, (120 : ℚ)))) with hst'
    obtain ⟨ht, hs, hm, hd⟩ := feedHealth_scenario2 qs .initial hw
      (by simp [HealthState.initial])
    rw [← hst'] at ht hs hm hd
    simp only [HealthState.initial, hlen] at ht hs hm
    have hIss : getIssues st' = sortDescBySeverity
        ([⟨.slowQuery, .medium⟩]
          ++ (if 5 < st'.stats.select_star_count then [⟨.selectStar, .medium⟩] else [])
          ++ [⟨.missingIndex, .high⟩] ++ []) := by
      simp only [getIssues]
      rw [hs, hm]
      congr 1
      have h1 : (if 10 < 0 + 11 then
          [(⟨.slowQuery, if 50 < 0 + 11 then .critical
              else if 25 < 0 + 11 then .high else .medium⟩ : DatabaseIssue)]
          else []) = [(⟨.slowQuery, .medium⟩ : DatabaseIssue)] := by norm_num
      have h4 : (st'.slow_queries.take 5).filterMap (fun sq =>
          if sq.duration > 500 then
            some (⟨.slowQuery, if sq.duration > 1000 then .critical else .high⟩ : DatabaseIssue)
          else none) = [] := by
        rw [List.filterMap_eq_nil_iff]
        intro sq hsq
        have hmem : sq ∈ st'.slow_queries := List.mem_of_mem_take hsq
        rw [if_neg (by rw [hd sq hmem]; norm_num)]
      rw [h1, h4]
      norm_num
    have hws : weightSum (getIssues st')
        = 15 + (if 5 < st'.stats.select_star_count then 5 else 0) := by
      rw [hIss, weightSum_sortDescBySeverity]
      by_cases hstar : 5 < st'.stats.select_star_count
      · rw [if_pos hstar, if_pos hstar]
        simp [weightSum, IssueSeverity.weight]
      · rw [if_neg hstar, if_neg hstar]
        simp [weightSum, IssueSeverity.weight]
    refine ⟨?_, ?_, ?_⟩
    · rw [healthScore_formula st' (by rw [ht]; norm_num), hws, ht, hs]
      rw [if_neg (by norm_num : ¬ 50 * (0 + 11) < 0 + 11)]
      by_cases hstar : 5 < st'.stats.select_star_count
      · rw [if_pos hstar]
        split_ifs <;> omega
      · rw [if_neg hstar]
        split_ifs <;> omega
    · refine ⟨⟨.slowQuery, .medium⟩, ?_, rfl⟩
      rw [hIss, mem_sortDescBySeverity]
      simp
    · refine ⟨⟨.missingIndex, .high⟩, ?_, rfl⟩
      rw [hIss, mem_sortDescBySeverity]
      simp

/-- Witness for C4: the general formula applied at the clean-load state,
and the degraded scenario at 11 concrete `WHERE` queries. -/
theorem c4_health_score_witness :
    (calculateHealthScore ⟨[], ⟨100, 0, 0, 0, []⟩⟩
      = min (100 - weightSum (getIssues ⟨[], ⟨100, 0, 0, 0, []⟩⟩) + (if true then 5 else 0)
          + (if true then 10 else 0)) 100 ∨
      calculateHealthScore ⟨[], ⟨100, 0, 0, 0, []⟩⟩ = 100) ∧
    calculateHealthScore (feedHealth .initial
      ((List.replicate 11 ("SELECT a FROM t WHERE b = c".toList)).map
        (fun q => (q, (120 : ℚ))))) < 100 := by
  constructor
  · right
    have := c4_health_score.1 ⟨[], ⟨100, 0, 0, 0, []⟩⟩ (by decide)
    rw [this, show getIssues ⟨[], ⟨100, 0, 0, 0, []⟩⟩ = [] from by decide]
    decide
  · exact (c4_health_score.2.2 (List.replicate 11 ("SELECT a FROM t WHERE b = c".toList))
      (by decide) (by decide)).1

/-! ### C6: Lograge-form precedence in `parse_line` -/

/-- A pattern is a prefix of itself followed by anything. -/
theorem isPrefixOf_append_self (p r : Str) : p.isPrefixOf (p ++ r) = true := by
  induction p with
  | nil => cases r <;> rfl
  | cons c cs ih => simp [List.isPrefixOf, ih]

/-- A successful nonempty-pattern prefix test pins down the head char. -/
theorem isPrefixOf_head_eq {p c : Char} {ps t : Str}
    (h : ((p :: ps).isPrefixOf (c :: t)) = true) : p = c := by
  simp only [List.isPrefixOf, Bool.and_eq_true, beq_iff_eq] at h
  exact h.1

/-- `takeWhile` over an append whose left part satisfies the predicate
and whose right part starts by refuting it. -/
theorem takeWhile_append_all (p : Char → Bool) (a b : Str)
    (ha : ∀ c ∈ a, p c = true) (hb : ∀ c t, b = c :: t → p c = false) :
    (a ++ b).takeWhile p = a := by
  induction a with
  | nil =>
    cases hb2 : b with
    | nil => rfl
    | cons c t => simp [List.takeWhile_cons, hb c t hb2]
  | cons c cs ih =>
    have h1 : p c = true := ha c (List.mem_cons_self c cs)
    have h2 := ih (fun x hx => ha x (List.mem_cons_of_mem c hx))
    simp [List.takeWhile_cons, h1, h2]

/-- `findPathR` skips any segment not containing `p`. -/
theorem findPathR_skip (l1 l2 : Str) (h : 'p' ∉ l1) :
    findPathR (l1 ++ l2) = findPathR l2 := by
  induction l1 with
  | nil => rfl
  | cons c cs ih =>
    have hcp : c ≠ 'p' := fun he => h (he ▸ List.mem_cons_self c cs)
    have hc : ("path=".toList).isPrefixOf (c :: (cs ++ l2)) = false := by
      cases hx : ("path=".toList).isPrefixOf (c :: (cs ++ l2)) with
      | false => rfl
      | true => exact absurd (isPrefixOf_head_eq hx).symm hcp
    rw [List.cons_append]
    simp only [findPathR, hc, Bool.false_eq_true, if_false]
    exact ih (fun hm => h (List.mem_cons_of_mem c hm))

/-- `findStatusR` skips any segment not containing `s`. -/
theorem findStatusR_skip (l1 l2 : Str) (h : 's' ∉ l1) :
    findStatusR (l1 ++ l2) = findStatusR l2 := by
  induction l1 with
  | nil => rfl
  | cons c cs ih =>
    have hcp : c ≠ 's' := fun he => h (he ▸ List.mem_cons_self c cs)
    have hc : ("status=".toList).isPrefixOf (c :: (cs ++ l2)) = false := by
      cases hx : ("status=".toList).isPrefixOf (c :: (cs ++ l2)) with
      | false => rfl
      | true => exact absurd (isPrefixOf_head_eq hx).symm hcp
    rw [List.cons_append]
    simp only [findStatusR, hc, Bool.false_eq_true, if_false]
    exact ih (fun hm => h (List.mem_cons_of_mem c hm))

/-- `findDurationR` skips any segment not containing `d`. -/
theorem findDurationR_skip (l1 l2 : Str) (h : 'd' ∉ l1) :
    findDurationR (l1 ++ l2) = findDurationR l2 := by
  induction l1 with
  | nil => rfl
  | cons c cs ih =>
    have hcp : c ≠ 'd' := fun he => h (he ▸ List.mem_cons_self c cs)
    have hc : ("duration=".toList).isPrefixOf (c :: (cs ++ l2)) = false := by
      cases hx : ("duration=".toList).isPrefixOf (c :: (cs ++ l2)) with
      | false => rfl
      | true => exact absurd (isPrefixOf_head_eq hx).symm hcp
    rw [List.cons_append]
    simp only [findDurationR, hc, Bool.false_eq_true, if_false]
    exact ih (fun hm => h (List.mem_cons_of_mem c hm))

/-- `logrageMatch` skips any segment not containing `m`. -/
theorem logrageMatch_skip (l1 l2 : Str) (h : 'm' ∉ l1) :
    logrageMatch (l1 ++ l2) = logrageMatch l2 := by
  induction l1 with
  | nil => rfl
  | cons c cs ih =>
    have hcp : c ≠ 'm' := fun he => h (he ▸ List.mem_cons_self c cs)
    have hc : ("method=".toList).isPrefixOf (c :: (cs ++ l2)) = false := by
      cases hx : ("method=".toList).isPrefixOf (c :: (cs ++ l2)) with
      | false => rfl
      | true => exact absurd (isPrefixOf_head_eq hx).symm hcp
    rw [List.cons_append]
    simp only [logrageMatch, hc, Bool.false_eq_true, if_false]
    exact ih (fun hm => h (List.mem_cons_of_mem c hm))

/-- `findPathR` fires at a literal `path=` with a nonempty
non-whitespace capture delimited by whitespace (or end of line). -/
theorem findPathR_hit (P r : Str) (hP : P ≠ [])
    (hPc : ∀ c ∈ P, c.isWhitespace = false)
    (hr : ∀ c t, r = c :: t → c.isWhitespace = true) :
    findPathR ("path=".toList ++ (P ++ r)) = some (P, r) := by
  have hPe : P.isEmpty = false := by
    cases P with
    | nil => exact absurd rfl hP
    | cons a as => rfl
  have htw : (P ++ r).takeWhile (fun c => !c.isWhitespace) = P :=
    takeWhile_append_all _ P r (fun c hc => by simp [hPc c hc])
      (fun c t ht => by simp [hr c t ht])
  have hcond : ("path=".toList).isPrefixOf ('p' :: ("ath=".toList ++ (P ++ r))) = true :=
    isPrefixOf_append_self ("path=".toList) (P ++ r)
  have hdrop : ('p' :: ("ath=".toList ++ (P ++ r))).drop 5 = P ++ r :=
    List.drop_left ("path=".toList) (P ++ r)
  have hrest : (P ++ r).drop P.length = r := List.drop_left P r
  rw [show "path=".toList ++ (P ++ r) = 'p' :: ("ath=".toList ++ (P ++ r)) from rfl]
  simp [findPathR, hcond, hdrop, htw, hPe, hrest]

/-- `findStatusR` fires at a literal `status=` with a nonempty digit
capture delimited by a non-digit (or end of line). -/
theorem findStatusR_hit (S r : Str) (hS : S ≠ [])
    (hSc : ∀ c ∈ S, c.isDigit = true)
    (hr : ∀ c t, r = c :: t → c.isDigit = false) :
    findStatusR ("status=".toList ++ (S ++ r)) = some (S, r) := by
  have hSe : S.isEmpty = false := by
    cases S with
    | nil => exact absurd rfl hS
    | cons a as => rfl
  have htw : (S ++ r).takeWhile Char.isDigit = S :=
    takeWhile_append_all _ S r hSc hr
  have hcond : ("status=".toList).isPrefixOf ('s' :: ("tatus=".toList ++ (S ++ r))) = true :=
    isPrefixOf_append_self ("status=".toList) (S ++ r)
  have hdrop : ('s' :: ("tatus=".toList ++ (S ++ r))).drop 7 = S ++ r :=
    List.drop_left ("status=".toList) (S ++ r)
  have hrest : (S ++ r).drop S.length = r := List.drop_left S r
  rw [show "status=".toList ++ (S ++ r) = 's' :: ("tatus=".toList ++ (S ++ r)) from rfl]
  simp [findStatusR, hcond, hdrop, htw, hSe, hrest]

/-- `findDurationR` fires at a literal `duration=` with a well-formed
decimal capture (digits, optionally `.` and more digits) delimited by a
character that is neither a digit nor `.` (or end of line). -/
theorem findDurationR_hit (D r : Str)
    (hD : (D ≠ [] ∧ ∀ c ∈ D, c.isDigit = true) ∨
      (∃ ds fs, D = ds ++ '.' :: fs ∧ ds ≠ [] ∧ fs ≠ [] ∧
        (∀ c ∈ ds, c.isDigit = true) ∧ ∀ c ∈ fs, c.isDigit = true))
    (hr : ∀ c t, r = c :: t → c.isDigit = false ∧ c ≠ '.') :
    findDurationR ("duration=".toList ++ (D ++ r)) = some D := by
  have hcond : ("duration=".toList).isPrefixOf
      ('d' :: ("uration=".toList ++ (D ++ r))) = true :=
    isPrefixOf_append_self ("duration=".toList) (D ++ r)
  have hdrop : ('d' :: ("uration=".toList ++ (D ++ r))).drop 9 = D ++ r :=
    List.drop_left ("duration=".toList) (D ++ r)
  rw [show "duration=".toList ++ (D ++ r) = 'd' :: ("uration=".toList ++ (D ++ r)) from rfl]
  rcases hD with ⟨hne, hdig⟩ | ⟨ds, fs, hDe, hdsne, hfsne, hdsd, hfsd⟩
  · have hDem : D.isEmpty = false := by
      cases D with
      | nil => exact absurd rfl hne
      | cons a as => rfl
    have htw : (D ++ r).takeWhile Char.isDigit = D :=
      takeWhile_append_all _ D r hdig (fun c t ht => (hr c t ht).1)
    have hrest : (D ++ r).drop D.length = r := List.drop_left D r
    simp only [findDurationR, hcond, if_true, hdrop, htw, hDem, Bool.false_eq_true, if_false,
      hrest]
    rcases hre : r with _ | ⟨c, t⟩
    · rfl
    · have hc := (hr c t hre).2
      split
      · next rr heq =>
        injection heq with h1 _
        exact absurd h1 hc
      · rfl
  · subst hDe
    have hassoc : (ds ++ '.' :: fs) ++ r = ds ++ ('.' :: (fs ++ r)) := by
      rw [List.append_assoc, List.cons_append]
    rw [hassoc]
    have hcond2 : ("duration=".toList).isPrefixOf
        ('d' :: ("uration=".toList ++ (ds ++ ('.' :: (fs ++ r))))) = true :=
      isPrefixOf_append_self ("duration=".toList) (ds ++ ('.' :: (fs ++ r)))
    have hdrop2 : ('d' :: ("uration=".toList ++ (ds ++ ('.' :: (fs ++ r))))).drop 9
        = ds ++ ('.' :: (fs ++ r)) :=
      List.drop_left ("duration=".toList) (ds ++ ('.' :: (fs ++ r)))
    have hdse : ds.isEmpty = false := by
      cases ds with
      | nil => exact absurd rfl hdsne
      | cons a as => rfl
    have hfse : fs.isEmpty = false := by
      cases fs with
      | nil => exact absurd rfl hfsne
      | cons a as => rfl
    have htw : (ds ++ ('.' :: (fs ++ r))).takeWhile Char.isDigit = ds :=
      takeWhile_append_all _ ds ('.' :: (fs ++ r)) hdsd
        (fun c t ht => by injection ht with h1 _; subst h1; decide)
    have htw2 : (fs ++ r).takeWhile Char.isDigit = fs :=
      takeWhile_append_all _ fs r hfsd (fun c t ht => (hr c t ht).1)
    have hrest : (ds ++ ('.' :: (fs ++ r))).drop ds.length = '.' :: (fs ++ r) :=
      List.drop_left ds ('.' :: (fs ++ r))
    simp only [findDurationR, hcond2, if_true, hdrop2, htw, htw2, hdse, hfse,
      Bool.false_eq_true, if_false, hrest]

/-- `logrageMatch` fires at a literal `method=` with a nonempty
uppercase capture, given that the three later scanners succeed on the
remainder. -/
theorem logrageMatch_method (M rest : Str) {P S D : Str} {r2 r3 : Str}
    (hM : M ≠ []) (hMc : ∀ c ∈ M, c.isUpper = true)
    (hw : ∀ c t, rest = c :: t → c.isUpper = false)
    (hp : findPathR rest = some (P, r2))
    (hs : findStatusR r2 = some (S, r3))
    (hd : findDurationR r3 = some D) :
    logrageMatch ("method=".toList ++ (M ++ rest)) = some (M, P, S, D) := by
  have hMe : M.isEmpty = false := by
    cases M with
    | nil => exact absurd rfl hM
    | cons a as => rfl
  have htw : (M ++ rest).takeWhile Char.isUpper = M :=
    takeWhile_append_all _ M rest hMc hw
  have hcond : ("method=".toList).isPrefixOf ('m' :: ("ethod=".toList ++ (M ++ rest))) = true :=
    isPrefixOf_append_self ("method=".toList) (M ++ rest)
  have hdrop : ('m' :: ("ethod=".toList ++ (M ++ rest))).drop 7 = M ++ rest :=
    List.drop_left ("method=".toList) (M ++ rest)
  have hrest : (M ++ rest).drop M.length = rest := List.drop_left M rest
  rw [show "method=".toList ++ (M ++ rest) = 'm' :: ("ethod=".toList ++ (M ++ rest)) from rfl]
  simp [logrageMatch, hcond, hdrop, htw, hMe, hrest, hp, hs, hd]

/-- **C6.** A line carrying `method=<M> path=<P> status=<S>
duration=<D>` (single spaces between the tokens, no `m` before the
first token, and well-formed captures), on which the timestamp stripper
and the startup-error detector do not fire, is classified as exactly one
complete `HttpRequest` event carrying the method, path, parsed status
and parsed duration together — never the start-form event with
`status = none`, since the Lograge pattern is tested before the
traditional-start and key-value forms in the first-match-wins cascade. -/
theorem c6_lograge_precedence (pre M P S D post : Str)
    (hpre : 'm' ∉ pre)
    (hM : M ≠ []) (hMc : ∀ c ∈ M, c.isUpper = true)
    (hP : P ≠ []) (hPc : ∀ c ∈ P, c.isWhitespace = false)
    (hS : S ≠ []) (hSc : ∀ c ∈ S, c.isDigit = true)
    (hD : (D ≠ [] ∧ ∀ c ∈ D, c.isDigit = true) ∨
      (∃ ds fs, D = ds ++ '.' :: fs ∧ ds ≠ [] ∧ fs ≠ [] ∧
        (∀ c ∈ ds, c.isDigit = true) ∧ ∀ c ∈ fs, c.isDigit = true))
    (hpost : ∀ c t, post = c :: t → c.isDigit = false ∧ c ≠ '.')
    (hstrip : stripTimestampPrefix (logrageLine pre M P S D post) = logrageLine pre M P S D post)
    (herr : detectRailsError (logrageLine pre M P S D post) = none) :
    parseLine (logrageLine pre M P S D post)
      = some (.httpRequest ⟨M, P, some (parseStatus S), some (parseDecimal D), none, none⟩) := by
  have hdur : findDurationR (' ' :: ("duration=".toList ++ (D ++ post))) = some D :=
    (findDurationR_skip [' '] _ (by decide)).trans (findDurationR_hit D post hD hpost)
  have hst : findStatusR (' ' :: ("status=".toList ++ (S ++ (' ' ::
      ("duration=".toList ++ (D ++ post))))))
      = some (S, ' ' :: ("duration=".toList ++ (D ++ post))) :=
    (findStatusR_skip [' '] _ (by decide)).trans
      (findStatusR_hit S _ hS hSc (fun c t ht => by injection ht with h1 _; subst h1; decide))
  have hpa : findPathR (' ' :: ("path=".toList ++ (P ++ (' ' :: ("status=".toList ++ (S ++ (' ' ::
      ("duration=".toList ++ (D ++ post)))))))))
      = some (P, ' ' :: ("status=".toList ++ (S ++ (' ' ::
      ("duration=".toList ++ (D ++ post)))))) :=
    (findPathR_skip [' '] _ (by decide)).trans
      (findPathR_hit P _ hP hPc (fun c t ht => by injection ht with h1 _; subst h1; decide))
  have hlm : logrageMatch (logrageLine pre M P S D post) = some (M, P, S, D) := by
    unfold logrageLine
    rw [logrageMatch_skip pre _ hpre]
    exact logrageMatch_method M _ hM hMc
      (fun c t ht => by injection ht with h1 _; subst h1; decide) hpa hst hdur
  unfold parseLine
  rw [hstrip]
  simp only [classifyClean, herr, hlm]

/-- Witness for C6: the spec's own example line
`method=GET path=/x status=200 duration=12.3`. -/
theorem c6_lograge_precedence_witness :
    parseLine (logrageLine [] ("GET".toList) ("/x".toList) ("200".toList) ("12.3".toList) [])
      = some (.httpRequest ⟨"GET".toList, "/x".toList, some 200, some (mkRat 123 10),
          none, none⟩)
      ∧ logrageLine [] ("GET".toList) ("/x".toList) ("200".toList) ("12.3".toList) []
        = "method=GET path=/x status=200 duration=12.3".toList := by
  refine ⟨?_, by decide⟩
  have h := c6_lograge_precedence [] ("GET".toList) ("/x".toList) ("200".toList)
    ("12.3".toList) [] (by decide) (by decide) (by decide) (by decide) (by decide)
    (by decide) (by decide)
    (Or.inr ⟨"12".toList, "3".toList, by decide, by decide, by decide, by decide, by decide⟩)
    (fun c t ht => List.noConfusion ht)
    (by decide) (by decide)
  rw [h]
  decide

/-! ### C1 part A: fingerprint invariance under literal payloads -/

/-- Unpacking `digitsOK`. -/
theorem digitsOK_iff {s : Str} (h : digitsOK s = true) :
    s ≠ [] ∧ ∀ c ∈ s, c.isDigit = true := by
  simp only [digitsOK, Bool.and_eq_true] at h
  constructor
  · intro he; subst he; simp at h
  · intro c hc
    exact List.all_eq_true.mp h.2 c hc

/-- Unpacking `rawOK`. -/
theorem rawOK_iff {s : Str} (h : rawOK s = true) :
    s ≠ [] ∧ ∀ c ∈ s, c.isDigit = false ∧ ¬ c = '\'' ∧ ¬ c = '$' := by
  simp only [rawOK, Bool.and_eq_true] at h
  constructor
  · intro he; subst he; simp at h
  · intro c hc
    have h2 := List.all_eq_true.mp h.2 c hc
    simp only [Bool.and_eq_true, Bool.not_eq_true', decide_eq_false_iff_not] at h2
    exact ⟨h2.1.1, h2.1.2, h2.2⟩

/-- Unpacking `strOK`. -/
theorem strOK_iff {s : Str} (h : strOK s = true) :
    ∀ c ∈ s, ¬ c = '\'' ∧ ¬ c = '$' := by
  intro c hc
  have h2 := List.all_eq_true.mp h c hc
  simp only [Bool.and_eq_true, Bool.not_eq_true', decide_eq_false_iff_not] at h2
  exact h2

/-- A digit is not `$`. -/
theorem digit_not_dollar {c : Char} (h : c.isDigit = true) : ¬ c = '$' := by
  intro he; subst he; exact absurd h (by decide)

/-- A digit is not `'`. -/
theorem digit_not_quote {c : Char} (h : c.isDigit = true) : ¬ c = '\'' := by
  intro he; subst he; exact absurd h (by decide)

/-- Digits are word characters. -/
theorem word_of_digit {c : Char} (h : c.isDigit = true) : isWordChar c = true := by
  simp [isWordChar, Char.isAlphanum, h]

/-- Non-word characters are not digits. -/
theorem notdigit_of_notword {c : Char} (h : isWordChar c = false) : c.isDigit = false := by
  cases hd : c.isDigit with
  | false => rfl
  | true => rw [word_of_digit hd] at h; exact absurd h (by decide)

/-- The placeholder pass passes `$`-free text through unchanged. -/
theorem replPh_skip (a : Str) (h : ∀ c ∈ a, ¬ c = '$') :
    ∀ rest : Str, replPh false (a ++ rest) = a ++ replPh false rest := by
  induction a with
  | nil => intro rest; rfl
  | cons c cs ih =>
    intro rest
    have hc : decide (c = '$') = false := decide_eq_false (h c (List.mem_cons_self c cs))
    rw [List.cons_append]
    simp only [replPh, Bool.false_and, Bool.false_eq_true, if_false, hc]
    rw [ih (fun x hx => h x (List.mem_cons_of_mem c hx)) rest, List.cons_append]

/-- The placeholder pass consumes the digits of a matched placeholder. -/
theorem replPh_consume (d : Str) (h : ∀ c ∈ d, c.isDigit = true) :
    ∀ rest : Str, replPh true (d ++ rest) = replPh true rest := by
  induction d with
  | nil => intro rest; rfl
  | cons c cs ih =>
    intro rest
    have hc : c.isDigit = true := h c (List.mem_cons_self c cs)
    rw [List.cons_append]
    simp only [replPh, Bool.true_and, hc, if_true]
    exact ih (fun x hx => h x (List.mem_cons_of_mem c hx)) rest

/-- Leaving a placeholder's digit run at a non-digit resets the state. -/
theorem replPh_exit (rest : Str) (h : headNotDigit rest = true) :
    replPh true rest = replPh false rest := by
  cases rest with
  | nil => rfl
  | cons c cs =>
    have hc : c.isDigit = false := by
      simp only [headNotDigit, Bool.not_eq_true'] at h
      exact h
    simp [replPh, hc]

/-- The placeholder pass replaces a whole `\$\d+` match by `?`. -/
theorem replPh_ph (d rest : Str) (hd : digitsOK d = true) (h : headNotDigit rest = true) :
    replPh false (('$' :: d) ++ rest) = '?' :: replPh false rest := by
  obtain ⟨hne, hdig⟩ := digitsOK_iff hd
  cases d with
  | nil => exact absurd rfl hne
  | cons c0 d2 =>
    have hc0 : c0.isDigit = true := hdig c0 (List.mem_cons_self c0 d2)
    have h2 : replPh true (d2 ++ rest) = replPh false rest := by
      rw [replPh_consume d2 (fun x hx => hdig x (List.mem_cons_of_mem c0 hx)) rest,
        replPh_exit rest h]
    rw [show ('$' :: (c0 :: d2)) ++ rest = '$' :: c0 :: (d2 ++ rest) from by simp]
    simp [replPh, hc0, h2]

/-- After a placeholder, the rendered remainder opens at a non-digit. -/
theorem renderSegs_headNotDigit (t : List Seg) (w : Bool) (hwf : segsWF w t = true)
    (hnd : nextNotDigit t = true) : headNotDigit (renderSegs t) = true := by
  cases t with
  | nil => rfl
  | cons sg t2 =>
    cases sg with
    | raw s =>
      simp only [segsWF, Bool.and_eq_true] at hwf
      obtain ⟨hne, hch⟩ := rawOK_iff hwf.1
      cases s with
      | nil => exact absurd rfl hne
      | cons c s2 =>
        show headNotDigit ((c :: s2) ++ renderSegs t2) = true
        rw [List.cons_append]
        simp only [headNotDigit, Bool.not_eq_true']
        exact (hch c (List.mem_cons_self c s2)).1
    | str s => rfl
    | num s => simp [nextNotDigit] at hnd
    | ph s => rfl

/-- Pass 1 on a well-formed decomposition: placeholders become `?`,
everything else is untouched. -/
theorem pass1_canon : ∀ (segs : List Seg) (w : Bool), segsWF w segs = true →
    replPh false (renderSegs segs) = render1Segs segs := by
  intro segs
  induction segs with
  | nil => intro w _; rfl
  | cons sg t ih =>
    intro w hwf
    cases sg with
    | raw s =>
      simp only [segsWF, Bool.and_eq_true] at hwf
      show replPh false (s ++ renderSegs t) = s ++ render1Segs t
      rw [replPh_skip s (fun c hc => (rawOK_iff hwf.1).2 c hc |>.2.2) _, ih _ hwf.2]
    | str s =>
      simp only [segsWF, Bool.and_eq_true] at hwf
      show replPh false (('\'' :: s ++ ['\'']) ++ renderSegs t)
        = ('\'' :: s ++ ['\'']) ++ render1Segs t
      have hch : ∀ c ∈ '\'' :: s ++ ['\''], ¬ c = '$' := by
        intro c hc
        rcases List.mem_cons.mp hc with he | hm
        · subst he; decide
        · rcases List.mem_append.mp hm with hs | hq
          · exact (strOK_iff hwf.1 c hs).2
          · rcases List.mem_singleton.mp hq with he2
            subst he2; decide
      rw [replPh_skip _ hch _, ih _ hwf.2]
    | num s =>
      simp only [segsWF, Bool.and_eq_true] at hwf
      obtain ⟨⟨⟨_, hdig⟩, _⟩, hres⟩ := hwf
      show replPh false (s ++ renderSegs t) = s ++ render1Segs t
      rw [replPh_skip s
        (fun c hc => digit_not_dollar ((digitsOK_iff hdig).2 c hc)) _, ih _ hres]
    | ph s =>
      simp only [segsWF, Bool.and_eq_true] at hwf
      obtain ⟨⟨hdig, hnd⟩, hres⟩ := hwf
      show replPh false (('$' :: s) ++ renderSegs t) = '?' :: render1Segs t
      rw [replPh_ph s _ hdig (renderSegs_headNotDigit t false hres hnd), ih _ hres]

/-- The string pass passes quote-free text through unchanged. -/
theorem replStr_skip (a : Str) (h : ∀ c ∈ a, ¬ c = '\'') :
    ∀ rest : Str, replStr none (a ++ rest) = a ++ replStr none rest := by
  induction a with
  | nil => intro rest; rfl
  | cons c cs ih =>
    intro rest
    have hcp : ¬ c = '\'' := h c (List.mem_cons_self c cs)
    rw [List.cons_append]
    simp only [replStr]
    rw [if_neg hcp, ih (fun x hx => h x (List.mem_cons_of_mem c hx)) rest, List.cons_append]

/-- An opened string literal is replaced by `?` at its closing quote. -/
theorem replStr_close (s : Str) (h : ∀ c ∈ s, ¬ c = '\'') :
    ∀ (buf rest : Str), replStr (some buf) (s ++ '\'' :: rest) = '?' :: replStr none rest := by
  induction s with
  | nil => intro buf rest; simp [replStr]
  | cons c cs ih =>
    intro buf rest
    have hcp : ¬ c = '\'' := h c (List.mem_cons_self c cs)
    rw [List.cons_append]
    simp only [replStr]
    rw [if_neg hcp]
    exact ih (fun x hx => h x (List.mem_cons_of_mem c hx)) (c :: buf) rest

/-- The string pass replaces a whole `'[^']*'` literal by `?`. -/
theorem replStr_lit (s : Str) (h : strOK s = true) :
    ∀ rest : Str, replStr none (('\'' :: s ++ ['\'']) ++ rest) = '?' :: replStr none rest := by
  intro rest
  rw [show ('\'' :: s ++ ['\'']) ++ rest = '\'' :: (s ++ '\'' :: rest) from by simp]
  simp only [replStr, decide_True, if_true]
  exact replStr_close s (fun c hc => (strOK_iff h c hc).1) [] rest

/-- Pass 2 on a well-formed decomposition: string literals become `?`,
everything else is untouched. -/
theorem pass2_canon : ∀ (segs : List Seg) (w : Bool), segsWF w segs = true →
    replStr none (render1Segs segs) = render2Segs segs := by
  intro segs
  induction segs with
  | nil => intro w _; rfl
  | cons sg t ih =>
    intro w hwf
    cases sg with
    | raw s =>
      simp only [segsWF, Bool.and_eq_true] at hwf
      show replStr none (s ++ render1Segs t) = s ++ render2Segs t
      rw [replStr_skip s (fun c hc => (rawOK_iff hwf.1).2 c hc |>.2.1) _, ih _ hwf.2]
    | str s =>
      simp only [segsWF, Bool.and_eq_true] at hwf
      show replStr none (('\'' :: s ++ ['\'']) ++ render1Segs t) = '?' :: render2Segs t
      rw [replStr_lit s hwf.1 _, ih _ hwf.2]
    | num s =>
      simp only [segsWF, Bool.and_eq_true] at hwf
      obtain ⟨⟨⟨_, hdig⟩, _⟩, hres⟩ := hwf
      show replStr none (s ++ render1Segs t) = s ++ render2Segs t
      rw [replStr_skip s
        (fun c hc => digit_not_quote ((digitsOK_iff hdig).2 c hc)) _, ih _ hres]
    | ph s =>
      simp only [segsWF, Bool.and_eq_true] at hwf
      obtain ⟨⟨hdig, hnd⟩, hres⟩ := hwf
      show replStr none (['?'] ++ render1Segs t) = ['?'] ++ render2Segs t
      rw [replStr_skip ['?'] (by intro c hc; rcases List.mem_singleton.mp hc; decide) _,
        ih _ hres]

/-- The numeric pass passes nonempty digit-free text through unchanged,
leaving the boundary state of that text's last character. -/
theorem replNum_skipRaw (a : Str) : a ≠ [] → (∀ c ∈ a, c.isDigit = false) →
    ∀ (w : Bool) (rest : Str) (dflt : Char),
    replNum none w (a ++ rest) = a ++ replNum none (isWordChar (a.getLastD dflt)) rest := by
  induction a with
  | nil => intro hne; exact absurd rfl hne
  | cons c cs ih =>
    intro _ hch w rest dflt
    have hc : c.isDigit = false := hch c (List.mem_cons_self c cs)
    cases cs with
    | nil =>
      rw [List.cons_append]
      simp [replNum, hc, List.getLastD_cons]
    | cons c2 cs2 =>
      have step : replNum none w ((c :: c2 :: cs2) ++ rest)
          = c :: replNum none (isWordChar c) ((c2 :: cs2) ++ rest) := by
        simp only [List.cons_append, replNum, hc, Bool.false_and, Bool.false_eq_true, if_false]
      rw [step,
        ih (by simp) (fun x hx => hch x (List.mem_cons_of_mem c hx)) (isWordChar c) rest c]
      simp only [List.getLastD_cons, List.cons_append]

/-- The numeric pass buffers a digit run. -/
theorem replNum_fill (d : Str) (h : ∀ c ∈ d, c.isDigit = true) :
    ∀ (buf : Str) (w : Bool) (rest : Str),
    replNum (some buf) w (d ++ rest) = replNum (some (d.reverse ++ buf)) w rest := by
  induction d with
  | nil => intro buf w rest; simp
  | cons c cs ih =>
    intro buf w rest
    have hc : c.isDigit = true := h c (List.mem_cons_self c cs)
    rw [List.cons_append]
    simp only [replNum, hc, if_true]
    rw [ih (fun x hx => h x (List.mem_cons_of_mem c hx)) (c :: buf) w rest]
    simp [List.append_assoc]

/-- The numeric pass replaces a whole standalone `\b\d+\b` run by `?`. -/
theorem replNum_num (d rest : Str) (hd : digitsOK d = true) (h : headNonword rest = true) :
    replNum none false (d ++ rest) = '?' :: replNum none false rest := by
  obtain ⟨hne, hdig⟩ := digitsOK_iff hd
  cases d with
  | nil => exact absurd rfl hne
  | cons c0 d2 =>
    have hc0 : c0.isDigit = true := hdig c0 (List.mem_cons_self c0 d2)
    rw [List.cons_append]
    simp only [replNum, hc0, Bool.not_false, Bool.and_true, if_true]
    rw [replNum_fill d2 (fun x hx => hdig x (List.mem_cons_of_mem c0 hx)) [c0] false rest]
    cases rest with
    | nil => rfl
    | cons c cs =>
      have hw : isWordChar c = false := by
        simp only [headNonword, Bool.not_eq_true'] at h
        exact h
      have hcd : c.isDigit = false := notdigit_of_notword hw
      simp [replNum, hcd, hw]

/-- After a numeric literal, the pass-2 remainder opens at a non-word
character. -/
theorem render2_headNonword (t : List Seg) (w : Bool) (hwf : segsWF w t = true)
    (hnw : nextNonword t = true) : headNonword (render2Segs t) = true := by
  cases t with
  | nil => rfl
  | cons sg t2 =>
    cases sg with
    | raw s =>
      simp only [segsWF, Bool.and_eq_true] at hwf
      obtain ⟨hne, _⟩ := rawOK_iff hwf.1
      cases s with
      | nil => exact absurd rfl hne
      | cons c s2 =>
        show headNonword ((c :: s2) ++ render2Segs t2) = true
        rw [List.cons_append]
        simp only [nextNonword, List.headD_cons] at hnw
        exact hnw
    | str s => rfl
    | num s => simp [nextNonword] at hnw
    | ph s => rfl

/-- Pass 3 on a well-formed decomposition: numeric literals become `?`,
everything else is untouched. -/
theorem pass3_canon : ∀ (segs : List Seg) (w : Bool), segsWF w segs = true →
    replNum none w (render2Segs segs) = renderCSegs segs := by
  intro segs
  induction segs with
  | nil => intro w _; rfl
  | cons sg t ih =>
    intro w hwf
    cases sg with
    | raw s =>
      simp only [segsWF, Bool.and_eq_true] at hwf
      obtain ⟨hne, hch⟩ := rawOK_iff hwf.1
      show replNum none w (s ++ render2Segs t) = s ++ renderCSegs t
      rw [replNum_skipRaw s hne (fun c hc => (hch c hc).1) w _ '?', ih _ hwf.2]
    | str s =>
      simp only [segsWF, Bool.and_eq_true] at hwf
      show replNum none w (['?'] ++ render2Segs t) = ['?'] ++ renderCSegs t
      rw [replNum_skipRaw ['?'] (by simp) (by decide) w _ '?']
      rw [show (['?'] : Str).getLastD '?' = '?' from rfl]
      rw [show isWordChar '?' = false from rfl, ih _ hwf.2]
    | num s =>
      simp only [segsWF, Bool.and_eq_true, Bool.not_eq_true'] at hwf
      obtain ⟨⟨⟨hw, hdig⟩, hnw⟩, hres⟩ := hwf
      subst hw
      show replNum none false (s ++ render2Segs t) = '?' :: renderCSegs t
      rw [replNum_num s _ hdig (render2_headNonword t false hres hnw), ih _ hres]
    | ph s =>
      simp only [segsWF, Bool.and_eq_true] at hwf
      obtain ⟨⟨hdig, hnd⟩, hres⟩ := hwf
      show replNum none w (['?'] ++ render2Segs t) = ['?'] ++ renderCSegs t
      rw [replNum_skipRaw ['?'] (by simp) (by decide) w _ '?']
      rw [show (['?'] : Str).getLastD '?' = '?' from rfl]
      rw [show isWordChar '?' = false from rfl, ih _ hres]

/-- `normalize_query` on a well-formed decomposition collapses the
whitespace of its canonical form. -/
theorem normalize_canon (segs : List Seg) (h : segsWF false segs = true) :
    normalizeQuery (renderSegs segs) = collapseWs (renderCSegs segs) := by
  unfold normalizeQuery
  rw [pass1_canon segs false h, pass2_canon segs false h, pass3_canon segs false h]

/-- Same-shape decompositions have equal canonical forms. -/
theorem renderC_shape : ∀ (a b : List Seg), shapeEqSegs a b = true →
    renderCSegs a = renderCSegs b := by
  intro a
  induction a with
  | nil =>
    intro b h
    cases b with
    | nil => rfl
    | cons y bs => simp [shapeEqSegs] at h
  | cons x as2 ih =>
    intro b h
    cases b with
    | nil => simp [shapeEqSegs] at h
    | cons y bs =>
      simp only [shapeEqSegs, Bool.and_eq_true] at h
      show x.renderC ++ renderCSegs as2 = y.renderC ++ renderCSegs bs
      rw [ih bs h.2]
      have h1 := h.1
      cases x <;> cases y <;> simp_all [Seg.shapeEq, Seg.renderC]

/-! ### C1 part B: idempotence — the `$`-digit invariant -/

/-- `noDD` only constrains the tail beyond a non-`$` head. -/
theorem noDD_cons_ne {x : Char} (hx : ¬ x = '$') (r : Str) : noDD (x :: r) = noDD r := by
  cases r with
  | nil => simp [noDD]
  | cons d r2 => simp [noDD, decide_eq_false hx]

/-- `noDD` restricted to a tail. -/
theorem noDD_tail {c : Char} {cs : Str} (h : noDD (c :: cs) = true) : noDD cs = true := by
  cases cs with
  | nil => rfl
  | cons d cs2 =>
    simp only [noDD, Bool.and_eq_true] at h
    exact h.2

/-- Under `noDD`, the character after a `$` is not a digit. -/
theorem noDD_pair {d : Char} {cs : Str} (h : noDD ('$' :: d :: cs) = true) :
    d.isDigit = false := by
  simp only [noDD, decide_True, Bool.true_and, Bool.and_eq_true, Bool.not_eq_true'] at h
  exact h.1

/-- The placeholder pass is the identity on `$`-digit-free text. -/
theorem replPh_noop (l : Str) (h : noDD l = true) : replPh false l = l := by
  induction l with
  | nil => rfl
  | cons c cs ih =>
    have ht := ih (noDD_tail h)
    by_cases hc : c = '$'
    · subst hc
      cases cs with
      | nil => simp [replPh]
      | cons d cs2 =>
        have hd : d.isDigit = false := noDD_pair h
        have step : replPh false ('$' :: d :: cs2) = '$' :: replPh false (d :: cs2) := by
          simp only [replPh, Bool.false_and, Bool.false_eq_true, if_false, decide_True,
            Bool.true_and, hd]
        rw [step, ht]
    · have step : replPh false (c :: cs) = c :: replPh false cs := by
        have hcd : decide (c = '$') = false := decide_eq_false hc
        simp only [replPh, Bool.false_and, Bool.false_eq_true, if_false, hcd]
      rw [step, ht]

/-- The placeholder pass keeps a non-digit opening character. -/
theorem headNotDigit_replPh (l : Str) (h : headNotDigit l = true) :
    headNotDigit (replPh false l) = true := by
  cases l with
  | nil => rfl
  | cons c cs =>
    have hc : c.isDigit = false := by
      simp only [headNotDigit, Bool.not_eq_true'] at h
      exact h
    simp only [replPh, Bool.false_and, Bool.false_eq_true, if_false]
    split
    · rfl
    · simp [headNotDigit, hc]

/-- The placeholder pass never leaves a `$` directly before a digit. -/
theorem noDD_replPh : ∀ (l : Str) (b : Bool), noDD (replPh b l) = true := by
  intro l
  induction l with
  | nil => intro b; rfl
  | cons c cs ih =>
    intro b
    simp only [replPh]
    split
    · exact ih true
    · split
      · rw [noDD_cons_ne (by decide)]
        exact ih true
      · next hnot =>
        by_cases hc : c = '$'
        · subst hc
          have hcs : headNotDigit cs = true := by
            cases cs with
            | nil => rfl
            | cons d cs2 =>
              simp only [decide_True, Bool.true_and] at hnot
              simp only [headNotDigit, Bool.not_eq_true']
              revert hnot
              cases d.isDigit <;> simp
          have hR := headNotDigit_replPh cs hcs
          have hN := ih false
          cases hRe : replPh false cs with
          | nil => rfl
          | cons e r =>
            rw [hRe] at hR hN
            simp only [headNotDigit, Bool.not_eq_true'] at hR
            simp [noDD, hR, hN]
        · rw [noDD_cons_ne hc]
          exact ih false

/-! ### C1 part B: the string pass on normalized text -/

/-- `noDD` restricted to an append's right part. -/
theorem noDD_append_right : ∀ (a b : Str), noDD (a ++ b) = true → noDD b = true := by
  intro a
  induction a with
  | nil => intro b h; exact h
  | cons c a2 ih =>
    intro b h
    rw [List.cons_append] at h
    exact ih b (noDD_tail h)

/-- `noDD` restricted to an append's left part. -/
theorem noDD_append_left : ∀ (a b : Str), noDD (a ++ b) = true → noDD a = true := by
  intro a
  induction a with
  | nil => intro b h; rfl
  | cons c a2 ih =>
    intro b h
    cases a2 with
    | nil => rfl
    | cons c2 a3 =>
      rw [List.cons_append, List.cons_append] at h
      simp only [noDD, Bool.and_eq_true] at h ⊢
      refine ⟨h.1, ?_⟩
      have h2 := ih b (by rw [List.cons_append]; exact h.2)
      exact h2

/-- A stalled string-literal buffer is emitted verbatim. -/
theorem replStr_buf_quotefree (cs : Str) (h : ∀ c ∈ cs, ¬ c = '\'') :
    ∀ buf, replStr (some buf) cs = '\'' :: buf.reverse ++ cs := by
  induction cs with
  | nil => intro buf; simp [replStr]
  | cons c cs2 ih =>
    intro buf
    have hcp : ¬ c = '\'' := h c (List.mem_cons_self c cs2)
    have step : replStr (some buf) (c :: cs2) = replStr (some (c :: buf)) cs2 := by
      simp only [replStr, if_neg hcp]
    rw [step, ih (fun x hx => h x (List.mem_cons_of_mem c hx)) (c :: buf)]
    simp

/-- The string pass is the identity when at most one quote remains. -/
theorem replStr_noop (l : Str) (h : quoteCount l ≤ 1) : replStr none l = l := by
  induction l with
  | nil => rfl
  | cons c cs ih =>
    by_cases hc : c = '\''
    · subst hc
      have hz : quoteCount cs = 0 := by
        simp only [quoteCount, List.countP_cons, decide_True, if_true] at h ⊢
        omega
      have hqf : ∀ x ∈ cs, ¬ x = '\'' := by
        intro x hx he
        have := List.countP_eq_zero.mp hz x hx
        simp [he] at this
      rw [show replStr none ('\'' :: cs) = replStr (some []) cs from by simp [replStr]]
      rw [replStr_buf_quotefree cs hqf []]
      rfl
    · have step : replStr none (c :: cs) = c :: replStr none cs := by
        simp only [replStr, if_neg hc]
      rw [step, ih ?_]
      simp only [quoteCount, List.countP_cons, decide_eq_false hc] at h
      simpa [quoteCount] using h

/-- Inside-a-literal output of the string pass opens at a non-digit. -/
theorem headNotDigit_replStr_some : ∀ (l buf : Str),
    headNotDigit (replStr (some buf) l) = true := by
  intro l
  induction l with
  | nil => intro buf; rfl
  | cons c cs ih =>
    intro buf
    by_cases hc : c = '\''
    · subst hc
      rw [show replStr (some buf) ('\'' :: cs) = '?' :: replStr none cs from by simp [replStr]]
      rfl
    · rw [show replStr (some buf) (c :: cs) = replStr (some (c :: buf)) cs from by
        simp only [replStr, if_neg hc]]
      exact ih (c :: buf)

/-- The string pass keeps a non-digit opening character. -/
theorem headNotDigit_replStr (l : Str) (h : headNotDigit l = true) :
    headNotDigit (replStr none l) = true := by
  cases l with
  | nil => rfl
  | cons c cs =>
    by_cases hc : c = '\''
    · subst hc
      rw [show replStr none ('\'' :: cs) = replStr (some []) cs from by simp [replStr]]
      exact headNotDigit_replStr_some cs []
    · rw [show replStr none (c :: cs) = c :: replStr none cs from by
        simp only [replStr, if_neg hc]]
      exact h

/-- The string pass preserves the `$`-digit invariant. -/
theorem noDD_replStr : ∀ l : Str,
    (noDD l = true → noDD (replStr none l) = true) ∧
    (∀ buf, noDD ('\'' :: buf.reverse ++ l) = true → noDD (replStr (some buf) l) = true) := by
  intro l
  induction l with
  | nil =>
    constructor
    · intro _; rfl
    · intro buf h
      rw [show replStr (some buf) ([] : Str) = '\'' :: buf.reverse from rfl]
      rw [List.append_nil] at h
      exact h
  | cons c cs ih =>
    constructor
    · intro h
      by_cases hc : c = '\''
      · subst hc
        rw [show replStr none ('\'' :: cs) = replStr (some []) cs from by simp [replStr]]
        exact ih.2 [] (by simpa using h)
      · have step : replStr none (c :: cs) = c :: replStr none cs := by
          simp only [replStr, if_neg hc]
        rw [step]
        by_cases hd : c = '$'
        · subst hd
          have hcs : headNotDigit cs = true := by
            cases cs with
            | nil => rfl
            | cons d cs2 =>
              simp only [headNotDigit, Bool.not_eq_true']
              exact noDD_pair h
          have hR := headNotDigit_replStr cs hcs
          have hN := ih.1 (noDD_tail h)
          cases hRe : replStr none cs with
          | nil => rfl
          | cons e r =>
            rw [hRe] at hR hN
            simp only [headNotDigit, Bool.not_eq_true'] at hR
            simp [noDD, hR, hN]
        · rw [noDD_cons_ne hd]
          exact ih.1 (noDD_tail h)
    · intro buf h
      by_cases hc : c = '\''
      · subst hc
        rw [show replStr (some buf) ('\'' :: cs) = '?' :: replStr none cs from by
          simp [replStr]]
        rw [noDD_cons_ne (by decide)]
        exact ih.1 (noDD_tail (noDD_append_right _ _ (noDD_tail h)))
      · have step : replStr (some buf) (c :: cs) = replStr (some (c :: buf)) cs := by
          simp only [replStr, if_neg hc]
        rw [step]
        apply ih.2 (c :: buf)
        rw [show ('\'' : Char) :: (c :: buf).reverse ++ cs
          = '\'' :: buf.reverse ++ (c :: cs) from by simp]
        exact h

/-- The string pass leaves at most one (unmatched) quote. -/
theorem quoteCount_replStr : ∀ l : Str,
    quoteCount (replStr none l) ≤ 1 ∧
    ∀ buf, (∀ c ∈ buf, ¬ c = '\'') → quoteCount (replStr (some buf) l) ≤ 1 := by
  intro l
  induction l with
  | nil =>
    constructor
    · simp [replStr, quoteCount]
    · intro buf hbuf
      rw [show replStr (some buf) ([] : Str) = '\'' :: buf.reverse from rfl]
      have hz : quoteCount buf.reverse = 0 := by
        apply List.countP_eq_zero.mpr
        intro x hx
        simpa using hbuf x (List.mem_reverse.mp hx)
      simp only [quoteCount, List.countP_cons, decide_True, if_true]
      simp only [quoteCount] at hz
      omega
  | cons c cs ih =>
    constructor
    · by_cases hc : c = '\''
      · subst hc
        rw [show replStr none ('\'' :: cs) = replStr (some []) cs from by simp [replStr]]
        exact ih.2 [] (by simp)
      · rw [show replStr none (c :: cs) = c :: replStr none cs from by
          simp only [replStr, if_neg hc]]
        simp only [quoteCount, List.countP_cons, decide_eq_false hc]
        simpa [quoteCount] using ih.1
    · intro buf hbuf
      by_cases hc : c = '\''
      · subst hc
        rw [show replStr (some buf) ('\'' :: cs) = '?' :: replStr none cs from by
          simp [replStr]]
        simp only [quoteCount, List.countP_cons]
        simpa [quoteCount] using ih.1
      · rw [show replStr (some buf) (c :: cs) = replStr (some (c :: buf)) cs from by
          simp only [replStr, if_neg hc]]
        apply ih.2 (c :: buf)
        intro x hx
        rcases List.mem_cons.mp hx with he | hm
        · subst he; exact hc
        · exact hbuf x hm

/-! ### C1 part B: the numeric pass on normalized text -/

/-- An in-run scan consumes a digit run. -/
theorem nsScan_run_digits (d : Str) (h : ∀ c ∈ d, c.isDigit = true) :
    ∀ (w : Bool) (tail : Str), nsScan true w (d ++ tail) = nsScan true w tail := by
  induction d with
  | nil => intro w tail; rfl
  | cons c d2 ih =>
    intro w tail
    have hc : c.isDigit = true := h c (List.mem_cons_self c d2)
    rw [List.cons_append]
    simp only [nsScan, hc, if_true]
    exact ih (fun x hx => h x (List.mem_cons_of_mem c hx)) w tail

/-- A scan at a cold boundary enters a digit run. -/
theorem nsScan_enter_digits (d : Str) (hne : d ≠ []) (h : ∀ c ∈ d, c.isDigit = true) :
    ∀ tail : Str, nsScan false false (d ++ tail) = nsScan true false tail := by
  cases d with
  | nil => exact absurd rfl hne
  | cons c0 d2 =>
    intro tail
    have hc : c0.isDigit = true := h c0 (List.mem_cons_self c0 d2)
    rw [List.cons_append]
    simp only [nsScan, hc, Bool.not_false, Bool.and_true, Bool.false_eq_true, if_false, if_true]
    exact nsScan_run_digits d2 (fun x hx => h x (List.mem_cons_of_mem c0 hx)) false tail

/-- The numeric pass is the identity when no standalone run remains. -/
theorem replNum_noop_aux : ∀ l : Str,
    (∀ w, nsScan false w l = true → replNum none w l = l) ∧
    (∀ buf w w2, nsScan true w2 l = true → replNum (some buf) w l = buf.reverse ++ l) := by
  intro l
  induction l with
  | nil =>
    constructor
    · intro w _; rfl
    · intro buf w w2 h; exact absurd h (by simp [nsScan])
  | cons c cs ih =>
    constructor
    · intro w h
      by_cases he : (c.isDigit && !w) = true
      · have hstep : replNum none w (c :: cs) = replNum (some [c]) w cs := by
          simp only [replNum, he, if_true]
        have hh : nsScan true w cs = true := by
          simp only [nsScan, Bool.false_eq_true, if_false, he, if_true] at h
          exact h
        rw [hstep, ih.2 [c] w w hh]
        rfl
      · have hstep : replNum none w (c :: cs) = c :: replNum none (isWordChar c) cs := by
          simp only [replNum, he, Bool.false_eq_true, if_false]
        have hh : nsScan false (isWordChar c) cs = true := by
          simp only [nsScan, Bool.false_eq_true, if_false, he] at h
          exact h
        rw [hstep, ih.1 (isWordChar c) hh]
    · intro buf w w2 h
      by_cases hd : c.isDigit = true
      · have hstep : replNum (some buf) w (c :: cs) = replNum (some (c :: buf)) w cs := by
          simp only [replNum, hd, if_true]
        have hh : nsScan true w2 cs = true := by
          simp only [nsScan, if_true, hd] at h
          exact h
        rw [hstep, ih.2 (c :: buf) w w2 hh]
        simp
      · have hd2 : c.isDigit = false := by
          revert hd; cases c.isDigit <;> simp
        have hh : (isWordChar c && nsScan false true cs) = true := by
          simp only [nsScan, if_true, hd2, Bool.false_eq_true, if_false] at h
          exact h
        obtain ⟨hw, h2⟩ := Bool.and_eq_true_iff.mp hh
        have hstep : replNum (some buf) w (c :: cs)
            = buf.reverse ++ c :: replNum none true cs := by
          simp only [replNum, hd2, Bool.false_eq_true, if_false, hw, if_true]
        rw [hstep, ih.1 true h2]

/-- The numeric pass leaves no standalone digit run. -/
theorem nsScan_replNum : ∀ l : Str,
    (∀ w, nsScan false w (replNum none w l) = true) ∧
    (∀ buf w, buf ≠ [] → (∀ c ∈ buf, c.isDigit = true) →
      nsScan false false (replNum (some buf) w l) = true) := by
  intro l
  induction l with
  | nil =>
    constructor
    · intro w; rfl
    · intro buf w _ _; rfl
  | cons c cs ih =>
    constructor
    · intro w
      by_cases he : (c.isDigit && !w) = true
      · obtain ⟨hd, hw⟩ := Bool.and_eq_true_iff.mp he
        have hw2 : w = false := by
          revert hw; cases w <;> simp
        subst hw2
        have hstep : replNum none false (c :: cs) = replNum (some [c]) false cs := by
          simp only [replNum, he, if_true]
        rw [hstep]
        exact ih.2 [c] false (by simp) (by simpa using hd)
      · have hstep : replNum none w (c :: cs) = c :: replNum none (isWordChar c) cs := by
          simp only [replNum, he, Bool.false_eq_true, if_false]
        rw [hstep]
        simp only [nsScan, Bool.false_eq_true, if_false, he]
        exact ih.1 (isWordChar c)
    · intro buf w hne hdig
      by_cases hd : c.isDigit = true
      · have hstep : replNum (some buf) w (c :: cs) = replNum (some (c :: buf)) w cs := by
          simp only [replNum, hd, if_true]
        rw [hstep]
        apply ih.2 (c :: buf) w (by simp)
        intro x hx
        rcases List.mem_cons.mp hx with hx2 | hx2
        · subst hx2; exact hd
        · exact hdig x hx2
      · have hd2 : c.isDigit = false := by
          revert hd; cases c.isDigit <;> simp
        by_cases hw : isWordChar c = true
        · have hstep : replNum (some buf) w (c :: cs)
              = buf.reverse ++ c :: replNum none true cs := by
            simp only [replNum, hd2, Bool.false_eq_true, if_false, hw, if_true]
          rw [hstep]
          rw [nsScan_enter_digits buf.reverse (by simpa using hne)
            (fun x hx => hdig x (List.mem_reverse.mp hx)) _]
          simp only [nsScan, if_true, hd2, Bool.false_eq_true, if_false, hw, Bool.true_and]
          exact ih.1 true
        · have hw2 : isWordChar c = false := by
            revert hw; cases isWordChar c <;> simp
          have hstep : replNum (some buf) w (c :: cs)
              = '?' :: c :: replNum none false cs := by
            simp only [replNum, hd2, Bool.false_eq_true, if_false, hw2]
          rw [hstep]
          have hq : nsScan false false ('?' :: c :: replNum none false cs)
              = nsScan false false (replNum none false cs) := by
            have h1 : ('?' : Char).isDigit = false := by decide
            have h2 : isWordChar '?' = false := by decide
            simp only [nsScan, Bool.false_eq_true, if_false, h1, Bool.false_and, h2, hd2, hw2]
          rw [hq]
          exact ih.1 false

/-- Scanning across a non-word, non-digit separator splits the scan. -/
theorem nsScan_sep {sep : Char} (hw : isWordChar sep = false) (hd : sep.isDigit = false) :
    ∀ (a : Str) (inRun w : Bool) (b : Str),
    nsScan inRun w (a ++ sep :: b) = (nsScan inRun w a && nsScan false false b) := by
  intro a
  induction a with
  | nil =>
    intro inRun w b
    cases inRun with
    | true => simp [nsScan, hd, hw]
    | false => simp [nsScan, hd, hw]
  | cons c cs ih =>
    intro inRun w b
    rw [List.cons_append]
    cases inRun with
    | true =>
      by_cases hcd : c.isDigit = true
      · simp only [nsScan, hcd, if_true]
        exact ih true w b
      · have hcd2 : c.isDigit = false := by
          revert hcd; cases c.isDigit <;> simp
        simp only [nsScan, hcd2, Bool.false_eq_true, if_false, if_true]
        rw [ih false true b, Bool.and_assoc]
    | false =>
      by_cases he : (c.isDigit && !w) = true
      · simp only [nsScan, Bool.false_eq_true, if_false, he, if_true]
        exact ih true w b
      · simp only [nsScan, Bool.false_eq_true, if_false, he]
        exact ih false (isWordChar c) b

/-! ### C1 part B: whitespace collapse -/

/-- A whitespace character is not a word character, digit, quote or
dollar. -/
theorem ws_char_facts {c : Char} (h : c.isWhitespace = true) :
    isWordChar c = false ∧ c.isDigit = false ∧ ¬ c = '\'' ∧ ¬ c = '$' := by
  have h2 : ((c = ' ' ∨ c = '\t') ∨ c = '\r') ∨ c = '\n' := by
    simpa [Char.isWhitespace] using h
  rcases h2 with ((h2 | h2) | h2) | h2 <;> subst h2 <;>
    exact ⟨by decide, by decide, by decide, by decide⟩

/-- Tokens produced by `split_whitespace` are nonempty and
whitespace-free. -/
theorem wsSplit_tokens : ∀ (l cur : Str), (∀ c ∈ cur, c.isWhitespace = false) →
    ∀ t ∈ wsSplit cur l, t ≠ [] ∧ ∀ c ∈ t, c.isWhitespace = false := by
  intro l
  induction l with
  | nil =>
    intro cur hcur t ht
    simp only [wsSplit] at ht
    by_cases he : cur.isEmpty = true
    · rw [if_pos he] at ht
      exact absurd ht (List.not_mem_nil t)
    · rw [if_neg he] at ht
      rcases List.mem_singleton.mp ht with rfl
      constructor
      · intro habs
        have : cur = [] := by simpa using congrArg List.reverse habs
        subst this
        exact he rfl
      · intro c hc
        exact hcur c (List.mem_reverse.mp hc)
  | cons c cs ih =>
    intro cur hcur t ht
    simp only [wsSplit] at ht
    by_cases hw : c.isWhitespace = true
    · rw [if_pos hw] at ht
      by_cases he : cur.isEmpty = true
      · rw [if_pos he] at ht
        exact ih [] (by simp) t ht
      · rw [if_neg he] at ht
        rcases List.mem_cons.mp ht with rfl | hm
        · constructor
          · intro habs
            have : cur = [] := by simpa using congrArg List.reverse habs
            subst this
            exact he rfl
          · intro x hx
            exact hcur x (List.mem_reverse.mp hx)
        · exact ih [] (by simp) t hm
    · have hw2 : c.isWhitespace = false := by
        revert hw; cases c.isWhitespace <;> simp
      rw [if_neg (by simp [hw2])] at ht
      refine ih (c :: cur) ?_ t ht
      intro x hx
      rcases List.mem_cons.mp hx with rfl | hm
      · exact hw2
      · exact hcur x hm

/-- `split_whitespace` consumes a whitespace-free run into the current
token accumulator. -/
theorem wsSplit_run (t : Str) (h : ∀ c ∈ t, c.isWhitespace = false) :
    ∀ (cur r : Str), wsSplit cur (t ++ r) = wsSplit (t.reverse ++ cur) r := by
  induction t with
  | nil => intro cur r; simp
  | cons c t2 ih =>
    intro cur r
    have hc : c.isWhitespace = false := h c (List.mem_cons_self c t2)
    rw [List.cons_append]
    simp only [wsSplit, hc, Bool.false_eq_true, if_false]
    rw [ih (fun x hx => h x (List.mem_cons_of_mem c hx)) (c :: cur) r]
    simp

/-- `split_whitespace` recovers the tokens of a single-space join. -/
theorem wsSplit_joinSpace : ∀ ts : List Str,
    (∀ t ∈ ts, t ≠ [] ∧ ∀ c ∈ t, c.isWhitespace = false) →
    wsSplit [] (joinSpace ts) = ts := by
  intro ts
  induction ts with
  | nil => intro _; rfl
  | cons t ts2 ih =>
    intro h
    obtain ⟨hne, hch⟩ := h t (List.mem_cons_self t ts2)
    have hrevne : (t.reverse).isEmpty = false := by
      cases hre : t.reverse with
      | nil => exact absurd (by simpa using congrArg List.reverse hre) hne
      | cons x xs => rfl
    cases ts2 with
    | nil =>
      show wsSplit [] (joinSpace [t]) = [t]
      rw [show joinSpace [t] = t from rfl, show (t : Str) = t ++ [] from by simp,
        wsSplit_run t hch [] []]
      simp only [wsSplit, List.append_nil, hrevne, Bool.false_eq_true, if_false]
      simp
    | cons t2 ts3 =>
      show wsSplit [] (t ++ ' ' :: joinSpace (t2 :: ts3)) = t :: t2 :: ts3
      rw [wsSplit_run t hch [] (' ' :: joinSpace (t2 :: ts3))]
      simp only [wsSplit, List.append_nil, if_true, hrevne, Bool.false_eq_true, if_false]
      rw [List.reverse_reverse]
      rw [ih (fun x hx => h x (List.mem_cons_of_mem t hx))]
      rw [if_pos (show (' ').isWhitespace = true from by decide)]

/-- Collapsing whitespace is idempotent. -/
theorem collapseWs_idem (l : Str) : collapseWs (collapseWs l) = collapseWs l := by
  unfold collapseWs
  rw [wsSplit_joinSpace (wsSplit [] l) (wsSplit_tokens l [] (by simp))]

/-- Gluing `noDD` strings with a space preserves `noDD`. -/
theorem noDD_glue : ∀ a b : Str, noDD a = true → noDD b = true →
    noDD (a ++ ' ' :: b) = true := by
  intro a
  induction a with
  | nil =>
    intro b _ hb
    rw [List.nil_append, noDD_cons_ne (by decide)]
    exact hb
  | cons x a2 ih =>
    intro b ha hb
    cases a2 with
    | nil =>
      rw [List.cons_append, List.nil_append]
      have h2 : noDD (' ' :: b) = true := by
        rw [noDD_cons_ne (by decide)]
        exact hb
      cases hx : decide (x = '$') with
      | false =>
        rw [noDD_cons_ne (by simpa using hx)]
        exact h2
      | true =>
        have hx2 : x = '$' := of_decide_eq_true hx
        subst hx2
        simp [noDD, h2]
    | cons y a3 =>
      rw [List.cons_append]
      have hpair : (!(decide (x = '$') && y.isDigit)) = true := by
        simp only [noDD, Bool.and_eq_true] at ha
        exact ha.1
      have hrest := ih b (noDD_tail ha) hb
      rw [List.cons_append] at hrest
      simp only [noDD, Bool.and_eq_true]
      exact ⟨hpair, hrest⟩

/-- `noDD` over a single-space join of `noDD` tokens. -/
theorem noDD_joinSpace : ∀ ts : List Str, (∀ t ∈ ts, noDD t = true) →
    noDD (joinSpace ts) = true := by
  intro ts
  induction ts with
  | nil => intro _; rfl
  | cons t ts2 ih =>
    intro h
    cases ts2 with
    | nil => exact h t (List.mem_cons_self t [])
    | cons t2 ts3 =>
      show noDD (t ++ ' ' :: joinSpace (t2 :: ts3)) = true
      exact noDD_glue t _ (h t (List.mem_cons_self t _))
        (ih (fun x hx => h x (List.mem_cons_of_mem t hx)))

/-- Every token of a `noDD` string is `noDD`. -/
theorem noDD_wsSplit : ∀ (l cur : Str), noDD (cur.reverse ++ l) = true →
    ∀ t ∈ wsSplit cur l, noDD t = true := by
  intro l
  induction l with
  | nil =>
    intro cur h t ht
    simp only [wsSplit] at ht
    by_cases he : cur.isEmpty = true
    · rw [if_pos he] at ht
      exact absurd ht (List.not_mem_nil t)
    · rw [if_neg he] at ht
      rcases List.mem_singleton.mp ht with rfl
      rw [List.append_nil] at h
      exact h
  | cons c cs ih =>
    intro cur h t ht
    simp only [wsSplit] at ht
    by_cases hw : c.isWhitespace = true
    · rw [if_pos hw] at ht
      have hl : noDD cur.reverse = true := noDD_append_left _ _ h
      have hr : noDD cs = true := noDD_tail (noDD_append_right _ _ h)
      by_cases he : cur.isEmpty = true
      · rw [if_pos he] at ht
        exact ih [] (by simpa using hr) t ht
      · rw [if_neg he] at ht
        rcases List.mem_cons.mp ht with rfl | hm
        · exact hl
        · exact ih [] (by simpa using hr) t hm
    · rw [if_neg (by simp_all)] at ht
      refine ih (c :: cur) ?_ t ht
      rw [show ((c :: cur).reverse : Str) ++ cs = cur.reverse ++ (c :: cs) from by simp]
      exact h

/-- `noDD` survives whitespace collapse. -/
theorem noDD_collapseWs (l : Str) (h : noDD l = true) : noDD (collapseWs l) = true := by
  unfold collapseWs
  exact noDD_joinSpace _ (noDD_wsSplit l [] (by simpa using h))

/-- `nsScan` over a single-space join of clean tokens. -/
theorem nsScan_joinSpace : ∀ ts : List Str, (∀ t ∈ ts, nsScan false false t = true) →
    nsScan false false (joinSpace ts) = true := by
  intro ts
  induction ts with
  | nil => intro _; rfl
  | cons t ts2 ih =>
    intro h
    cases ts2 with
    | nil => exact h t (List.mem_cons_self t [])
    | cons t2 ts3 =>
      show nsScan false false (t ++ ' ' :: joinSpace (t2 :: ts3)) = true
      rw [nsScan_sep (by decide) (by decide) t false false _]
      rw [h t (List.mem_cons_self t _), ih (fun x hx => h x (List.mem_cons_of_mem t hx))]
      rfl

/-- Every token of a clean string is clean. -/
theorem nsScan_wsSplit : ∀ (l cur : Str), nsScan false false (cur.reverse ++ l) = true →
    ∀ t ∈ wsSplit cur l, nsScan false false t = true := by
  intro l
  induction l with
  | nil =>
    intro cur h t ht
    simp only [wsSplit] at ht
    by_cases he : cur.isEmpty = true
    · rw [if_pos he] at ht
      exact absurd ht (List.not_mem_nil t)
    · rw [if_neg he] at ht
      rcases List.mem_singleton.mp ht with rfl
      rw [List.append_nil] at h
      exact h
  | cons c cs ih =>
    intro cur h t ht
    simp only [wsSplit] at ht
    by_cases hw : c.isWhitespace = true
    · rw [if_pos hw] at ht
      obtain ⟨hwnw, hwnd, _, _⟩ := ws_char_facts hw
      rw [nsScan_sep hwnw hwnd cur.reverse false false cs] at h
      obtain ⟨hl, hr⟩ := Bool.and_eq_true_iff.mp h
      by_cases he : cur.isEmpty = true
      · rw [if_pos he] at ht
        exact ih [] (by simpa using hr) t ht
      · rw [if_neg he] at ht
        rcases List.mem_cons.mp ht with rfl | hm
        · exact hl
        · exact ih [] (by simpa using hr) t hm
    · rw [if_neg (by simp_all)] at ht
      refine ih (c :: cur) ?_ t ht
      rw [show ((c :: cur).reverse : Str) ++ cs = cur.reverse ++ (c :: cs) from by simp]
      exact h

/-- Cleanness survives whitespace collapse. -/
theorem nsScan_collapseWs (l : Str) (h : nsScan false false l = true) :
    nsScan false false (collapseWs l) = true := by
  unfold collapseWs
  exact nsScan_joinSpace _ (nsScan_wsSplit l [] (by simpa using h))

/-- Quote count of a single-space join. -/
theorem quoteCount_joinSpace_cons (t : Str) (ts : List Str) :
    quoteCount (joinSpace (t :: ts)) = quoteCount t + quoteCount (joinSpace ts) := by
  cases ts with
  | nil => simp [joinSpace, quoteCount]
  | cons t2 ts2 =>
    show quoteCount (t ++ ' ' :: joinSpace (t2 :: ts2)) = _
    simp [quoteCount, List.countP_append, List.countP_cons]

/-- Whitespace collapse does not create quotes. -/
theorem quoteCount_collapseWs : ∀ (l cur : Str),
    quoteCount (joinSpace (wsSplit cur l)) ≤ quoteCount cur + quoteCount l := by
  intro l
  induction l with
  | nil =>
    intro cur
    simp only [wsSplit]
    by_cases he : cur.isEmpty = true
    · rw [if_pos he]
      simp [joinSpace, quoteCount]
    · rw [if_neg he]
      simp [joinSpace, quoteCount, List.countP_reverse]
  | cons c cs ih =>
    intro cur
    simp only [wsSplit]
    by_cases hw : c.isWhitespace = true
    · rw [if_pos hw]
      obtain ⟨_, _, hq, _⟩ := ws_char_facts hw
      have hc : quoteCount (c :: cs) = quoteCount cs := by
        simp [quoteCount, List.countP_cons, decide_eq_false hq]
      by_cases he : cur.isEmpty = true
      · rw [if_pos he]
        have he2 : cur = [] := by
          cases cur with
          | nil => rfl
          | cons x xs => simp at he
        subst he2
        have := ih []
        simp only [quoteCount, List.countP_nil] at this hc ⊢
        omega
      · rw [if_neg he]
        rw [quoteCount_joinSpace_cons]
        have := ih []
        have hrev : quoteCount cur.reverse = quoteCount cur := by
          simp [quoteCount, List.countP_reverse]
        simp only [quoteCount, List.countP_nil] at this hc hrev ⊢
        omega
    · rw [if_neg (by simp_all)]
      have := ih (c :: cur)
      have hc : quoteCount (c :: cur) + quoteCount cs
          = quoteCount cur + quoteCount (c :: cs) := by
        simp [quoteCount, List.countP_cons]
        omega
      simp only [quoteCount] at this hc ⊢
      omega

/-! ### C1 part B: invariants through the numeric pass, and assembly -/

/-- A word character is not `$`. -/
theorem word_not_dollar {c : Char} (h : isWordChar c = true) : ¬ c = '$' := by
  intro he; subst he; exact absurd h (by decide)

/-- Prepending digits preserves `noDD`. -/
theorem noDD_digits_prepend : ∀ (d rest : Str), (∀ c ∈ d, c.isDigit = true) →
    noDD rest = true → noDD (d ++ rest) = true := by
  intro d
  induction d with
  | nil => intro rest _ h; exact h
  | cons c d2 ih =>
    intro rest hdig h
    rw [List.cons_append,
      noDD_cons_ne (digit_not_dollar (hdig c (List.mem_cons_self c d2)))]
    exact ih rest (fun x hx => hdig x (List.mem_cons_of_mem c hx)) h

/-- `$` followed by a non-digit-opening `noDD` string is `noDD`. -/
theorem noDD_dollar_head (R : Str) (hn : noDD R = true) (hh : headNotDigit R = true) :
    noDD ('$' :: R) = true := by
  cases R with
  | nil => rfl
  | cons e r =>
    simp only [headNotDigit, Bool.not_eq_true'] at hh
    rw [show noDD ('$' :: e :: r)
      = (!(decide ('$' = '$') && e.isDigit) && noDD (e :: r)) from rfl]
    simp [hh, hn]

/-- Under `noDD`, the text after a leading `$` opens at a non-digit. -/
theorem headNotDigit_of_noDD_dollar {cs : Str} (h : noDD ('$' :: cs) = true) :
    headNotDigit cs = true := by
  cases cs with
  | nil => rfl
  | cons d cs2 =>
    simp only [headNotDigit, Bool.not_eq_true']
    exact noDD_pair h

/-- The numeric pass preserves the `$`-digit invariant. -/
theorem noDD_replNum : ∀ l : Str,
    (∀ w, noDD l = true →
      noDD (replNum none w l) = true ∧
      (headNotDigit l = true → headNotDigit (replNum none w l) = true)) ∧
    (∀ (buf : Str) (w : Bool) (p : Char), buf ≠ [] → (∀ c ∈ buf, c.isDigit = true) →
      noDD l = true → ¬ p = '$' → noDD (p :: replNum (some buf) w l) = true) := by
  intro l
  induction l with
  | nil =>
    constructor
    · intro w _; exact ⟨rfl, fun _ => rfl⟩
    · intro buf w p _ _ _ _
      simp [noDD]
  | cons c cs ih =>
    constructor
    · intro w h
      by_cases he : (c.isDigit && !w) = true
      · have hstep : replNum none w (c :: cs) = replNum (some [c]) w cs := by
          simp only [replNum, he, if_true]
        constructor
        · rw [hstep]
          have hB := ih.2 [c] w 'x' (by simp)
            (by simpa using (Bool.and_eq_true_iff.mp he).1) (noDD_tail h) (by decide)
          exact noDD_tail hB
        · intro hh
          simp [headNotDigit, (Bool.and_eq_true_iff.mp he).1] at hh
      · have hstep : replNum none w (c :: cs) = c :: replNum none (isWordChar c) cs := by
          simp only [replNum, he, Bool.false_eq_true, if_false]
        constructor
        · rw [hstep]
          by_cases hc : c = '$'
          · subst hc
            obtain ⟨hRn, hRhead⟩ := ih.1 (isWordChar '$') (noDD_tail h)
            exact noDD_dollar_head _ hRn (hRhead (headNotDigit_of_noDD_dollar h))
          · rw [noDD_cons_ne hc]
            exact (ih.1 (isWordChar c) (noDD_tail h)).1
        · intro hh
          rw [hstep]
          simp only [headNotDigit] at hh ⊢
          exact hh
    · intro buf w p hne hdig h hp
      by_cases hd : c.isDigit = true
      · have hstep : replNum (some buf) w (c :: cs) = replNum (some (c :: buf)) w cs := by
          simp only [replNum, hd, if_true]
        rw [hstep]
        refine ih.2 (c :: buf) w p (by simp) ?_ (noDD_tail h) hp
        intro x hx
        rcases List.mem_cons.mp hx with hx2 | hx2
        · subst hx2; exact hd
        · exact hdig x hx2
      · have hd2 : c.isDigit = false := by
          revert hd; cases c.isDigit <;> simp
        by_cases hw : isWordChar c = true
        · have hstep : replNum (some buf) w (c :: cs)
              = buf.reverse ++ c :: replNum none true cs := by
            simp only [replNum, hd2, Bool.false_eq_true, if_false, hw, if_true]
          rw [hstep, noDD_cons_ne hp]
          apply noDD_digits_prepend buf.reverse _
            (fun x hx => hdig x (List.mem_reverse.mp hx))
          rw [noDD_cons_ne (word_not_dollar hw)]
          exact (ih.1 true (noDD_tail h)).1
        · have hw2 : isWordChar c = false := by
            revert hw; cases isWordChar c <;> simp
          have hstep : replNum (some buf) w (c :: cs)
              = '?' :: c :: replNum none false cs := by
            simp only [replNum, hd2, Bool.false_eq_true, if_false, hw2]
          rw [hstep]
          have hpq : noDD ('?' :: c :: replNum none false cs) = true := by
            rw [noDD_cons_ne (by decide)]
            by_cases hc : c = '$'
            · subst hc
              obtain ⟨hRn, hRhead⟩ := ih.1 false (noDD_tail h)
              exact noDD_dollar_head _ hRn (hRhead (headNotDigit_of_noDD_dollar h))
            · rw [noDD_cons_ne hc]
              exact (ih.1 false (noDD_tail h)).1
          rw [show noDD (p :: '?' :: c :: replNum none false cs)
            = (!(decide (p = '$') && ('?').isDigit)
                && noDD ('?' :: c :: replNum none false cs)) from rfl]
          simp [hpq]

/-- The numeric pass does not create quotes. -/
theorem quoteCount_replNum : ∀ l : Str,
    (∀ w, quoteCount (replNum none w l) ≤ quoteCount l) ∧
    (∀ (buf : Str) (w : Bool), (∀ c ∈ buf, c.isDigit = true) →
      quoteCount (replNum (some buf) w l) ≤ quoteCount l) := by
  intro l
  induction l with
  | nil =>
    constructor
    · intro w; exact le_refl _
    · intro buf w _
      simp [quoteCount, replNum]
  | cons c cs ih =>
    constructor
    · intro w
      by_cases he : (c.isDigit && !w) = true
      · have hstep : replNum none w (c :: cs) = replNum (some [c]) w cs := by
          simp only [replNum, he, if_true]
        rw [hstep]
        have h1 := ih.2 [c] w (by simpa using (Bool.and_eq_true_iff.mp he).1)
        have h2 : quoteCount cs ≤ quoteCount (c :: cs) := by
          simp only [quoteCount, List.countP_cons]
          omega
        omega
      · have hstep : replNum none w (c :: cs) = c :: replNum none (isWordChar c) cs := by
          simp only [replNum, he, Bool.false_eq_true, if_false]
        rw [hstep]
        have h1 := ih.1 (isWordChar c)
        simp only [quoteCount, List.countP_cons] at h1 ⊢
        omega
    · intro buf w hdig
      by_cases hd : c.isDigit = true
      · have hstep : replNum (some buf) w (c :: cs) = replNum (some (c :: buf)) w cs := by
          simp only [replNum, hd, if_true]
        rw [hstep]
        have h1 := ih.2 (c :: buf) w ?_
        · have h2 : quoteCount cs ≤ quoteCount (c :: cs) := by
            simp only [quoteCount, List.countP_cons]
            omega
          omega
        · intro x hx
          rcases List.mem_cons.mp hx with hx2 | hx2
          · subst hx2; exact hd
          · exact hdig x hx2
      · have hd2 : c.isDigit = false := by
          revert hd; cases c.isDigit <;> simp
        by_cases hw : isWordChar c = true
        · have hstep : replNum (some buf) w (c :: cs)
              = buf.reverse ++ c :: replNum none true cs := by
            simp only [replNum, hd2, Bool.false_eq_true, if_false, hw, if_true]
          rw [hstep]
          have h1 := ih.1 true
          have hz : quoteCount buf.reverse = 0 := by
            apply List.countP_eq_zero.mpr
            intro x hx
            simpa using digit_not_quote (hdig x (List.mem_reverse.mp hx))
          simp only [quoteCount, List.countP_append, List.countP_cons] at h1 hz ⊢
          omega
        · have hw2 : isWordChar c = false := by
            revert hw; cases isWordChar c <;> simp
          have hstep : replNum (some buf) w (c :: cs)
              = '?' :: c :: replNum none false cs := by
            simp only [replNum, hd2, Bool.false_eq_true, if_false, hw2]
          rw [hstep]
          have h1 := ih.1 false
          have h2 : (decide (('?' : Char) = '\'')) = false := by decide
          simp only [quoteCount, List.countP_cons, h2, Bool.false_eq_true, if_false] at h1 ⊢
          omega

/-- `normalize_query` is idempotent: each of its regex passes finds no
match in its own output, and whitespace collapse is idempotent. -/
theorem normalizeQuery_idem (q : Str) :
    normalizeQuery (normalizeQuery q) = normalizeQuery q := by
  have hA : noDD (replPh false q) = true := noDD_replPh q false
  have hB : noDD (replStr none (replPh false q)) = true := (noDD_replStr _).1 hA
  have hC : noDD (replNum none false (replStr none (replPh false q))) = true :=
    ((noDD_replNum _).1 false hB).1
  have hN : noDD (normalizeQuery q) = true := by
    rw [show normalizeQuery q
      = collapseWs (replNum none false (replStr none (replPh false q))) from rfl]
    exact noDD_collapseWs _ hC
  have hqB : quoteCount (replStr none (replPh false q)) ≤ 1 := (quoteCount_replStr _).1
  have hqC : quoteCount (replNum none false (replStr none (replPh false q))) ≤ 1 :=
    le_trans ((quoteCount_replNum _).1 false) hqB
  have hqN : quoteCount (normalizeQuery q) ≤ 1 := by
    rw [show normalizeQuery q
      = collapseWs (replNum none false (replStr none (replPh false q))) from rfl]
    have h1 := quoteCount_collapseWs
      (replNum none false (replStr none (replPh false q))) []
    simp only [quoteCount, List.countP_nil] at h1 hqC ⊢
    unfold collapseWs
    omega
  have hsC : nsScan false false (replNum none false (replStr none (replPh false q)))
      = true := (nsScan_replNum _).1 false
  have hsN : nsScan false false (normalizeQuery q) = true := by
    rw [show normalizeQuery q
      = collapseWs (replNum none false (replStr none (replPh false q))) from rfl]
    exact nsScan_collapseWs _ hsC
  have main : normalizeQuery (normalizeQuery q) = collapseWs (normalizeQuery q) := by
    rw [show normalizeQuery (normalizeQuery q)
      = collapseWs (replNum none false (replStr none (replPh false (normalizeQuery q))))
      from rfl]
    rw [replPh_noop _ hN, replStr_noop _ hqN, (replNum_noop_aux _).1 false hsN]
  rw [main,
    show normalizeQuery q
      = collapseWs (replNum none false (replStr none (replPh false q))) from rfl,
    collapseWs_idem]

/-- **C1.** Fingerprint invariance and idempotence.  (a) Two SQL
strings that differ only in the payloads of their literal occurrences —
standalone numeric literals, single-quoted string literals, or
positional placeholders, as captured by a well-formed literal
decomposition of the same shape — normalize to identical fingerprints.
(b) `normalize_query` is idempotent: on an already-normalized string it
returns its input unchanged, for every input string. -/
theorem c1_fingerprint_invariance_idempotence :
    (∀ a b : List Seg, segsWF false a = true → segsWF false b = true →
      shapeEqSegs a b = true →
      normalizeQuery (renderSegs a) = normalizeQuery (renderSegs b)) ∧
    ∀ q : Str, normalizeQuery (normalizeQuery q) = normalizeQuery q := by
  constructor
  · intro a b ha hb hs
    rw [normalize_canon a ha, normalize_canon b hb, renderC_shape a b hs]
  · exact normalizeQuery_idem

/-- Witness for C1: the spec's own example pair `... id = 123` vs
`... id = 456`, and idempotence at a concrete mixed-literal query. -/
theorem c1_fingerprint_invariance_idempotence_witness :
    normalizeQuery ("SELECT * FROM users WHERE id = 123".toList)
      = normalizeQuery ("SELECT * FROM users WHERE id = 456".toList)
    ∧ normalizeQuery (normalizeQuery
        ("select a from t where b = 7 and c = \x27x\x27".toList))
      = normalizeQuery ("select a from t where b = 7 and c = \x27x\x27".toList) := by
  constructor
  · have h := c1_fingerprint_invariance_idempotence.1
      [Seg.raw ("SELECT * FROM users WHERE id = ".toList), Seg.num ("123".toList)]
      [Seg.raw ("SELECT * FROM users WHERE id = ".toList), Seg.num ("456".toList)]
      (by decide) (by decide) (by decide)
    rw [show ("SELECT * FROM users WHERE id = 123".toList)
        = renderSegs [Seg.raw ("SELECT * FROM users WHERE id = ".toList),
            Seg.num ("123".toList)] from by decide,
      show ("SELECT * FROM users WHERE id = 456".toList)
        = renderSegs [Seg.raw ("SELECT * FROM users WHERE id = ".toList),
            Seg.num ("456".toList)] from by decide]
    exact h
  · exact c1_fingerprint_invariance_idempotence.2
      ("select a from t where b = 7 and c = \x27x\x27".toList)

end Caboose
